import Mathlib

/-!
# singleflightx: duplicate-call suppression for batches of keys

A shallow embedding of `singleflightx.go`, `sharded.go`, `hasher.go` and
`utils.go`.

* Go maps are association lists (`mapGet`, `mapSet`, `mapDelete`); the order
  of the list is the order of insertion and stands for one of the iteration
  orders Go may choose.
* `*call[V]` pointers are addresses into `World.heap` and channels are
  addresses into `World.chans`; the address `0` is `nil`, and the n-th record
  or channel made has the address `n`.  The value stored for a channel is the
  sequence of Results sent on it so far.
* The regions the source runs under `g.mu` are single functions of the model,
  so two of them never interleave.  `fn` runs outside of the mutex and is a
  function from the key list to the way it ends (`FnOutcome`); the executor
  `doCallX` calls it and fills its records in one step, which writes only
  fields no other thread writes.
* The flag `rx` of the operations that send on channels says whether the
  channels are read: with `rx = false` a send on a channel that holds a Result
  waits for ever, with `rx = true` a receiver takes the Result first.
* The executors a sharded operation starts with `go` run after the
  registrations of all the shards, one after the other in the order in which
  they were started; each works on the records and the channels of its own
  shard.  `ShardedGroup.DoX` is the one reader of the channels it gets: there
  an executor runs until a send has to wait, a receive takes the Result out
  of `World.chans`, and the executor that waited on that channel goes on.
-/

set_option linter.unusedSectionVars false

namespace singleflightx

/-! ## Go maps -/

/-- The Go expression `m[k]` with its `ok` flag: `none` when `k` is absent. -/
def mapGet {K V : Type} [DecidableEq K] : List (K × V) → K → Option V
  | [], _ => none
  | (a, v) :: m, k => if a = k then some v else mapGet m k

/-- The Go statement `m[k] = v`: the entry is replaced when present and added
otherwise. -/
def mapSet {K V : Type} [DecidableEq K] : List (K × V) → K → V → List (K × V)
  | [], k, v => [(k, v)]
  | (a, x) :: m, k, v => if a = k then (a, v) :: m else (a, x) :: mapSet m k v

/-- The Go statement `delete(m, k)`. -/
def mapDelete {K V : Type} [DecidableEq K] (m : List (K × V)) (k : K) : List (K × V) :=
  m.filter (fun e => decide (e.1 ≠ k))

/-- The Go expression `m[k]` without the `ok` flag, for a map of pointers or
of channels: the zero value `nil`, the address `0`, when `k` is absent. -/
def mapIndex {K : Type} [DecidableEq K] (m : List (K × Nat)) (k : K) : Nat :=
  (mapGet m k).getD 0

/-- The keys of a map, in the order of the list. -/
def mapKeys {K V : Type} (m : List (K × V)) : List K := m.map Prod.fst

/-! ## Data model

`Group`, `call`, `Result`, `NullValue`, `panicError` and `errGoexit` are
declared in `singleflight.go`; the fields below are the ones the batch
operations of `singleflightx.go` read and write. -/

/-- The values of the `err` field of a call record: `nil`, an error returned
by the work function, a `*panicError` carrying the recovered panic value, or
the sentinel `errGoexit`. -/
inductive Error (E P : Type) where
  | nil
  | user (e : E)
  | panicError (value : P)
  | errGoexit
  deriving DecidableEq, Repr

/-- The pair `NullValue[V]{Value, Valid}`. -/
structure NullValue (V : Type) where
  Value : V
  Valid : Bool
  deriving DecidableEq, Repr

/-- The triple `Result[V]{Value, Err, Shared}`. -/
structure Result (V E P : Type) where
  Value : NullValue V
  Err : Error E P
  Shared : Bool
  deriving DecidableEq, Repr

/-- The record `call[V]`.  `wg` is the counter of the `sync.WaitGroup`,
`dups` the number of callers that joined after the registration, `chans`
the delivery channels (addresses into `World.chans`).  `dups` is an `int` in
Go and a natural number here: the model does not wrap it around. -/
structure call (V E P : Type) where
  wg : Nat
  value : V
  absent : Bool
  err : Error E P
  dups : Nat
  chans : List Nat
  deriving DecidableEq, Repr

/-- The record `new(call[V])` yields: every field has its zero value. -/
def call.zero {V E P : Type} [Inhabited V] : call V E P :=
  { wg := 0, value := default, absent := false, err := Error.nil, dups := 0, chans := [] }

/-- Everything the groups share: the records, the channels, and the list of
the arguments with which a work function has been invoked, oldest first. -/
structure World (K V E P : Type) where
  heap : Nat → call V E P
  allocated : Nat
  chans : Nat → List (Result V E P)
  made : Nat
  invoked : List (List K)

/-- The struct `Group[K, V]`: the map `m` is `none` while it is the nil map. -/
structure Group (K : Type) where
  m : Option (List (K × Nat))
  deriving DecidableEq, Repr

/-- The zero value `Group[K, V]{}`. -/
def Group.zero {K : Type} : Group K := { m := none }

/-- The number of entries `len(g.m)`. -/
def Group.len {K : Type} (g : Group K) : Nat := (g.m.getD []).length

/-- The expression `g.m[k]` with its `ok` flag; reading the nil map finds
nothing. -/
def Group.get {K : Type} [DecidableEq K] (g : Group K) (k : K) : Option Nat :=
  mapGet (g.m.getD []) k

/-- The statement `delete(g.m, k)`; on the nil map it does nothing. -/
def Group.delete {K : Type} [DecidableEq K] (g : Group K) (k : K) : Group K :=
  { m := g.m.map (fun m => mapDelete m k) }

/-- The way a call of the work function ends: it returns a map (`none` is the
nil map) and an error (`none` is the nil error), it panics with a value, or it
calls `runtime.Goexit`.  The errors a work function returns are its own:
`errGoexit` and `*panicError` are not exported by the package.  The value of
a panic is what `recover()` returns for it, which is not nil: since Go 1.21
`panic(nil)` panics with a `*runtime.PanicNilError`. -/
inductive FnOutcome (K V E P : Type) where
  | returned (values : Option (List (K × V))) (err : Option E)
  | panicked (r : P)
  | goexit

/-- The error value a returned `err` is stored as. -/
def Error.ofReturn {E P : Type} : Option E → Error E P
  | none => Error.nil
  | some e => Error.user e

/-- The ways the thread that runs an operation goes on afterwards.
`returned a`: the operation returned `a`.  `panicked e`: a panic with the
`*panicError` of value `e` is unwinding this thread and can be recovered by
its caller.  `goexit`: the thread is exiting by `runtime.Goexit`.
`crashed e`: the panic was raised on a fresh goroutine (`go panic(e)`), which
nothing can recover, and this thread is parked in `select {}`.
`blocked`: the thread waits, on a `WaitGroup` that is not released or on a
send to a full channel.  `fault`: a run-time error of Go the operations do not
reach from their own registrations (a nil `*call`, a negative `WaitGroup`
counter). -/
inductive Exit (P : Type) (α : Type) where
  | returned (a : α)
  | panicked (e : P)
  | goexit
  | crashed (e : P)
  | blocked
  | fault
  deriving DecidableEq, Repr

/-! ## Records and channels -/

/-- Overwrite the record at address `p`. -/
def World.store {K V E P : Type} (w : World K V E P) (p : Nat) (c : call V E P) :
    World K V E P :=
  { w with heap := fun q => if q = p then c else w.heap q }

/-- Place `c` at the next free address, `w.allocated + 1`. -/
def World.alloc {K V E P : Type} (w : World K V E P) (c : call V E P) : World K V E P :=
  { w with heap := fun q => if q = w.allocated + 1 then c else w.heap q,
           allocated := w.allocated + 1 }

/-- The statement `make(chan Result[V], 1)`: the channel at the next free
address, `w.made + 1`, with nothing sent on it. -/
def World.makeChan {K V E P : Type} (w : World K V E P) : World K V E P :=
  { w with chans := fun q => if q = w.made + 1 then [] else w.chans q,
           made := w.made + 1 }

/-- The statement `ch <- r` on a channel of capacity one.  With `rx = false`
no receiver ever reads: the send goes through when nothing has been sent on
the channel before and waits for ever otherwise (`none`).  With `rx = true` a
receiver reads every channel whenever its slot is full, so no send waits.
A send on the nil channel waits for ever. -/
def World.send {K V E P : Type} (rx : Bool) (w : World K V E P) (ch : Nat)
    (r : Result V E P) : Option (World K V E P) :=
  if ch = 0 then none
  else if (w.chans ch).length < 1 ∨ rx = true then
    some { w with chans := fun q => if q = ch then w.chans ch ++ [r] else w.chans q }
  else none

/-! ## `singleflightx.go` -/

section GroupOps

variable {K V E P : Type} [DecidableEq K] [Inhabited V]

/-- What the registration of `DoX` (lines 13-33) leaves: the state, the map
`calls` and the list `toCall`. -/
structure Registered (K V E P : Type) where
  w : World K V E P
  m : List (K × Nat)
  calls : List (K × Nat)
  toCall : List K

/-- One iteration of the loop of `DoX` over `keys` (lines 21-32). -/
def DoX.step (st : Registered K V E P) (k : K) : Registered K V E P :=
  match mapGet st.m k with
  | some c =>
    { st with
      w := st.w.store c { st.w.heap c with dups := (st.w.heap c).dups + 1 },
      calls := mapSet st.calls k c }
  | none =>
    let c := st.w.allocated + 1
    { w := st.w.alloc { (call.zero : call V E P) with wg := 1 },
      m := mapSet st.m k c,
      calls := mapSet st.calls k c,
      toCall := st.toCall ++ [k] }

/-- The part of `DoX` that runs under `g.mu` (lines 13-33): a nil `g.m` is
replaced by an empty map, then every key joins its record or gets a new one. -/
def DoX.register (w : World K V E P) (g : Group K) (keys : List K) : Registered K V E P :=
  keys.foldl DoX.step { w := w, m := g.m.getD [], calls := [], toCall := [] }

/-- What the registration of `DoChanX` (lines 57-82) leaves: the state, the
map `results` of the channels, the map `calls` and the list `toCall`. -/
structure RegisteredChan (K V E P : Type) where
  w : World K V E P
  m : List (K × Nat)
  results : List (K × Nat)
  calls : List (K × Nat)
  toCall : List K

/-- One iteration of the first loop of `DoChanX` (lines 58-60): a new channel
for the key. -/
def DoChanX.makeStep (st : World K V E P × List (K × Nat)) (k : K) :
    World K V E P × List (K × Nat) :=
  (st.1.makeChan, mapSet st.2 k (st.1.made + 1))

/-- One iteration of the second loop of `DoChanX` (lines 69-81); the loop
reads `results` and does not change it. -/
def DoChanX.step (results : List (K × Nat)) (st : Registered K V E P) (k : K) :
    Registered K V E P :=
  match mapGet st.m k with
  | some c =>
    { st with
      w := st.w.store c { st.w.heap c with
        dups := (st.w.heap c).dups + 1,
        chans := (st.w.heap c).chans ++ [mapIndex results k] },
      calls := mapSet st.calls k c }
  | none =>
    let c := st.w.allocated + 1
    { w := st.w.alloc { (call.zero : call V E P) with
        chans := [mapIndex results k], wg := 1 },
      m := mapSet st.m k c,
      calls := mapSet st.calls k c,
      toCall := st.toCall ++ [k] }

/-- The part of `DoChanX` that runs on the caller's thread (lines 57-82).  The
statement `go g.doCallX(calls, toCall, fn)` that follows starts the executor,
which is `doCallX` applied to the `calls` and `toCall` returned here at the
state in which it gets to run. -/
def DoChanX (w : World K V E P) (g : Group K) (keys : List K) : RegisteredChan K V E P :=
  let made := keys.foldl DoChanX.makeStep (w, [])
  let r := keys.foldl (DoChanX.step made.2)
    { w := made.1, m := g.m.getD [], calls := [], toCall := [] }
  { w := r.w, m := r.m, results := made.2, calls := r.calls, toCall := r.toCall }

/-- The common form of the loops of `DoX` and `DoChanX` over `keys`, for the
proofs: `attach k` is the list of channels the iteration for `k` attaches,
none in `DoX` and `results[k]` in `DoChanX`. -/
def registerStep (attach : K → List Nat) (st : Registered K V E P) (k : K) :
    Registered K V E P :=
  match mapGet st.m k with
  | some c =>
    { st with
      w := st.w.store c { st.w.heap c with
        dups := (st.w.heap c).dups + 1,
        chans := (st.w.heap c).chans ++ attach k },
      calls := mapSet st.calls k c }
  | none =>
    let c := st.w.allocated + 1
    { w := st.w.alloc { (call.zero : call V E P) with chans := attach k, wg := 1 },
      m := mapSet st.m k c,
      calls := mapSet st.calls k c,
      toCall := st.toCall ++ [k] }

/-- The registration of a batch call: the one of `DoChanX` when `chan` is
true, the one of `DoX`, which makes no channel, when it is false. -/
def register (chan : Bool) (w : World K V E P) (g : Group K) (keys : List K) :
    RegisteredChan K V E P :=
  if chan then DoChanX w g keys
  else
    { w := (DoX.register w g keys).w, m := (DoX.register w g keys).m, results := [],
      calls := (DoX.register w g keys).calls, toCall := (DoX.register w g keys).toCall }

/-- The keys of a list without their repetitions, each at the place of its
first occurrence: the "distinct keys in first-occurrence order" of the
specification. -/
def firstOccurrences : List K → List K
  | [] => []
  | k :: ks => k :: (firstOccurrences ks).filter (fun x => decide (x ≠ k))

/-- The loop `for _, key := range keys { c[key].err = e }` of the two
handlers of `doCallX`; `none` when `c[key]` is nil. -/
def setErr (c : List (K × Nat)) (e : Error E P) :
    World K V E P → List K → Option (World K V E P)
  | w, [] => some w
  | w, key :: keys =>
    let p := mapIndex c key
    if p = 0 then none
    else setErr c e (w.store p { w.heap p with err := e }) keys

/-- The body of the loop of `doCallX` that fills the records (lines 161-166),
on the record of `key`: `err` is set, and `value` when `values` has the key,
`absent` otherwise. -/
def call.fill (r : call V E P) (values : List (K × V)) (err : Error E P) (key : K) :
    call V E P :=
  let r := { r with err := err }
  match mapGet values key with
  | some v => { r with value := v }
  | none => { r with absent := true }

/-- The loop of `doCallX` that fills the records from what `fn` returned
(lines 160-167); `none` when `c[key]` is nil. -/
def populate (c : List (K × Nat)) (values : List (K × V)) (err : Error E P) :
    World K V E P → List K → Option (World K V E P)
  | w, [] => some w
  | w, key :: keys =>
    let p := mapIndex c key
    if p = 0 then none
    else populate c values err (w.store p ((w.heap p).fill values err key)) keys

/-- The inner function of `doCallX` (lines 137-170) with its deferred
handler: the state it leaves, `normalReturn`, and whether the thread is
exiting by `runtime.Goexit`.  `none` when `c[key]` is nil. -/
def doCallX.inner (w : World K V E P) (c : List (K × Nat)) (keys : List K)
    (fn : List K → FnOutcome K V E P) : Option (World K V E P × Bool × Bool) :=
  let w := { w with invoked := w.invoked ++ [keys] }
  match fn keys with
  | FnOutcome.returned values err =>
    (populate c (values.getD []) (Error.ofReturn err) w keys).map (fun w => (w, true, false))
  | FnOutcome.panicked r =>
    (setErr c (Error.panicError r) w keys).map (fun w => (w, false, false))
  | FnOutcome.goexit => some (w, false, true)

/-- The Result the source builds from a record:
`Result[V]{NullValue[V]{c.value, !c.absent}, c.err, c.dups > 0}`. -/
def call.result (c : call V E P) : Result V E P :=
  { Value := { Value := c.value, Valid := !c.absent }, Err := c.err,
    Shared := decide (c.dups > 0) }

/-- The loop `for _, ch := range c[key].chans { ch <- r }` (lines 130-132):
the state, and `false` when a send waits for ever. -/
def deliver (rx : Bool) (r : Result V E P) : World K V E P → List Nat → World K V E P × Bool
  | w, [] => (w, true)
  | w, ch :: chans =>
    match w.send rx ch r with
    | none => (w, false)
    | some w => deliver rx r w chans

/-- The loop of the deferred function of `doCallX` that runs under `g.mu`
(lines 111-134). -/
def doCallX.loop (rx : Bool) (c : List (K × Nat)) :
    World K V E P → Group K → List K → World K V E P × Group K × Exit P Unit
  | w, g, [] => (w, g, Exit.returned ())
  | w, g, key :: keys =>
    let p := mapIndex c key
    if p = 0 then (w, g, Exit.fault)
    else if (w.heap p).wg = 0 then (w, g, Exit.fault)
    else
      let w := w.store p { w.heap p with wg := (w.heap p).wg - 1 }
      let g := if mapIndex (g.m.getD []) key = p then g.delete key else g
      match (w.heap p).err with
      | Error.panicError e =>
        if (w.heap p).chans.length > 0 then (w, g, Exit.crashed e)
        else (w, g, Exit.panicked e)
      | Error.errGoexit => doCallX.loop rx c w g keys
      | _ =>
        match deliver rx (w.heap p).result w (w.heap p).chans with
        | (w, false) => (w, g, Exit.blocked)
        | (w, true) => doCallX.loop rx c w g keys

/-- The outer deferred function of `doCallX` (lines 100-135). -/
def doCallX.deferred (rx : Bool) (w : World K V E P) (g : Group K) (c : List (K × Nat))
    (keys : List K) (normalReturn recovered : Bool) : World K V E P × Group K × Exit P Unit :=
  if !normalReturn && !recovered then
    match setErr c Error.errGoexit w keys with
    | none => (w, g, Exit.fault)
    | some w => doCallX.loop rx c w g keys
  else doCallX.loop rx c w g keys

/-- The method `doCallX(c, keys, fn)`. -/
def doCallX (rx : Bool) (w : World K V E P) (g : Group K) (c : List (K × Nat))
    (keys : List K) (fn : List K → FnOutcome K V E P) :
    World K V E P × Group K × Exit P Unit :=
  if keys.length = 0 then (w, g, Exit.returned ())
  else
    match doCallX.inner w c keys fn with
    | none => (w, g, Exit.fault)
    | some (w, normalReturn, exiting) =>
      -- lines 172-174 are not reached by a thread that is exiting
      let recovered := if exiting then false else !normalReturn
      match doCallX.deferred rx w g c keys normalReturn recovered with
      | (w, g, Exit.returned ()) => (w, g, if exiting then Exit.goexit else Exit.returned ())
      | r => r

/-- The first statement of the outer deferred function of `doCallX` (lines
102-106): the records are marked with `errGoexit` when `fn` neither returned
nor had its panic recovered.  `none` when `c[key]` is nil. -/
def doCallX.marked (w : World K V E P) (c : List (K × Nat)) (keys : List K)
    (normalReturn recovered : Bool) : Option (World K V E P) :=
  if !normalReturn && !recovered then setErr c Error.errGoexit w keys else some w

/-- The state of `doCallX(c, keys, fn)`, for a non-empty `keys`, at the point
where its outer deferred function takes `g.mu` (line 108) and starts to
dispatch on the `err` of the records.  `none` when `c[key]` is nil. -/
def doCallX.atDispatch (w : World K V E P) (c : List (K × Nat)) (keys : List K)
    (fn : List K → FnOutcome K V E P) : Option (World K V E P) :=
  match doCallX.inner w c keys fn with
  | none => none
  | some (w, normalReturn, exiting) =>
    doCallX.marked w c keys normalReturn (if exiting then false else !normalReturn)

/-- The loop of `DoX` over `calls` (lines 37-47), in the order of the list. -/
def DoX.wait (w : World K V E P) :
    List (K × Nat) → List (K × Result V E P) → Exit P (List (K × Result V E P))
  | [], results => Exit.returned results
  | (k, c) :: calls, results =>
    if (w.heap c).wg > 0 then Exit.blocked
    else
      match (w.heap c).err with
      | Error.panicError e => Exit.panicked e
      | Error.errGoexit => Exit.goexit
      | _ => DoX.wait w calls (mapSet results k (w.heap c).result)

/-- The method `DoX(keys, fn)` when no other thread runs between its
registration and its return. -/
def DoX (rx : Bool) (w : World K V E P) (g : Group K) (keys : List K)
    (fn : List K → FnOutcome K V E P) :
    World K V E P × Group K × Exit P (List (K × Result V E P)) :=
  let r := DoX.register w g keys
  match doCallX rx r.w { m := some r.m } r.calls r.toCall fn with
  | (w, g, Exit.returned ()) => (w, g, DoX.wait w r.calls [])
  | (w, g, Exit.panicked e) => (w, g, Exit.panicked e)
  | (w, g, Exit.goexit) => (w, g, Exit.goexit)
  | (w, g, Exit.crashed e) => (w, g, Exit.crashed e)
  | (w, g, Exit.blocked) => (w, g, Exit.blocked)
  | (w, g, Exit.fault) => (w, g, Exit.fault)

/-- The method `ForgetX(keys)`. -/
def ForgetX (w : World K V E P) (g : Group K) (keys : List K) : World K V E P × Group K :=
  (w, keys.foldl Group.delete g)

end GroupOps

/-! ## `utils.go` and `hasher.go` -/

/-- One iteration of the loop of `partitionBy`. -/
def partitionBy.step {K : Type} (iteratee : K → Nat) (result : List (Nat × List K))
    (item : K) : List (Nat × List K) :=
  let key := iteratee item
  let result := match mapGet result key with
    | some _ => result
    | none => mapSet result key []
  mapSet result key ((mapGet result key).getD [] ++ [item])

/-- The function `partitionBy(collection, iteratee)`. -/
def partitionBy {K : Type} (collection : List K) (iteratee : K → Nat) :
    List (Nat × List K) :=
  collection.foldl (partitionBy.step iteratee) []

/-- The method `Hasher.computeHash(key, shards)`:
`uint(fn(key) % uint64(shards))`, where `uint` has `bits` bits (32 or 64) and
the hash is an unsigned 64-bit number.  `none` is the run-time panic of an
integer division by zero. -/
def computeHash {K : Type} (bits : Nat) (fn : K → Nat) (key : K) (shards : Nat) :
    Option Nat :=
  let h := fn key % 2 ^ 64
  let n := (shards % 2 ^ bits) % 2 ^ 64
  if n = 0 then none else some ((h % n) % 2 ^ bits)

/-- The struct `ShardedGroup[K, V]`. -/
structure ShardedGroup (K : Type) where
  count : Nat
  shards : List (Group K)
  hasher : K → Nat

/-- The constructor `NewShardedGroup(count, hasher)`. -/
def NewShardedGroup {K : Type} (count : Nat) (hasher : K → Nat) : ShardedGroup K :=
  { count := count, shards := List.replicate count Group.zero, hasher := hasher }

/-! ## `sharded.go`

The sharded operations work on the list of the shards and on the one `World`
all of them share.  `none` is a run-time panic of the operation itself: the
integer division by zero of `computeHash`, or an index out of the range of
`sg.shards`. -/

section ShardedOps

variable {K V E P : Type} [DecidableEq K] [Inhabited V]

/-- The projection the sharded operations give to `partitionBy`:
`sg.hasher.computeHash(key, sg.count)`, read where it does not panic. -/
def ShardedGroup.shardOf (bits : Nat) (sg : ShardedGroup K) (key : K) : Nat :=
  (computeHash bits sg.hasher key sg.count).getD 0

/-- The statement `keysByShard := partitionBy(keys, ...)` of `DoChanX` and
`ForgetX`; `none` when `computeHash` panics for one of the keys. -/
def ShardedGroup.keysByShard (bits : Nat) (sg : ShardedGroup K) (keys : List K) :
    Option (List (Nat × List K)) :=
  if keys.all (fun key => (computeHash bits sg.hasher key sg.count).isSome) then
    some (partitionBy keys (ShardedGroup.shardOf bits sg))
  else none

/-- An executor started by the `DoChanX` of a shard, the statement
`go g.doCallX(calls, toCall, fn)` on the group `sg.shards[shard]`, with the
map of channels that `DoChanX` returned. -/
structure Spawned (K : Type) where
  shard : Nat
  results : List (K × Nat)
  calls : List (K × Nat)
  toCall : List K
  deriving DecidableEq, Repr

/-- What `ShardedGroup.DoChanX` leaves: the state, the shards, the merged map
`results`, and the executors started, oldest first. -/
structure ShardedChan (K V E P : Type) where
  w : World K V E P
  shards : List (Group K)
  results : List (K × Nat)
  spawned : List (Spawned K)

/-- The loop of `ShardedGroup.DoChanX` over `keysByShard`, in the order of the
list: the `DoChanX` of the shard, then `results[k] = ch` for what it returned. -/
def ShardedGroup.DoChanX.loop :
    ShardedChan K V E P → List (Nat × List K) → Option (ShardedChan K V E P)
  | st, [] => some st
  | st, (i, keys) :: rest =>
    match st.shards[i]? with
    | none => none
    | some g =>
      let iter := singleflightx.DoChanX st.w g keys
      ShardedGroup.DoChanX.loop
        { w := iter.w,
          shards := st.shards.set i { m := some iter.m },
          results := iter.results.foldl (fun results e => mapSet results e.1 e.2) st.results,
          spawned := st.spawned ++ [{ shard := i, results := iter.results,
                                      calls := iter.calls, toCall := iter.toCall }] }
        rest

/-- The method `ShardedGroup.DoChanX(keys, fn)`, up to its return; the
executors it has started are in `spawned`. -/
def ShardedGroup.DoChanX (bits : Nat) (w : World K V E P) (sg : ShardedGroup K)
    (keys : List K) : Option (ShardedChan K V E P) :=
  match ShardedGroup.keysByShard bits sg keys with
  | none => none
  | some keysByShard =>
    ShardedGroup.DoChanX.loop { w := w, shards := sg.shards, results := [], spawned := [] }
      keysByShard

/-- The loop of `ShardedGroup.ForgetX` over `keysByShard`. -/
def ShardedGroup.ForgetX.loop :
    World K V E P → List (Group K) → List (Nat × List K)
      → Option (World K V E P × List (Group K))
  | w, shards, [] => some (w, shards)
  | w, shards, (i, keys) :: rest =>
    match shards[i]? with
    | none => none
    | some g =>
      ShardedGroup.ForgetX.loop (singleflightx.ForgetX w g keys).1
        (shards.set i (singleflightx.ForgetX w g keys).2) rest

/-- The method `ShardedGroup.ForgetX(keys)`. -/
def ShardedGroup.ForgetX (bits : Nat) (w : World K V E P) (sg : ShardedGroup K)
    (keys : List K) : Option (World K V E P × List (Group K)) :=
  match ShardedGroup.keysByShard bits sg keys with
  | none => none
  | some keysByShard => ShardedGroup.ForgetX.loop w sg.shards keysByShard

/-- How far the loop of the deferred function of `doCallX` (lines 111-134)
has got on the thread of an executor.  `finished`: the loop has ended.
`waiting r chans keys`: it waits on a send of `r`; `chans` are the channels of
the record it has still to send `r` on, the first being the one it waits on,
and `keys` the keys it has still to handle.  `panicked e`, `crashed e`: it has
raised the panic, on this thread or on a fresh one.  `fault`: a run-time
error. -/
inductive Progress (K V E P : Type) where
  | finished
  | waiting (r : Result V E P) (chans : List Nat) (keys : List K)
  | panicked (e : P)
  | crashed (e : P)
  | fault
  deriving DecidableEq, Repr

/-- The way `doCallX.loop` tells the same: `waiting` is `Exit.blocked`. -/
def Progress.exit : Progress K V E P → Exit P Unit
  | Progress.finished => Exit.returned ()
  | Progress.waiting _ _ _ => Exit.blocked
  | Progress.panicked e => Exit.panicked e
  | Progress.crashed e => Exit.crashed e
  | Progress.fault => Exit.fault

/-- The loop `for _, ch := range c[key].chans { ch <- r }` (lines 130-132) as
far as it gets before a send has to wait, on channels whose Results are taken
out of `w.chans` when they are received: the state, and the channels `r` has
still to be sent on, the first being the one the send waits on.  A send waits
when the channel holds a Result. -/
def deliverPending (r : Result V E P) :
    World K V E P → List Nat → World K V E P × List Nat
  | w, [] => (w, [])
  | w, ch :: chans =>
    match w.send false ch r with
    | none => (w, ch :: chans)
    | some w => deliverPending r w chans

/-- The loop of the deferred function of `doCallX` that runs under `g.mu`
(lines 111-134), as far as it gets before a send has to wait; it is
`doCallX.loop false` with the place it has got to. -/
def doCallX.loopFrom (c : List (K × Nat)) :
    World K V E P → Group K → List K → World K V E P × Group K × Progress K V E P
  | w, g, [] => (w, g, Progress.finished)
  | w, g, key :: keys =>
    let p := mapIndex c key
    if p = 0 then (w, g, Progress.fault)
    else if (w.heap p).wg = 0 then (w, g, Progress.fault)
    else
      let w := w.store p { w.heap p with wg := (w.heap p).wg - 1 }
      let g := if mapIndex (g.m.getD []) key = p then g.delete key else g
      match (w.heap p).err with
      | Error.panicError e =>
        if (w.heap p).chans.length > 0 then (w, g, Progress.crashed e)
        else (w, g, Progress.panicked e)
      | Error.errGoexit => doCallX.loopFrom c w g keys
      | _ =>
        let r := (w.heap p).result
        match deliverPending r w (w.heap p).chans with
        | (w, []) => doCallX.loopFrom c w g keys
        | (w, ch :: chans) => (w, g, Progress.waiting r (ch :: chans) keys)

/-- The loop of the deferred function taken up again where it waited: the
sends of `r` that are left, then the keys that are left. -/
def doCallX.resume (c : List (K × Nat)) (w : World K V E P) (g : Group K)
    (r : Result V E P) (chans : List Nat) (keys : List K) :
    World K V E P × Group K × Progress K V E P :=
  match deliverPending r w chans with
  | (w, []) => doCallX.loopFrom c w g keys
  | (w, ch :: chans) => (w, g, Progress.waiting r (ch :: chans) keys)

/-- The executor `go g.doCallX(c, keys, fn)` as far as it gets before a send
has to wait.  When the loop of the deferred function has ended the thread of
the executor ends, by the return of `doCallX` or, when `fn` called
`runtime.Goexit`, by the exit that goes on. -/
def doCallX.start (w : World K V E P) (g : Group K) (c : List (K × Nat)) (keys : List K)
    (fn : List K → FnOutcome K V E P) : World K V E P × Group K × Progress K V E P :=
  if keys.length = 0 then (w, g, Progress.finished)
  else
    match doCallX.atDispatch w c keys fn with
    | none => (w, g, Progress.fault)
    | some w => doCallX.loopFrom c w g keys

/-- An executor of `ShardedGroup.DoX` that waits on a send: the shard and the
map `calls` it works on, and the place its loop has got to. -/
structure Waiting (K V E P : Type) where
  shard : Nat
  calls : List (K × Nat)
  result : Result V E P
  chans : List Nat
  keys : List K
  deriving DecidableEq, Repr

/-- The executors `ShardedGroup.DoChanX` has started, each run as far as it
gets before a send has to wait, one after the other in the order in which
they were started.  An executor that ends leaves the others running, and so
does one that waits, which is added to the list of the waiting ones; a panic
that unwinds an executor's thread has nothing to recover it and ends the
program like `go panic(e)`. -/
def ShardedGroup.DoX.run (fn : List K → FnOutcome K V E P) :
    World K V E P → List (Group K) → List (Spawned K) → List (Waiting K V E P)
      → World K V E P × List (Group K) × List (Waiting K V E P) × Exit P Unit
  | w, shards, [], ws => (w, shards, ws, Exit.returned ())
  | w, shards, t :: ts, ws =>
    match shards[t.shard]? with
    | none => (w, shards, ws, Exit.fault)
    | some g =>
      match doCallX.start w g t.calls t.toCall fn with
      | (w, g, Progress.finished) =>
        ShardedGroup.DoX.run fn w (shards.set t.shard g) ts ws
      | (w, g, Progress.waiting r chans keys) =>
        ShardedGroup.DoX.run fn w (shards.set t.shard g) ts
          (ws ++ [{ shard := t.shard, calls := t.calls, result := r, chans := chans,
                    keys := keys }])
      | (w, g, Progress.panicked e) => (w, shards.set t.shard g, ws, Exit.crashed e)
      | (w, g, Progress.crashed e) => (w, shards.set t.shard g, ws, Exit.crashed e)
      | (w, g, Progress.fault) => (w, shards.set t.shard g, ws, Exit.fault)

/-- After a Result has been received from the channel `c`: the first of the
waiting executors that waits on a send on `c` goes on, as far as it gets
before a send has to wait again. -/
def ShardedGroup.DoX.wake (c : Nat) :
    World K V E P → List (Group K) → List (Waiting K V E P)
      → World K V E P × List (Group K) × List (Waiting K V E P) × Exit P Unit
  | w, shards, [] => (w, shards, [], Exit.returned ())
  | w, shards, e :: ws =>
    if e.chans.head? = some c then
      match shards[e.shard]? with
      | none => (w, shards, e :: ws, Exit.fault)
      | some g =>
        match doCallX.resume e.calls w g e.result e.chans e.keys with
        | (w, g, Progress.finished) => (w, shards.set e.shard g, ws, Exit.returned ())
        | (w, g, Progress.waiting r chans keys) =>
          (w, shards.set e.shard g,
            { shard := e.shard, calls := e.calls, result := r, chans := chans,
              keys := keys } :: ws,
            Exit.returned ())
        | (w, g, Progress.panicked x) => (w, shards.set e.shard g, ws, Exit.crashed x)
        | (w, g, Progress.crashed x) => (w, shards.set e.shard g, ws, Exit.crashed x)
        | (w, g, Progress.fault) => (w, shards.set e.shard g, ws, Exit.fault)
    else
      match ShardedGroup.DoX.wake c w shards ws with
      | (w, shards, ws, x) => (w, shards, e :: ws, x)

/-- The loop `for k, c := range ch { results[k] = <-c }` of
`ShardedGroup.DoX`, in the order of the list.  The caller is the one reader of
these channels.  The receive takes the Result the channel holds out of it,
and the executor that waited on a send on this channel goes on; when the
channel holds nothing the receive waits for ever, every executor having run
as far as it gets. -/
def ShardedGroup.DoX.receive :
    World K V E P → List (Group K) → List (Waiting K V E P) → List (K × Nat)
      → List (K × Result V E P)
      → World K V E P × List (Group K) × Exit P (List (K × Result V E P))
  | w, shards, _, [], results => (w, shards, Exit.returned results)
  | w, shards, ws, (k, c) :: ch, results =>
    if c = 0 then (w, shards, Exit.blocked)
    else
      match w.chans c with
      | [] => (w, shards, Exit.blocked)
      | r :: held =>
        match ShardedGroup.DoX.wake c
            { w with chans := fun q => if q = c then held else w.chans q } shards ws with
        | (w, shards, ws, Exit.returned ()) =>
          ShardedGroup.DoX.receive w shards ws ch (mapSet results k r)
        | (w, shards, _, Exit.panicked e) => (w, shards, Exit.panicked e)
        | (w, shards, _, Exit.goexit) => (w, shards, Exit.goexit)
        | (w, shards, _, Exit.crashed e) => (w, shards, Exit.crashed e)
        | (w, shards, _, Exit.blocked) => (w, shards, Exit.blocked)
        | (w, shards, _, Exit.fault) => (w, shards, Exit.fault)

/-- The method `ShardedGroup.DoX(keys, fn)` when no other thread runs between
its call of `DoChanX` and its return: the executors `DoChanX` has started run
as far as they get before a send has to wait, then the caller receives from
each channel, which lets the executor that waited on it go on. -/
def ShardedGroup.DoX (bits : Nat) (w : World K V E P) (sg : ShardedGroup K)
    (keys : List K) (fn : List K → FnOutcome K V E P) :
    Option (World K V E P × List (Group K) × Exit P (List (K × Result V E P))) :=
  match ShardedGroup.DoChanX bits w sg keys with
  | none => none
  | some r =>
    match ShardedGroup.DoX.run fn r.w r.shards r.spawned [] with
    | (w, shards, ws, Exit.returned ()) =>
      some (ShardedGroup.DoX.receive w shards ws r.results [])
    | (w, shards, _, Exit.panicked e) => some (w, shards, Exit.panicked e)
    | (w, shards, _, Exit.goexit) => some (w, shards, Exit.goexit)
    | (w, shards, _, Exit.crashed e) => some (w, shards, Exit.crashed e)
    | (w, shards, _, Exit.blocked) => some (w, shards, Exit.blocked)
    | (w, shards, _, Exit.fault) => some (w, shards, Exit.fault)

/-- The loop of `specShardedDoX` over `keysByShard`. -/
def specShardedDoX.loop (rx : Bool) (fn : List K → FnOutcome K V E P) :
    World K V E P → List (Group K) → List (Nat × List K) → List (K × Result V E P)
      → Option (World K V E P × List (Group K) × Exit P (List (K × Result V E P)))
  | w, shards, [], results => some (w, shards, Exit.returned results)
  | w, shards, (i, keys) :: rest, results =>
    match shards[i]? with
    | none => none
    | some g =>
      match singleflightx.DoX rx w g keys fn with
      | (w, g, Exit.returned r) =>
        specShardedDoX.loop rx fn w (shards.set i g) rest
          (r.foldl (fun results e => mapSet results e.1 e.2) results)
      | (w, g, Exit.panicked e) => some (w, shards.set i g, Exit.panicked e)
      | (w, g, Exit.goexit) => some (w, shards.set i g, Exit.goexit)
      | (w, g, Exit.crashed e) => some (w, shards.set i g, Exit.crashed e)
      | (w, g, Exit.blocked) => some (w, shards.set i g, Exit.blocked)
      | (w, g, Exit.fault) => some (w, shards.set i g, Exit.fault)

/-- The sharded `DoX` as the specification words it, to compare
`ShardedGroup.DoX` with: `Group.DoX` called on each owning shard with the keys
of that shard, on the caller's thread, the result maps merged. -/
def specShardedDoX (rx : Bool) (bits : Nat) (w : World K V E P) (sg : ShardedGroup K)
    (keys : List K) (fn : List K → FnOutcome K V E P) :
    Option (World K V E P × List (Group K) × Exit P (List (K × Result V E P))) :=
  match ShardedGroup.keysByShard bits sg keys with
  | none => none
  | some keysByShard => specShardedDoX.loop rx fn w sg.shards keysByShard []

end ShardedOps

/-! ## States and work functions of the tests -/

/-- The state in which no record and no channel has been made and no work
function has been invoked. -/
def World.init {K V E P : Type} [Inhabited V] : World K V E P :=
  { heap := fun _ => call.zero, allocated := 0, chans := fun _ => [], made := 0,
    invoked := [] }

/-- The work function of the "many but partial result" case of `TestDoX`: it
returns `{"a": "foo", "c": "bar"}` and a nil error. -/
def fnPartial : List String → FnOutcome String String String String :=
  fun _ => FnOutcome.returned (some [("a", "foo"), ("c", "bar")]) none

/-- The work function of `TestDoXErr`: it returns a nil map and an error. -/
def fnErr : List String → FnOutcome String String String String :=
  fun _ => FnOutcome.returned none (some "Some error")

/-- The work function of the second call of `TestDoChanX`: it returns
`{"a": "foo", "b": "bar"}` and the error `assert.AnError`. -/
def fnAnError : List String → FnOutcome String String String String :=
  fun _ => FnOutcome.returned (some [("a", "foo"), ("b", "bar")])
    (some "assert.AnError general error for testing")

/-- The work function of `ExampleGroup`: it returns `{"foo": 21, "bar": 42}`
and a nil error. -/
def fnExample : List String → FnOutcome String Int String String :=
  fun _ => FnOutcome.returned (some [("foo", 21), ("bar", 42)]) none

/-- A work function in the place of the first one of `TestForget`: it returns
a nil map and a nil error. -/
def fnFirst : List String → FnOutcome String Int String String :=
  fun _ => FnOutcome.returned none none

/-- The work function of the second call of `TestForget`: it returns `2`. -/
def fnSecond : List String → FnOutcome String Int String String :=
  fun _ => FnOutcome.returned (some [("key", 2)]) none

/-- The work function of `TestPanicDoX`: it panics. -/
def fnPanic : List String → FnOutcome String String String String :=
  fun _ => FnOutcome.panicked "invalid memory address or nil pointer dereference"

/-- The work function of `TestGoexitDoX`: it calls `runtime.Goexit`. -/
def fnGoexit : List String → FnOutcome String String String String :=
  fun _ => FnOutcome.goexit

end singleflightx

namespace singleflightx

/-! ## Lemmas on Go maps -/

section MapLemmas

variable {K V : Type} [DecidableEq K]

theorem mapGet_mapSet_self (m : List (K × V)) (k : K) (v : V) :
    mapGet (mapSet m k v) k = some v := by
  induction m with
  | nil => simp [mapSet, mapGet]
  | cons e m ih =>
    obtain ⟨a, x⟩ := e
    by_cases h : a = k
    · simp [mapSet, mapGet, h]
    · simp [mapSet, mapGet, h, ih]

theorem mapGet_mapSet_ne (m : List (K × V)) (k k' : K) (v : V) (h : k' ≠ k) :
    mapGet (mapSet m k v) k' = mapGet m k' := by
  induction m with
  | nil =>
    have h' : ¬ k = k' := fun e => h e.symm
    simp [mapSet, mapGet, h']
  | cons e m ih =>
    obtain ⟨a, x⟩ := e
    by_cases h1 : a = k
    · subst h1
      have h' : ¬ a = k' := fun e => h e.symm
      simp [mapSet, mapGet, h']
    · by_cases h2 : a = k'
      · subst h2
        simp [mapSet, mapGet, h1]
      · simp [mapSet, mapGet, h1, h2, ih]

theorem mapGet_mapSet (m : List (K × V)) (k k' : K) (v : V) :
    mapGet (mapSet m k v) k' = if k' = k then some v else mapGet m k' := by
  by_cases h : k' = k
  · subst h; simp [mapGet_mapSet_self]
  · simp [h, mapGet_mapSet_ne m k k' v h]

theorem mapGet_mapDelete (m : List (K × V)) (k k' : K) :
    mapGet (mapDelete m k) k' = if k' = k then none else mapGet m k' := by
  induction m with
  | nil => simp [mapDelete, mapGet]
  | cons e m ih =>
    obtain ⟨a, x⟩ := e
    unfold mapDelete at ih ⊢
    by_cases h1 : a = k
    · subst h1
      by_cases h2 : k' = a
      · subst h2; simpa [List.filter_cons, mapGet] using ih
      · have h3 : ¬ a = k' := fun e => h2 e.symm
        simpa [List.filter_cons, mapGet, h2, h3] using ih
    · by_cases h2 : k' = k
      · subst h2
        have h3 : ¬ a = k' := h1
        simpa [List.filter_cons, mapGet, h1, h3] using ih
      · by_cases h3 : a = k'
        · simp [List.filter_cons, mapGet, h1, h2, h3]
        · simpa [List.filter_cons, mapGet, h1, h2, h3] using ih

theorem mapGet_eq_none_iff (m : List (K × V)) (k : K) :
    mapGet m k = none ↔ k ∉ mapKeys m := by
  induction m with
  | nil => simp [mapGet, mapKeys]
  | cons e m ih =>
    obtain ⟨a, x⟩ := e
    by_cases h : a = k
    · simp [mapGet, mapKeys, h]
    · have h' : ¬ k = a := fun e => h e.symm
      simpa [mapGet, mapKeys, h, h'] using ih

theorem eq_nil_of_mapGet_none (m : List (K × V)) (h : ∀ k, mapGet m k = none) : m = [] := by
  cases m with
  | nil => rfl
  | cons e m =>
    have := h e.1
    simp [mapGet] at this

theorem mem_mapKeys_mapSet (m : List (K × V)) (k k' : K) (v : V) :
    k' ∈ mapKeys (mapSet m k v) ↔ k' = k ∨ k' ∈ mapKeys m := by
  have h1 := mapGet_eq_none_iff (mapSet m k v) k'
  have h2 := mapGet_eq_none_iff m k'
  rw [mapGet_mapSet] at h1
  by_cases h : k' = k
  · simp [h] at h1 ⊢
    simpa [h] using h1
  · simp only [h, if_false] at h1
    simp only [h, false_or]
    constructor
    · intro hm
      by_contra hn
      exact (h1.mp (h2.mpr hn)) hm
    · intro hm
      by_contra hn
      exact (h2.mp (h1.mpr hn)) hm

theorem mapKeys_mapSet_nodup (m : List (K × V)) (k : K) (v : V)
    (h : (mapKeys m).Nodup) : (mapKeys (mapSet m k v)).Nodup := by
  induction m with
  | nil => simp [mapSet, mapKeys]
  | cons e m ih =>
    obtain ⟨a, x⟩ := e
    have hcons : (a :: mapKeys m).Nodup := by simpa [mapKeys] using h
    have ha : a ∉ mapKeys m := (List.nodup_cons.mp hcons).1
    have hm : (mapKeys m).Nodup := (List.nodup_cons.mp hcons).2
    by_cases h1 : a = k
    · simpa [mapSet, h1, mapKeys] using h
    · have hgoal : (a :: mapKeys (mapSet m k v)).Nodup := by
        refine List.nodup_cons.mpr ⟨?_, ih hm⟩
        rw [mem_mapKeys_mapSet]
        rintro (h2 | h2)
        · exact h1 h2
        · exact ha h2
      simpa [mapSet, h1, mapKeys] using hgoal

end MapLemmas

/-! ## ForgetX -/

section ForgetLemmas

variable {K V E P : Type} [DecidableEq K]

theorem foldl_delete_get (ks : List K) (g : Group K) (k : K) :
    (ks.foldl Group.delete g).get k = if k ∈ ks then none else g.get k := by
  induction ks generalizing g with
  | nil => simp
  | cons a ks ih =>
    rw [List.foldl_cons, ih]
    have hdel : (g.delete a).get k = if k = a then none else g.get k := by
      cases hm : g.m with
      | none => simp [Group.delete, Group.get, hm, mapGet]
      | some m => simp [Group.delete, Group.get, hm, mapGet_mapDelete]
    by_cases h1 : k ∈ ks
    · simp [h1]
    · by_cases h2 : k = a
      · subst h2
        simp [h1, hdel]
      · simp [h1, h2, hdel]

theorem foldl_delete_m (ks : List K) (g : Group K) :
    (ks.foldl Group.delete g).m
      = g.m.map (fun m => m.filter (fun e => decide (e.1 ∉ ks))) := by
  induction ks generalizing g with
  | nil => cases h : g.m <;> simp [h]
  | cons a ks ih =>
    rw [List.foldl_cons, ih]
    cases h : g.m with
    | none => simp [Group.delete, h]
    | some m =>
      simp only [Group.delete, h, Option.map_some', List.filter_filter, mapDelete]
      congr 1
      apply List.filter_congr
      intro e _
      by_cases h1 : e.1 = a
      · simp [h1]
      · by_cases h2 : e.1 ∈ ks
        · simp [h1, h2]
        · simp [h1, h2]

/-- C8: `ForgetX(ks)` leaves the records and channels as they were, removes
from the mapping exactly the keys of `ks` (an entry that remains points to the
record it pointed to), leaves the nil map of a zero-value group nil, and a
second `ForgetX(ks)` changes nothing more. -/
theorem ForgetX_removes_exactly (w : World K V E P) (g : Group K) (ks : List K) :
    (ForgetX w g ks).1 = w
    ∧ (∀ k, (ForgetX w g ks).2.get k = if k ∈ ks then none else g.get k)
    ∧ (ForgetX w (Group.zero : Group K) ks).2 = Group.zero
    ∧ ForgetX (ForgetX w g ks).1 (ForgetX w g ks).2 ks = ForgetX w g ks := by
  refine ⟨rfl, fun k => foldl_delete_get ks g k, ?_, ?_⟩
  · have h := foldl_delete_m ks (Group.zero : Group K)
    cases hres : List.foldl Group.delete (Group.zero : Group K) ks with
    | mk m =>
      rw [hres] at h
      simp only [Group.zero, Option.map_none'] at h
      show List.foldl Group.delete (Group.zero : Group K) ks = Group.zero
      rw [hres]
      exact congrArg Group.mk h
  · simp only [ForgetX]
    congr 1
    cases hres : List.foldl Group.delete g ks with
    | mk m =>
      cases hres2 : List.foldl Group.delete ({ m := m } : Group K) ks with
      | mk m2 =>
        have h1 := foldl_delete_m ks g
        have h2 := foldl_delete_m ks ({ m := m } : Group K)
        rw [hres] at h1
        rw [hres2] at h2
        simp only at h1 h2
        rw [h2, h1]
        cases g.m with
        | none => simp
        | some m0 => simp [List.filter_filter]

end ForgetLemmas

/-! ## partitionBy and computeHash -/

section PartitionLemmas

variable {K : Type}

theorem mapSet_mapSet_same {A V : Type} [DecidableEq A] (m : List (A × V)) (k : A) (u v : V) :
    mapSet (mapSet m k u) k v = mapSet m k v := by
  induction m with
  | nil => simp [mapSet]
  | cons e m ih =>
    obtain ⟨a, x⟩ := e
    by_cases h : a = k
    · simp [mapSet, h]
    · simp [mapSet, h, ih]

theorem partitionBy_step_eq (p : K → Nat) (r : List (Nat × List K)) (a : K) :
    partitionBy.step p r a = mapSet r (p a) ((mapGet r (p a)).getD [] ++ [a]) := by
  cases h : mapGet r (p a) with
  | none => simp [partitionBy.step, h, mapGet_mapSet_self, mapSet_mapSet_same]
  | some xs => simp [partitionBy.step, h]

theorem partitionBy_concat (l : List K) (a : K) (p : K → Nat) :
    partitionBy (l ++ [a]) p
      = mapSet (partitionBy l p) (p a) ((mapGet (partitionBy l p) (p a)).getD [] ++ [a]) := by
  unfold partitionBy
  rw [List.foldl_append, List.foldl_cons, List.foldl_nil, partitionBy_step_eq]

theorem partitionBy_get (l : List K) (p : K → Nat) (i : Nat) :
    mapGet (partitionBy l p) i
      = if (l.filter (fun x => decide (p x = i))).isEmpty = true then none
        else some (l.filter (fun x => decide (p x = i))) := by
  induction l using List.reverseRecOn with
  | nil => simp [partitionBy, mapGet]
  | append_singleton l a ih =>
    rw [partitionBy_concat, mapGet_mapSet, List.filter_append]
    by_cases h : i = p a
    · subst h
      rw [ih]
      by_cases hf : l.filter (fun x => decide (p x = p a)) = []
      · simp [hf]
      · simp [hf]
    · have h' : ¬ p a = i := fun e => h e.symm
      simp [h, h', ih]

theorem sum_length_mapSet {A V : Type} [DecidableEq A] (m : List (A × List V)) (k : A)
    (v : List V) :
    ((mapSet m k v).map (fun e => e.2.length)).sum + ((mapGet m k).getD []).length
      = (m.map (fun e => e.2.length)).sum + v.length := by
  induction m with
  | nil => simp [mapSet, mapGet]
  | cons e m ih =>
    obtain ⟨a, x⟩ := e
    by_cases h : a = k
    · simp [mapSet, mapGet, h]; omega
    · simp [mapSet, mapGet, h] at ih ⊢; omega

theorem partitionBy_keys_nodup (l : List K) (p : K → Nat) :
    (mapKeys (partitionBy l p)).Nodup := by
  induction l using List.reverseRecOn with
  | nil => simp [partitionBy, mapKeys]
  | append_singleton l a ih =>
    rw [partitionBy_concat]
    exact mapKeys_mapSet_nodup _ _ _ ih

theorem partitionBy_sum (l : List K) (p : K → Nat) :
    ((partitionBy l p).map (fun e => e.2.length)).sum = l.length := by
  induction l using List.reverseRecOn with
  | nil => simp [partitionBy]
  | append_singleton l a ih =>
    rw [partitionBy_concat]
    have h := sum_length_mapSet (partitionBy l p) (p a)
      ((mapGet (partitionBy l p) (p a)).getD [] ++ [a])
    simp only [List.length_append, List.length_singleton] at h ⊢
    omega

/-- C9: `partitionBy` maps the index `i` to the sub-list of the elements that
project to `i`, in the order of the input and with repetitions, and has no
entry for an index no element projects to; no entry is empty, no index has two
entries, and the lengths of the entries add up to the length of the input. -/
theorem partitionBy_groups_in_order (l : List K) (p : K → Nat) :
    (∀ i, mapGet (partitionBy l p) i
        = if (l.filter (fun x => decide (p x = i))).isEmpty = true then none
          else some (l.filter (fun x => decide (p x = i))))
    ∧ (∀ i, (∃ xs, mapGet (partitionBy l p) i = some xs) ↔ ∃ x ∈ l, p x = i)
    ∧ (∀ i xs, mapGet (partitionBy l p) i = some xs → xs ≠ [])
    ∧ (mapKeys (partitionBy l p)).Nodup
    ∧ ((partitionBy l p).map (fun e => e.2.length)).sum = l.length := by
  refine ⟨partitionBy_get l p, ?_, ?_, partitionBy_keys_nodup l p, partitionBy_sum l p⟩
  · intro i
    rw [partitionBy_get]
    by_cases hf : l.filter (fun x => decide (p x = i)) = []
    · simp only [hf, List.isEmpty_nil, if_true]
      constructor
      · rintro ⟨xs, hxs⟩; cases hxs
      · rintro ⟨x, hx, hpx⟩
        have : x ∈ l.filter (fun x => decide (p x = i)) := by
          simp [List.mem_filter, hx, hpx]
        rw [hf] at this
        cases this
    · simp only [List.isEmpty_eq_true, hf, if_false]
      constructor
      · intro _
        obtain ⟨x, hx⟩ := List.exists_mem_of_ne_nil _ hf
        rw [List.mem_filter] at hx
        exact ⟨x, hx.1, by simpa using hx.2⟩
      · intro _
        exact ⟨_, rfl⟩
  · intro i xs h
    rw [partitionBy_get] at h
    by_cases hf : l.filter (fun x => decide (p x = i)) = []
    · simp [hf] at h
    · simp only [List.isEmpty_eq_true, hf, if_false, Option.some.injEq] at h
      rw [← h]
      exact hf

/-- C10: for a `uint` of 32 or 64 bits and a shard count `N ≥ 1` that fits
it, `computeHash` does not panic and returns the 64-bit hash modulo `N`
unchanged by the conversion to `uint`; the index is below `N`, the number of
shards `NewShardedGroup(N, h)` creates. -/
theorem computeHash_in_bounds (bits : Nat) (hb : bits = 32 ∨ bits = 64) (h : K → Nat)
    (k : K) (N : Nat) (hN : 1 ≤ N) (hfit : N < 2 ^ bits) :
    computeHash bits h k N = some (h k % 2 ^ 64 % N)
    ∧ h k % 2 ^ 64 % N < N
    ∧ h k % 2 ^ 64 % N < (NewShardedGroup N h).shards.length := by
  have hlt : h k % 2 ^ 64 % N < N := Nat.mod_lt _ hN
  have h64 : N < 2 ^ 64 := by
    rcases hb with hb | hb
    · subst hb; omega
    · subst hb; exact hfit
  refine ⟨?_, hlt, ?_⟩
  · unfold computeHash
    have e1 : N % 2 ^ bits % 2 ^ 64 = N := by
      rw [Nat.mod_eq_of_lt hfit, Nat.mod_eq_of_lt h64]
    have e2 : h k % 2 ^ 64 % N % 2 ^ bits = h k % 2 ^ 64 % N :=
      Nat.mod_eq_of_lt (lt_trans hlt hfit)
    simp only [e1, e2]
    have hne : ¬ N = 0 := by omega
    simp [hne]
  · simpa [NewShardedGroup] using hlt

/-- The index computed for the hasher and the keys of `TestHasher`. -/
theorem computeHash_in_bounds_witness :
    computeHash 64 (fun i : Nat => i * 2) 22 42 = some ((22 * 2) % 2 ^ 64 % 42)
    ∧ (22 * 2) % 2 ^ 64 % 42 < 42
    ∧ (22 * 2) % 2 ^ 64 % 42
        < (NewShardedGroup 42 (fun i : Nat => i * 2)).shards.length :=
  computeHash_in_bounds 64 (Or.inr rfl) (fun i : Nat => i * 2) 22 42 (by decide) (by decide)

end PartitionLemmas

/-! ## Registration: the loops of `DoX` and `DoChanX` over `keys` -/

section RegLemmas

variable {K V E P : Type} [DecidableEq K] [Inhabited V]

theorem DoX_step_eq (st : Registered K V E P) (k : K) :
    DoX.step st k = registerStep (fun _ => []) st k := by
  unfold DoX.step registerStep
  cases mapGet st.m k <;> simp [call.zero]

theorem DoChanX_step_eq (results : List (K × Nat)) (st : Registered K V E P) (k : K) :
    DoChanX.step results st k = registerStep (fun k => [mapIndex results k]) st k := rfl

theorem registerStep_some (attach : K → List Nat) (st : Registered K V E P) (k : K) (c : Nat)
    (h : mapGet st.m k = some c) :
    registerStep attach st k =
      { st with
        w := st.w.store c { st.w.heap c with
          dups := (st.w.heap c).dups + 1,
          chans := (st.w.heap c).chans ++ attach k },
        calls := mapSet st.calls k c } := by
  simp [registerStep, h]

theorem registerStep_none (attach : K → List Nat) (st : Registered K V E P) (k : K)
    (h : mapGet st.m k = none) :
    registerStep attach st k =
      { w := st.w.alloc { (call.zero : call V E P) with chans := attach k, wg := 1 },
        m := mapSet st.m k (st.w.allocated + 1),
        calls := mapSet st.calls k (st.w.allocated + 1),
        toCall := st.toCall ++ [k] } := by
  simp [registerStep, h]

theorem reg_allocated_le (attach : K → List Nat) (keys : List K) (st : Registered K V E P) :
    st.w.allocated ≤ (keys.foldl (registerStep attach) st).w.allocated := by
  induction keys generalizing st with
  | nil => simp
  | cons a rest ih =>
    rw [List.foldl_cons]
    refine le_trans ?_ (ih _)
    cases h : mapGet st.m a with
    | some c => rw [registerStep_some attach st a c h]; simp [World.store]
    | none => rw [registerStep_none attach st a h]; simp [World.alloc]

theorem reg_m_of_some (attach : K → List Nat) (keys : List K) (st : Registered K V E P)
    (k : K) (p : Nat) (h : mapGet st.m k = some p) :
    mapGet (keys.foldl (registerStep attach) st).m k = some p := by
  induction keys generalizing st with
  | nil => simpa using h
  | cons a rest ih =>
    rw [List.foldl_cons]
    apply ih
    cases h1 : mapGet st.m a with
    | some c => rw [registerStep_some attach st a c h1]; exact h
    | none =>
      rw [registerStep_none attach st a h1]
      have hne : k ≠ a := by
        rintro rfl
        rw [h1] at h; cases h
      simp only [mapGet_mapSet, hne, if_false]
      exact h

theorem reg_m_not_mem (attach : K → List Nat) (keys : List K) (st : Registered K V E P)
    (k : K) (h : k ∉ keys) :
    mapGet (keys.foldl (registerStep attach) st).m k = mapGet st.m k := by
  induction keys generalizing st with
  | nil => simp
  | cons a rest ih =>
    rw [List.foldl_cons]
    have hne : k ≠ a := fun e => h (by simp [e])
    have hrest : k ∉ rest := fun e => h (by simp [e])
    rw [ih _ hrest]
    cases h1 : mapGet st.m a with
    | some c => rw [registerStep_some attach st a c h1]
    | none =>
      rw [registerStep_none attach st a h1]
      simp only [mapGet_mapSet, hne, if_false]

theorem reg_calls_not_mem (attach : K → List Nat) (keys : List K) (st : Registered K V E P)
    (k : K) (h : k ∉ keys) :
    mapGet (keys.foldl (registerStep attach) st).calls k = mapGet st.calls k := by
  induction keys generalizing st with
  | nil => simp
  | cons a rest ih =>
    rw [List.foldl_cons]
    have hne : k ≠ a := fun e => h (by simp [e])
    have hrest : k ∉ rest := fun e => h (by simp [e])
    rw [ih _ hrest]
    cases h1 : mapGet st.m a with
    | some c =>
      rw [registerStep_some attach st a c h1]
      simp only [mapGet_mapSet, hne, if_false]
    | none =>
      rw [registerStep_none attach st a h1]
      simp only [mapGet_mapSet, hne, if_false]

theorem registerStep_calls_self (attach : K → List Nat) (st : Registered K V E P) (a : K) :
    mapGet (registerStep attach st a).calls a = mapGet (registerStep attach st a).m a
    ∧ ∃ p, mapGet (registerStep attach st a).m a = some p := by
  cases h1 : mapGet st.m a with
  | some c =>
    rw [registerStep_some attach st a c h1]
    simp [mapGet_mapSet, h1]
  | none =>
    rw [registerStep_none attach st a h1]
    simp [mapGet_mapSet]

theorem reg_calls_mem (attach : K → List Nat) (keys : List K) (st : Registered K V E P)
    (k : K) (h : k ∈ keys) :
    mapGet (keys.foldl (registerStep attach) st).calls k
      = mapGet (keys.foldl (registerStep attach) st).m k
    ∧ ∃ p, mapGet (keys.foldl (registerStep attach) st).m k = some p := by
  induction keys generalizing st with
  | nil => cases h
  | cons a rest ih =>
    rw [List.foldl_cons]
    by_cases hrest : k ∈ rest
    · exact ih _ hrest
    · have hka : k = a := by
        rcases List.mem_cons.mp h with h | h
        · exact h
        · exact absurd h hrest
      subst hka
      rw [reg_calls_not_mem attach rest _ k hrest, reg_m_not_mem attach rest _ k hrest]
      exact registerStep_calls_self attach st k

theorem reg_m_fresh (attach : K → List Nat) (keys : List K) (st : Registered K V E P)
    (k : K) (h : k ∈ keys) (habs : mapGet st.m k = none) :
    ∃ p, mapGet (keys.foldl (registerStep attach) st).m k = some p
      ∧ st.w.allocated < p ∧ p ≤ (keys.foldl (registerStep attach) st).w.allocated := by
  induction keys generalizing st with
  | nil => cases h
  | cons a rest ih =>
    rw [List.foldl_cons]
    by_cases hka : k = a
    · subst hka
      rw [registerStep_none attach st k habs]
      refine ⟨st.w.allocated + 1, ?_, by omega, ?_⟩
      · apply reg_m_of_some
        simp [mapGet_mapSet]
      · refine le_trans ?_ (reg_allocated_le attach rest _)
        simp [World.alloc]
    · have hrest : k ∈ rest := by
        rcases List.mem_cons.mp h with h | h
        · exact absurd h hka
        · exact h
      cases h1 : mapGet st.m a with
      | some c =>
        have hst : mapGet (registerStep attach st a).m k = none := by
          rw [registerStep_some attach st a c h1]; exact habs
        obtain ⟨p, hp1, hp2, hp3⟩ := ih (registerStep attach st a) hrest hst
        refine ⟨p, hp1, ?_, hp3⟩
        rw [registerStep_some attach st a c h1] at hp2
        simpa [World.store] using hp2
      | none =>
        have hst : mapGet (registerStep attach st a).m k = none := by
          rw [registerStep_none attach st a h1]
          simp only [mapGet_mapSet, hka, if_false]; exact habs
        obtain ⟨p, hp1, hp2, hp3⟩ := ih (registerStep attach st a) hrest hst
        refine ⟨p, hp1, ?_, hp3⟩
        rw [registerStep_none attach st a h1] at hp2
        simp [World.alloc] at hp2
        omega

theorem firstOccurrences_filter (q : K → Bool) (l : List K) :
    firstOccurrences (l.filter q) = (firstOccurrences l).filter q := by
  induction l with
  | nil => simp [firstOccurrences]
  | cons a rest ih =>
    by_cases hq : q a = true
    · simp only [List.filter_cons, hq, if_true, firstOccurrences, ih, List.filter_filter]
      congr 1
      apply List.filter_congr
      intro x _
      exact Bool.and_comm _ _
    · have hq' : q a = false := by simpa using hq
      simp only [List.filter_cons, hq', firstOccurrences, ih, List.filter_filter,
        Bool.false_eq_true, if_false]
      apply List.filter_congr
      intro x _
      by_cases hx : x = a
      · subst hx; simp [hq']
      · simp [hx]

theorem mem_firstOccurrences (l : List K) (k : K) : k ∈ firstOccurrences l ↔ k ∈ l := by
  induction l with
  | nil => simp [firstOccurrences]
  | cons a rest ih =>
    by_cases h : k = a
    · simp [firstOccurrences, h]
    · simp [firstOccurrences, h, List.mem_filter, ih]

theorem nodup_firstOccurrences (l : List K) : (firstOccurrences l).Nodup := by
  induction l with
  | nil => simp [firstOccurrences]
  | cons a rest ih =>
    simp only [firstOccurrences]
    refine List.nodup_cons.mpr ⟨?_, ih.filter _⟩
    simp [List.mem_filter]

theorem reg_toCall (attach : K → List Nat) (keys : List K) (st : Registered K V E P) :
    (keys.foldl (registerStep attach) st).toCall
      = st.toCall ++ firstOccurrences (keys.filter (fun k => (mapGet st.m k).isNone)) := by
  induction keys generalizing st with
  | nil => simp [firstOccurrences]
  | cons a rest ih =>
    rw [List.foldl_cons, ih]
    cases h1 : mapGet st.m a with
    | some c =>
      rw [registerStep_some attach st a c h1]
      simp [List.filter_cons, h1]
    | none =>
      rw [registerStep_none attach st a h1]
      simp only [List.filter_cons, h1, Option.isNone_none, if_true, firstOccurrences,
        List.append_assoc, List.singleton_append]
      congr 2
      rw [← firstOccurrences_filter, List.filter_filter]
      congr 1
      apply List.filter_congr
      intro x _
      by_cases hx : x = a
      · subst hx; simp [mapGet_mapSet]
      · simp [mapGet_mapSet, hx]

theorem reg_fresh_inj (attach : K → List Nat) (keys : List K) (st : Registered K V E P)
    (k1 k2 : K) (h1 : k1 ∈ keys) (h2 : k2 ∈ keys)
    (a1 : mapGet st.m k1 = none) (a2 : mapGet st.m k2 = none)
    (heq : mapGet (keys.foldl (registerStep attach) st).m k1
      = mapGet (keys.foldl (registerStep attach) st).m k2) : k1 = k2 := by
  induction keys generalizing st with
  | nil => cases h1
  | cons a rest ih =>
    rw [List.foldl_cons] at heq
    cases ha : mapGet st.m a with
    | some c =>
      have n1 : k1 ≠ a := by rintro rfl; rw [a1] at ha; cases ha
      have n2 : k2 ≠ a := by rintro rfl; rw [a2] at ha; cases ha
      have r1 : k1 ∈ rest := by
        rcases List.mem_cons.mp h1 with h | h
        · exact absurd h n1
        · exact h
      have r2 : k2 ∈ rest := by
        rcases List.mem_cons.mp h2 with h | h
        · exact absurd h n2
        · exact h
      refine ih (registerStep attach st a) r1 r2 ?_ ?_ heq
      · rw [registerStep_some attach st a c ha]; exact a1
      · rw [registerStep_some attach st a c ha]; exact a2
    | none =>
      have hst : (registerStep attach st a)
          = { w := st.w.alloc { (call.zero : call V E P) with chans := attach a, wg := 1 },
              m := mapSet st.m a (st.w.allocated + 1),
              calls := mapSet st.calls a (st.w.allocated + 1),
              toCall := st.toCall ++ [a] } := registerStep_none attach st a ha
      have hself : mapGet (rest.foldl (registerStep attach) (registerStep attach st a)).m a
          = some (st.w.allocated + 1) := by
        apply reg_m_of_some
        rw [hst]; simp [mapGet_mapSet]
      have hother : ∀ k, k ≠ a → k ∈ a :: rest → mapGet st.m k = none →
          ∃ p, mapGet (rest.foldl (registerStep attach) (registerStep attach st a)).m k = some p
            ∧ st.w.allocated + 1 < p := by
        intro k hk hmem habs
        have hr : k ∈ rest := by
          rcases List.mem_cons.mp hmem with h | h
          · exact absurd h hk
          · exact h
        have habs' : mapGet (registerStep attach st a).m k = none := by
          rw [hst]; simp only [mapGet_mapSet, hk, if_false]; exact habs
        obtain ⟨p, hp1, hp2, _⟩ := reg_m_fresh attach rest (registerStep attach st a) k hr habs'
        refine ⟨p, hp1, ?_⟩
        rw [hst] at hp2
        simpa [World.alloc] using hp2
      by_cases e1 : k1 = a
      · by_cases e2 : k2 = a
        · rw [e1, e2]
        · exfalso
          obtain ⟨p, hp1, hp2⟩ := hother k2 e2 h2 a2
          rw [e1, hself, hp1] at heq
          simp only [Option.some.injEq] at heq
          omega
      · by_cases e2 : k2 = a
        · exfalso
          obtain ⟨p, hp1, hp2⟩ := hother k1 e1 h1 a1
          rw [e2, hself, hp1] at heq
          simp only [Option.some.injEq] at heq
          omega
        · have r1 : k1 ∈ rest := by
            rcases List.mem_cons.mp h1 with h | h
            · exact absurd h e1
            · exact h
          have r2 : k2 ∈ rest := by
            rcases List.mem_cons.mp h2 with h | h
            · exact absurd h e2
            · exact h
          refine ih (registerStep attach st a) r1 r2 ?_ ?_ heq
          · rw [hst]; simp only [mapGet_mapSet, e1, if_false]; exact a1
          · rw [hst]; simp only [mapGet_mapSet, e2, if_false]; exact a2

theorem reg_world_frame (attach : K → List Nat) (keys : List K) (st : Registered K V E P) :
    (keys.foldl (registerStep attach) st).w.chans = st.w.chans
    ∧ (keys.foldl (registerStep attach) st).w.made = st.w.made
    ∧ (keys.foldl (registerStep attach) st).w.invoked = st.w.invoked := by
  induction keys generalizing st with
  | nil => simp
  | cons a rest ih =>
    rw [List.foldl_cons]
    obtain ⟨h1, h2, h3⟩ := ih (registerStep attach st a)
    rw [h1, h2, h3]
    cases h : mapGet st.m a with
    | some c => rw [registerStep_some attach st a c h]; simp [World.store]
    | none => rw [registerStep_none attach st a h]; simp [World.alloc]

theorem reg_wf_step (attach : K → List Nat) (st : Registered K V E P) (a : K)
    (hwf : ∀ k p, mapGet st.m k = some p → p ≤ st.w.allocated) :
    ∀ k p, mapGet (registerStep attach st a).m k = some p
      → p ≤ (registerStep attach st a).w.allocated := by
  intro k p
  cases h : mapGet st.m a with
  | some c =>
    rw [registerStep_some attach st a c h]
    simpa [World.store] using hwf k p
  | none =>
    rw [registerStep_none attach st a h]
    simp only [mapGet_mapSet, World.alloc]
    by_cases hk : k = a
    · simp only [hk, if_true, Option.some.injEq]
      intro e; omega
    · simp only [hk, if_false]
      intro e
      have := hwf k p e
      omega

theorem reg_wf (attach : K → List Nat) (keys : List K) (st : Registered K V E P)
    (hwf : ∀ k p, mapGet st.m k = some p → p ≤ st.w.allocated) :
    ∀ k p, mapGet (keys.foldl (registerStep attach) st).m k = some p
      → p ≤ (keys.foldl (registerStep attach) st).w.allocated := by
  induction keys generalizing st with
  | nil => simpa using hwf
  | cons a rest ih =>
    rw [List.foldl_cons]
    exact ih _ (reg_wf_step attach st a hwf)

theorem reg_heap_old (attach : K → List Nat) (keys : List K) (st : Registered K V E P)
    (q : Nat) (hq : q ≤ st.w.allocated) :
    (keys.foldl (registerStep attach) st).w.heap q
      = { st.w.heap q with
          dups := (st.w.heap q).dups
            + (keys.filter (fun k => decide (mapGet st.m k = some q))).length,
          chans := (st.w.heap q).chans
            ++ (keys.filter (fun k => decide (mapGet st.m k = some q))).flatMap attach } := by
  induction keys generalizing st with
  | nil => simp
  | cons a rest ih =>
    rw [List.foldl_cons]
    cases h : mapGet st.m a with
    | some c =>
      have hst := registerStep_some attach st a c h
      have hq' : q ≤ (registerStep attach st a).w.allocated := by
        rw [hst]; simpa [World.store] using hq
      rw [ih _ hq']
      have hm : (registerStep attach st a).m = st.m := by rw [hst]
      rw [hm]
      by_cases hc : c = q
      · subst hc
        have hh : (registerStep attach st a).w.heap c
            = { st.w.heap c with dups := (st.w.heap c).dups + 1,
                                 chans := (st.w.heap c).chans ++ attach a } := by
          rw [hst]; simp [World.store]
        rw [hh]
        simp [List.filter_cons, h]
        omega
      · have hh : (registerStep attach st a).w.heap q = st.w.heap q := by
          rw [hst]
          have : ¬ q = c := fun e => hc e.symm
          simp [World.store, this]
        rw [hh]
        simp [List.filter_cons, h, hc]
    | none =>
      have hst := registerStep_none attach st a h
      have hq' : q ≤ (registerStep attach st a).w.allocated := by
        rw [hst]; simp [World.alloc]; omega
      rw [ih _ hq']
      have hh : (registerStep attach st a).w.heap q = st.w.heap q := by
        rw [hst]
        have : ¬ q = st.w.allocated + 1 := by omega
        simp [World.alloc, this]
      have hf : rest.filter (fun k => decide (mapGet (registerStep attach st a).m k = some q))
          = rest.filter (fun k => decide (mapGet st.m k = some q)) := by
        apply List.filter_congr
        intro x _
        rw [hst]
        simp only [mapGet_mapSet]
        by_cases hx : x = a
        · subst hx
          have : ¬ st.w.allocated + 1 = q := by omega
          simp [h, this]
        · simp [hx]
      rw [hh, hf]
      simp [List.filter_cons, h]

theorem reg_heap_new (attach : K → List Nat) (keys : List K) (st : Registered K V E P)
    (hwf : ∀ k p, mapGet st.m k = some p → p ≤ st.w.allocated)
    (k : K) (hk : k ∈ keys) (habs : mapGet st.m k = none) :
    ∃ p, mapGet (keys.foldl (registerStep attach) st).m k = some p
      ∧ (keys.foldl (registerStep attach) st).w.heap p
        = { (call.zero : call V E P) with
            wg := 1,
            dups := (keys.filter (fun x => decide (x = k))).length - 1,
            chans := (keys.filter (fun x => decide (x = k))).flatMap attach } := by
  induction keys generalizing st with
  | nil => cases hk
  | cons a rest ih =>
    rw [List.foldl_cons]
    by_cases hka : a = k
    · subst hka
      have hst := registerStep_none attach st a habs
      refine ⟨st.w.allocated + 1, ?_, ?_⟩
      · apply reg_m_of_some
        rw [hst]; simp [mapGet_mapSet]
      · have hq' : st.w.allocated + 1 ≤ (registerStep attach st a).w.allocated := by
          rw [hst]; simp [World.alloc]
        rw [reg_heap_old attach rest _ _ hq']
        have hf : rest.filter
              (fun x => decide (mapGet (registerStep attach st a).m x = some (st.w.allocated + 1)))
            = rest.filter (fun x => decide (x = a)) := by
          apply List.filter_congr
          intro x _
          rw [hst]
          simp only [mapGet_mapSet]
          by_cases hx : x = a
          · simp [hx]
          · simp only [hx, if_false, decide_False, decide_eq_false_iff_not]
            intro e
            have := hwf x _ e
            omega
        have hh : (registerStep attach st a).w.heap (st.w.allocated + 1)
            = { (call.zero : call V E P) with chans := attach a, wg := 1 } := by
          rw [hst]; simp [World.alloc]
        rw [hf, hh]
        simp [List.filter_cons, call.zero]
    · have hrest : k ∈ rest := by
        rcases List.mem_cons.mp hk with h | h
        · exact absurd h.symm hka
        · exact h
      have hwf' := reg_wf_step attach st a hwf
      have habs' : mapGet (registerStep attach st a).m k = none := by
        cases h : mapGet st.m a with
        | some c => rw [registerStep_some attach st a c h]; exact habs
        | none =>
          rw [registerStep_none attach st a h]
          have : ¬ k = a := fun e => hka e.symm
          simp only [mapGet_mapSet, this, if_false]; exact habs
      obtain ⟨p, hp1, hp2⟩ := ih (registerStep attach st a) hwf' hrest habs'
      refine ⟨p, hp1, ?_⟩
      rw [hp2]
      simp [List.filter_cons, hka]

end RegLemmas

/-! ## The executor: `doCallX` when `fn` returns, and the loop of `DoX` -/

section ExecLemmas

variable {K V E P : Type} [DecidableEq K] [Inhabited V]

theorem populate_frame (c : List (K × Nat)) (values : List (K × V)) (err : Error E P)
    (keys : List K) (w w' : World K V E P) (h : populate c values err w keys = some w') :
    w'.allocated = w.allocated ∧ w'.chans = w.chans ∧ w'.made = w.made
    ∧ w'.invoked = w.invoked
    ∧ (∀ q, (w'.heap q).wg = (w.heap q).wg ∧ (w'.heap q).dups = (w.heap q).dups
        ∧ (w'.heap q).chans = (w.heap q).chans)
    ∧ (∀ q, (∀ k ∈ keys, mapIndex c k ≠ q) → w'.heap q = w.heap q) := by
  induction keys generalizing w with
  | nil =>
    simp only [populate, Option.some.injEq] at h
    subst h
    simp
  | cons a rest ih =>
    simp only [populate] at h
    by_cases hp : mapIndex c a = 0
    · simp [hp] at h
    · simp only [hp, if_false] at h
      obtain ⟨h1, h2, h3, h4, h5, h6⟩ := ih _ h
      refine ⟨by rw [h1]; rfl, by rw [h2]; rfl, by rw [h3]; rfl, by rw [h4]; rfl, ?_, ?_⟩
      · intro q
        obtain ⟨e1, e2, e3⟩ := h5 q
        rw [e1, e2, e3]
        by_cases hq : q = mapIndex c a
        · subst hq
          simp only [World.store, if_true, call.fill]
          cases mapGet values a <;> simp
        · simp [World.store, hq]
      · intro q hq
        rw [h6 q (fun k hk => hq k (List.mem_cons_of_mem _ hk))]
        have : ¬ q = mapIndex c a := fun e => hq a (List.mem_cons_self _ _) e.symm
        simp [World.store, this]

theorem populate_some (c : List (K × Nat)) (values : List (K × V)) (err : Error E P)
    (keys : List K) (w : World K V E P) (h0 : ∀ k ∈ keys, mapIndex c k ≠ 0) :
    ∃ w', populate c values err w keys = some w' := by
  induction keys generalizing w with
  | nil => exact ⟨w, rfl⟩
  | cons a rest ih =>
    have hp : mapIndex c a ≠ 0 := h0 a (List.mem_cons_self _ _)
    simp only [populate, hp, if_false]
    exact ih _ (fun k hk => h0 k (List.mem_cons_of_mem _ hk))

theorem populate_heap (c : List (K × Nat)) (values : List (K × V)) (err : Error E P)
    (keys : List K) (w w' : World K V E P) (h : populate c values err w keys = some w')
    (hnd : keys.Nodup)
    (hinj : ∀ k1 ∈ keys, ∀ k2 ∈ keys, mapIndex c k1 = mapIndex c k2 → k1 = k2) :
    ∀ k ∈ keys, w'.heap (mapIndex c k) = (w.heap (mapIndex c k)).fill values err k := by
  induction keys generalizing w with
  | nil => intro k hk; cases hk
  | cons a rest ih =>
    simp only [populate] at h
    by_cases hp : mapIndex c a = 0
    · simp [hp] at h
    · simp only [hp, if_false] at h
      have hnd' := (List.nodup_cons.mp hnd)
      have hinj' : ∀ k1 ∈ rest, ∀ k2 ∈ rest, mapIndex c k1 = mapIndex c k2 → k1 = k2 :=
        fun k1 h1 k2 h2 => hinj k1 (List.mem_cons_of_mem _ h1) k2 (List.mem_cons_of_mem _ h2)
      intro k hk
      rcases List.mem_cons.mp hk with hka | hkr
      · subst hka
        have hfr := (populate_frame c values err rest _ w' h).2.2.2.2.2 (mapIndex c k) (by
          intro k' hk' e
          have := hinj k' (List.mem_cons_of_mem _ hk') k (List.mem_cons_self _ _) e
          subst this
          exact hnd'.1 hk')
        rw [hfr]
        simp [World.store]
      · rw [ih _ h hnd'.2 hinj' k hkr]
        have hne : ¬ mapIndex c k = mapIndex c a := by
          intro e
          have := hinj k hk a (List.mem_cons_self _ _) e
          subst this
          exact hnd'.1 hkr
        simp [World.store, hne]

theorem send_eq_some (rx : Bool) (w w1 : World K V E P) (ch : Nat) (r : Result V E P)
    (h : w.send rx ch r = some w1) :
    ch ≠ 0 ∧ w1 = { w with chans := fun q => if q = ch then w.chans ch ++ [r] else w.chans q } := by
  unfold World.send at h
  split_ifs at h with h1 h2
  exact ⟨h1, (Option.some.inj h).symm⟩

theorem deliver_frame (rx : Bool) (r : Result V E P) (chans : List Nat) (w : World K V E P) :
    (deliver rx r w chans).1.heap = w.heap
    ∧ (deliver rx r w chans).1.allocated = w.allocated
    ∧ (deliver rx r w chans).1.made = w.made
    ∧ (deliver rx r w chans).1.invoked = w.invoked := by
  induction chans generalizing w with
  | nil => simp [deliver]
  | cons ch rest ih =>
    simp only [deliver]
    cases hs : w.send rx ch r with
    | none => simp
    | some w1 =>
      simp only
      obtain ⟨h1, h2, h3, h4⟩ := ih w1
      rw [h1, h2, h3, h4]
      rw [(send_eq_some rx w w1 ch r hs).2]
      simp

theorem deliver_chans (rx : Bool) (r : Result V E P) (chans : List Nat) (w : World K V E P)
    (hok : (deliver rx r w chans).2 = true) (ch : Nat) :
    (deliver rx r w chans).1.chans ch = w.chans ch ++ List.replicate (chans.count ch) r := by
  induction chans generalizing w with
  | nil => simp [deliver]
  | cons a rest ih =>
    simp only [deliver] at hok ⊢
    cases hs : w.send rx a r with
    | none => simp [hs] at hok
    | some w1 =>
      simp only [hs] at hok ⊢
      rw [ih w1 hok, (send_eq_some rx w w1 a r hs).2]
      by_cases hch : ch = a
      · subst hch
        simp [List.count_cons, List.replicate_succ]
      · have hch' : ¬ a = ch := fun e => hch e.symm
        simp [List.count_cons, hch, hch']

theorem deliver_rx (r : Result V E P) (chans : List Nat) (w : World K V E P)
    (h0 : ∀ ch ∈ chans, ch ≠ 0) : (deliver true r w chans).2 = true := by
  induction chans generalizing w with
  | nil => simp [deliver]
  | cons a rest ih =>
    have ha : a ≠ 0 := h0 a (List.mem_cons_self _ _)
    simp only [deliver, World.send, ha, if_false, or_true, if_true]
    exact ih _ (fun ch hch => h0 ch (List.mem_cons_of_mem _ hch))

theorem Group.get_delete (g : Group K) (a k : K) :
    (g.delete a).get k = if k = a then none else g.get k := by
  cases hm : g.m with
  | none => simp [Group.delete, Group.get, hm, mapGet]
  | some m => simp [Group.delete, Group.get, hm, mapGet_mapDelete]

theorem mapIndex_eq_iff (m : List (K × Nat)) (k : K) (p : Nat) (hp : p ≠ 0) :
    mapIndex m k = p ↔ mapGet m k = some p := by
  unfold mapIndex
  cases h : mapGet m k with
  | none => simp; exact fun e => hp e.symm
  | some c => simp

theorem loop_cons (rx : Bool) (c : List (K × Nat)) (a : K) (rest : List K)
    (w : World K V E P) (g : Group K)
    (hp : mapIndex c a ≠ 0) (hwg : (w.heap (mapIndex c a)).wg ≠ 0)
    (herr : ∃ e, (w.heap (mapIndex c a)).err = Error.ofReturn e) :
    doCallX.loop rx c w g (a :: rest)
      = if (deliver rx (w.heap (mapIndex c a)).result
              (w.store (mapIndex c a)
                { w.heap (mapIndex c a) with wg := (w.heap (mapIndex c a)).wg - 1 })
              (w.heap (mapIndex c a)).chans).2 = true
        then doCallX.loop rx c
          (deliver rx (w.heap (mapIndex c a)).result
              (w.store (mapIndex c a)
                { w.heap (mapIndex c a) with wg := (w.heap (mapIndex c a)).wg - 1 })
              (w.heap (mapIndex c a)).chans).1
          (if g.get a = some (mapIndex c a) then g.delete a else g) rest
        else ((deliver rx (w.heap (mapIndex c a)).result
              (w.store (mapIndex c a)
                { w.heap (mapIndex c a) with wg := (w.heap (mapIndex c a)).wg - 1 })
              (w.heap (mapIndex c a)).chans).1,
          (if g.get a = some (mapIndex c a) then g.delete a else g), Exit.blocked) := by
  obtain ⟨e, he⟩ := herr
  have hg : (mapIndex (g.m.getD []) a = mapIndex c a) ↔ g.get a = some (mapIndex c a) :=
    mapIndex_eq_iff _ _ _ hp
  simp only [doCallX.loop, hp, hwg, if_false, World.store, if_true, call.result, he]
  cases hd : deliver rx
      { Value := { Value := (w.heap (mapIndex c a)).value,
                   Valid := !(w.heap (mapIndex c a)).absent },
        Err := Error.ofReturn e, Shared := decide ((w.heap (mapIndex c a)).dups > 0) }
      { heap := fun q => if q = mapIndex c a then
            { wg := (w.heap (mapIndex c a)).wg - 1, value := (w.heap (mapIndex c a)).value,
              absent := (w.heap (mapIndex c a)).absent, err := Error.ofReturn e,
              dups := (w.heap (mapIndex c a)).dups, chans := (w.heap (mapIndex c a)).chans }
          else w.heap q,
        allocated := w.allocated, chans := w.chans, made := w.made, invoked := w.invoked }
      (w.heap (mapIndex c a)).chans with
  | mk w2 ok =>
    cases e <;> cases ok <;> simp [Error.ofReturn, hd, hg]

theorem flatMap_congr_mem {A B : Type} (l : List A) (f h : A → List B)
    (e : ∀ x ∈ l, f x = h x) : l.flatMap f = l.flatMap h := by
  induction l with
  | nil => rfl
  | cons a rest ih =>
    rw [List.flatMap_cons, List.flatMap_cons, e a (List.mem_cons_self _ _),
      ih (fun x hx => e x (List.mem_cons_of_mem _ hx))]

theorem loop_normal (rx : Bool) (c : List (K × Nat)) (keys : List K)
    (w : World K V E P) (g : Group K)
    (hnd : keys.Nodup)
    (hinj : ∀ k1 ∈ keys, ∀ k2 ∈ keys, mapIndex c k1 = mapIndex c k2 → k1 = k2)
    (hrec : ∀ k ∈ keys, mapIndex c k ≠ 0 ∧ (w.heap (mapIndex c k)).wg ≠ 0
      ∧ ∃ e, (w.heap (mapIndex c k)).err = Error.ofReturn e) :
    ((doCallX.loop rx c w g keys).2.2 = Exit.returned ()
      ∨ (doCallX.loop rx c w g keys).2.2 = Exit.blocked)
    ∧ ((∀ k ∈ keys, (rx = true ∧ ∀ ch ∈ (w.heap (mapIndex c k)).chans, ch ≠ 0)
          ∨ (w.heap (mapIndex c k)).chans = [])
        → (doCallX.loop rx c w g keys).2.2 = Exit.returned ())
    ∧ (doCallX.loop rx c w g keys).1.allocated = w.allocated
    ∧ (doCallX.loop rx c w g keys).1.made = w.made
    ∧ (doCallX.loop rx c w g keys).1.invoked = w.invoked
    ∧ ((doCallX.loop rx c w g keys).2.2 = Exit.returned () →
        (∀ k, (doCallX.loop rx c w g keys).2.1.get k
            = if k ∈ keys ∧ g.get k = some (mapIndex c k) then none else g.get k)
        ∧ (∀ k ∈ keys, (doCallX.loop rx c w g keys).1.heap (mapIndex c k)
            = { w.heap (mapIndex c k) with wg := (w.heap (mapIndex c k)).wg - 1 })
        ∧ (∀ q, (∀ k ∈ keys, mapIndex c k ≠ q)
            → (doCallX.loop rx c w g keys).1.heap q = w.heap q)
        ∧ (∀ ch, (doCallX.loop rx c w g keys).1.chans ch
            = w.chans ch ++ keys.flatMap (fun k =>
                List.replicate ((w.heap (mapIndex c k)).chans.count ch)
                  (w.heap (mapIndex c k)).result))) := by
  induction keys generalizing w g with
  | nil => simp [doCallX.loop]
  | cons a rest ih =>
    obtain ⟨hp, hwg, herr⟩ := hrec a (List.mem_cons_self _ _)
    have hnd' := List.nodup_cons.mp hnd
    have hne : ∀ k ∈ rest, mapIndex c k ≠ mapIndex c a := by
      intro k hk e
      have := hinj k (List.mem_cons_of_mem _ hk) a (List.mem_cons_self _ _) e
      subst this
      exact hnd'.1 hk
    rw [loop_cons rx c a rest w g hp hwg herr]
    generalize hw1 : w.store (mapIndex c a)
      { w.heap (mapIndex c a) with wg := (w.heap (mapIndex c a)).wg - 1 } = w1
    generalize hg1 : (if g.get a = some (mapIndex c a) then g.delete a else g) = g1
    have hfr := deliver_frame rx (w.heap (mapIndex c a)).result (w.heap (mapIndex c a)).chans w1
    generalize hw2 : deliver rx (w.heap (mapIndex c a)).result w1 (w.heap (mapIndex c a)).chans
      = d at hfr
    obtain ⟨w2, ok⟩ := d
    simp only at hfr
    obtain ⟨f1, f2, f3, f4⟩ := hfr
    have hw1heap : ∀ q, w1.heap q = if q = mapIndex c a then
        { w.heap (mapIndex c a) with wg := (w.heap (mapIndex c a)).wg - 1 } else w.heap q := by
      intro q; rw [← hw1]; rfl
    have hsame : ∀ k ∈ rest, w2.heap (mapIndex c k) = w.heap (mapIndex c k) := by
      intro k hk
      rw [f1, hw1heap, if_neg (hne k hk)]
    have hg1get : ∀ k, g1.get k
        = if k = a ∧ g.get a = some (mapIndex c a) then none else g.get k := by
      intro k
      rw [← hg1]
      by_cases hc : g.get a = some (mapIndex c a)
      · simp only [hc, if_true, and_true, Group.get_delete]
      · simp [hc]
    cases ok with
    | false =>
      rw [if_neg (by simp)]
      refine ⟨Or.inr rfl, ?_, ?_, ?_, ?_, ?_⟩
      · intro hD
        exfalso
        have hdel : (deliver rx (w.heap (mapIndex c a)).result w1
            (w.heap (mapIndex c a)).chans).2 = true := by
          rcases hD a (List.mem_cons_self _ _) with ⟨hrx, hch⟩ | hnil
          · subst hrx; exact deliver_rx _ _ _ hch
          · rw [hnil]; rfl
        rw [hw2] at hdel
        cases hdel
      · rw [f2, ← hw1]; rfl
      · rw [f3, ← hw1]; rfl
      · rw [f4, ← hw1]; rfl
      · intro h; cases h
    | true =>
      rw [if_pos rfl]
      have hrec' : ∀ k ∈ rest, mapIndex c k ≠ 0 ∧ (w2.heap (mapIndex c k)).wg ≠ 0
          ∧ ∃ e, (w2.heap (mapIndex c k)).err = Error.ofReturn e := by
        intro k hk
        rw [hsame k hk]
        exact hrec k (List.mem_cons_of_mem _ hk)
      have hinj' : ∀ k1 ∈ rest, ∀ k2 ∈ rest, mapIndex c k1 = mapIndex c k2 → k1 = k2 :=
        fun k1 h1 k2 h2 => hinj k1 (List.mem_cons_of_mem _ h1) k2 (List.mem_cons_of_mem _ h2)
      obtain ⟨i1, i2, i3, i4, i5, i6⟩ := ih w2 g1 hnd'.2 hinj' hrec'
      refine ⟨i1, ?_, ?_, ?_, ?_, ?_⟩
      · intro hD
        apply i2
        intro k hk
        rw [hsame k hk]
        exact hD k (List.mem_cons_of_mem _ hk)
      · rw [i3, f2, ← hw1]; rfl
      · rw [i4, f3, ← hw1]; rfl
      · rw [i5, f4, ← hw1]; rfl
      · intro hret
        obtain ⟨j1, j2, j3, j4⟩ := i6 hret
        refine ⟨?_, ?_, ?_, ?_⟩
        · intro k
          rw [j1 k, hg1get k]
          by_cases hka : k = a
          · subst hka
            have : k ∉ rest := hnd'.1
            simp [this]
          · simp [hka]
        · intro k hk
          rcases List.mem_cons.mp hk with hka | hkr
          · subst hka
            rw [j3 _ (fun k' hk' => hne k' hk'), f1, hw1heap, if_pos rfl]
          · rw [j2 k hkr, hsame k hkr]
        · intro q hq
          rw [j3 q (fun k hk => hq k (List.mem_cons_of_mem _ hk)), f1, hw1heap,
            if_neg (fun e => hq a (List.mem_cons_self _ _) e.symm)]
        · intro ch
          rw [j4 ch, List.flatMap_cons]
          have hd := deliver_chans rx (w.heap (mapIndex c a)).result
            (w.heap (mapIndex c a)).chans w1 (by rw [hw2]) ch
          rw [hw2] at hd
          simp only at hd
          rw [hd, List.append_assoc]
          have hw1c : w1.chans ch = w.chans ch := by rw [← hw1]; rfl
          rw [hw1c]
          congr 2
          apply flatMap_congr_mem
          intro k hk
          rw [hsame k hk]

theorem doCallX_nil (rx : Bool) (w : World K V E P) (g : Group K) (c : List (K × Nat))
    (fn : List K → FnOutcome K V E P) :
    doCallX rx w g c [] fn = (w, g, Exit.returned ()) := by
  simp [doCallX]

theorem call_fill_fields (r : call V E P) (values : List (K × V)) (err : Error E P) (k : K) :
    (r.fill values err k).wg = r.wg ∧ (r.fill values err k).dups = r.dups
    ∧ (r.fill values err k).chans = r.chans ∧ (r.fill values err k).err = err := by
  unfold call.fill
  cases mapGet values k <;> simp

theorem doCallX_returned (rx : Bool) (w : World K V E P) (g : Group K) (c : List (K × Nat))
    (keys : List K) (fn : List K → FnOutcome K V E P)
    (values : Option (List (K × V))) (err : Option E)
    (hne : keys ≠ [])
    (hfn : fn keys = FnOutcome.returned values err)
    (hnd : keys.Nodup)
    (hinj : ∀ k1 ∈ keys, ∀ k2 ∈ keys, mapIndex c k1 = mapIndex c k2 → k1 = k2)
    (hrec : ∀ k ∈ keys, mapIndex c k ≠ 0 ∧ (w.heap (mapIndex c k)).wg ≠ 0) :
    ((doCallX rx w g c keys fn).2.2 = Exit.returned ()
      ∨ (doCallX rx w g c keys fn).2.2 = Exit.blocked)
    ∧ ((∀ k ∈ keys, (rx = true ∧ ∀ ch ∈ (w.heap (mapIndex c k)).chans, ch ≠ 0)
          ∨ (w.heap (mapIndex c k)).chans = [])
        → (doCallX rx w g c keys fn).2.2 = Exit.returned ())
    ∧ (doCallX rx w g c keys fn).1.allocated = w.allocated
    ∧ (doCallX rx w g c keys fn).1.made = w.made
    ∧ (doCallX rx w g c keys fn).1.invoked = w.invoked ++ [keys]
    ∧ ((doCallX rx w g c keys fn).2.2 = Exit.returned () →
        (∀ k, (doCallX rx w g c keys fn).2.1.get k
            = if k ∈ keys ∧ g.get k = some (mapIndex c k) then none else g.get k)
        ∧ (∀ k ∈ keys, (doCallX rx w g c keys fn).1.heap (mapIndex c k)
            = { (w.heap (mapIndex c k)).fill (values.getD []) (Error.ofReturn err) k with
                wg := (w.heap (mapIndex c k)).wg - 1 })
        ∧ (∀ q, (∀ k ∈ keys, mapIndex c k ≠ q)
            → (doCallX rx w g c keys fn).1.heap q = w.heap q)
        ∧ (∀ ch, (doCallX rx w g c keys fn).1.chans ch
            = w.chans ch ++ keys.flatMap (fun k =>
                List.replicate ((w.heap (mapIndex c k)).chans.count ch)
                  ((w.heap (mapIndex c k)).fill (values.getD []) (Error.ofReturn err)
                    k).result))) := by
  have hlen : ¬ keys.length = 0 := by
    intro h; exact hne (List.length_eq_zero.mp h)
  obtain ⟨w2, hw2⟩ := populate_some c (values.getD []) (Error.ofReturn err) keys
    ({ w with invoked := w.invoked ++ [keys] } : World K V E P) (fun k hk => (hrec k hk).1)
  obtain ⟨p1, p2, p3, p4, p5, p6⟩ := populate_frame c _ _ keys _ w2 hw2
  have p7 := populate_heap c _ _ keys _ w2 hw2 hnd hinj
  have hrec2 : ∀ k ∈ keys, mapIndex c k ≠ 0 ∧ (w2.heap (mapIndex c k)).wg ≠ 0
      ∧ ∃ e, (w2.heap (mapIndex c k)).err = Error.ofReturn e := by
    intro k hk
    refine ⟨(hrec k hk).1, ?_, err, ?_⟩
    · rw [(p5 _).1]; exact (hrec k hk).2
    · rw [p7 k hk]; exact (call_fill_fields _ _ _ _).2.2.2
  have hrun : doCallX rx w g c keys fn = doCallX.loop rx c w2 g keys := by
    simp only [doCallX, hlen, if_false, doCallX.inner, hfn, hw2, Option.map_some']
    simp only [doCallX.deferred]
    generalize doCallX.loop rx c w2 g keys = out
    obtain ⟨a, b, e⟩ := out
    cases e <;> simp
  rw [hrun]
  obtain ⟨l1, l2, l3, l4, l5, l6⟩ := loop_normal rx c keys w2 g hnd hinj hrec2
  refine ⟨l1, ?_, ?_, ?_, ?_, ?_⟩
  · intro hD
    apply l2
    intro k hk
    rw [(p5 _).2.2]
    exact hD k hk
  · rw [l3, p1]
  · rw [l4, p3]
  · rw [l5, p4]
  · intro hret
    obtain ⟨j1, j2, j3, j4⟩ := l6 hret
    refine ⟨j1, ?_, ?_, ?_⟩
    · intro k hk
      rw [j2 k hk, p7 k hk]
      have := (call_fill_fields (w.heap (mapIndex c k)) (values.getD [])
        (Error.ofReturn err : Error E P) k).1
      rw [this]
    · intro q hq
      rw [j3 q hq, p6 q hq]
    · intro ch
      rw [j4 ch, p2]
      congr 1
      apply flatMap_congr_mem
      intro k hk
      rw [p7 k hk]
      have := (call_fill_fields (w.heap (mapIndex c k)) (values.getD [])
        (Error.ofReturn err : Error E P) k).2.2.1
      rw [this]

theorem wait_returned (w : World K V E P) (calls : List (K × Nat))
    (results : List (K × Result V E P))
    (h : ∀ e ∈ calls, (w.heap e.2).wg = 0 ∧ ∃ x, (w.heap e.2).err = Error.ofReturn x) :
    DoX.wait w calls results
      = Exit.returned (calls.foldl (fun acc e => mapSet acc e.1 (w.heap e.2).result) results) := by
  induction calls generalizing results with
  | nil => simp [DoX.wait]
  | cons a rest ih =>
    obtain ⟨k, c⟩ := a
    obtain ⟨h1, x, h2⟩ := h (k, c) (List.mem_cons_self _ _)
    simp only at h1 h2
    have := ih (mapSet results k (w.heap c).result)
      (fun e he => h e (List.mem_cons_of_mem _ he))
    cases x <;> simp [DoX.wait, h1, h2, Error.ofReturn, this]

theorem mapGet_of_mem {A B : Type} [DecidableEq A] (m : List (A × B)) (k : A) (v : B)
    (hnd : (mapKeys m).Nodup) (h : (k, v) ∈ m) : mapGet m k = some v := by
  induction m with
  | nil => cases h
  | cons e rest ih =>
    obtain ⟨a, x⟩ := e
    have hc : (a :: mapKeys rest).Nodup := by simpa [mapKeys] using hnd
    rcases List.mem_cons.mp h with h1 | h1
    · cases h1
      simp [mapGet]
    · have hk : k ∈ mapKeys rest := by
        simp only [mapKeys, List.mem_map]
        exact ⟨(k, v), h1, rfl⟩
      have hne : ¬ a = k := by
        rintro rfl
        exact (List.nodup_cons.mp hc).1 hk
      simp only [mapGet, hne, if_false]
      exact ih (List.nodup_cons.mp hc).2 h1

theorem foldl_mapSet_get (w : World K V E P) (calls : List (K × Nat))
    (results : List (K × Result V E P)) (hnd : (mapKeys calls).Nodup) (k : K) :
    mapGet (calls.foldl (fun acc e => mapSet acc e.1 (w.heap e.2).result) results) k
      = match mapGet calls k with
        | some c => some (w.heap c).result
        | none => mapGet results k := by
  induction calls generalizing results with
  | nil => simp [mapGet]
  | cons e rest ih =>
    obtain ⟨a, c⟩ := e
    have hc : (a :: mapKeys rest).Nodup := by simpa [mapKeys] using hnd
    rw [List.foldl_cons, ih _ (List.nodup_cons.mp hc).2]
    by_cases hka : a = k
    · subst hka
      have : mapGet rest a = none := (mapGet_eq_none_iff rest a).mpr (List.nodup_cons.mp hc).1
      simp [this, mapGet, mapGet_mapSet]
    · have hka' : ¬ k = a := fun e => hka e.symm
      simp only [mapGet, hka, if_false, mapGet_mapSet, hka']

theorem foldl_mapSet_nodup (w : World K V E P) (calls : List (K × Nat))
    (results : List (K × Result V E P)) (hnd : (mapKeys results).Nodup) :
    (mapKeys (calls.foldl (fun acc e => mapSet acc e.1 (w.heap e.2).result) results)).Nodup := by
  induction calls generalizing results with
  | nil => simpa using hnd
  | cons e rest ih =>
    rw [List.foldl_cons]
    exact ih _ (mapKeys_mapSet_nodup _ _ _ hnd)

theorem reg_calls_nodup (attach : K → List Nat) (keys : List K) (st : Registered K V E P)
    (hnd : (mapKeys st.calls).Nodup) :
    (mapKeys (keys.foldl (registerStep attach) st).calls).Nodup := by
  induction keys generalizing st with
  | nil => simpa using hnd
  | cons a rest ih =>
    rw [List.foldl_cons]
    apply ih
    cases h : mapGet st.m a with
    | some c =>
      rw [registerStep_some attach st a c h]
      exact mapKeys_mapSet_nodup _ _ _ hnd
    | none =>
      rw [registerStep_none attach st a h]
      exact mapKeys_mapSet_nodup _ _ _ hnd

end ExecLemmas

/-! ## `DoX` on a group without in-flight records -/

section DoXLemmas

variable {K V E P : Type} [DecidableEq K] [Inhabited V]

theorem Group.len_eq_zero_of_get (g : Group K) (h : ∀ k, g.get k = none) : g.len = 0 := by
  unfold Group.len
  rw [eq_nil_of_mapGet_none (g.m.getD []) h]
  rfl

theorem DoX_register_eq (w : World K V E P) (g : Group K) (keys : List K) :
    DoX.register w g keys
      = keys.foldl (registerStep (fun _ => []))
          { w := w, m := g.m.getD [], calls := [], toCall := [] } := by
  have hstep : (DoX.step : Registered K V E P → K → Registered K V E P)
      = registerStep (fun _ => []) := by
    funext st k; exact DoX_step_eq st k
  unfold DoX.register
  rw [hstep]

/-- The facts about a registration by `DoX` on a group without in-flight records. -/
theorem DoX_register_fresh (w : World K V E P) (g : Group K) (keys : List K)
    (hg : g.len = 0) :
    (DoX.register w g keys).toCall = firstOccurrences keys
    ∧ (DoX.register w g keys).w.invoked = w.invoked
    ∧ (mapKeys (DoX.register w g keys).calls).Nodup
    ∧ (∀ k, k ∉ keys → mapGet (DoX.register w g keys).m k = none
        ∧ mapGet (DoX.register w g keys).calls k = none)
    ∧ (∀ k ∈ keys, ∃ p, p ≠ 0 ∧ mapGet (DoX.register w g keys).m k = some p
        ∧ mapGet (DoX.register w g keys).calls k = some p
        ∧ (DoX.register w g keys).w.heap p
          = { (call.zero : call V E P) with
              wg := 1, dups := (keys.filter (fun x => decide (x = k))).length - 1 })
    ∧ (∀ k1 ∈ keys, ∀ k2 ∈ keys,
        mapIndex (DoX.register w g keys).calls k1 = mapIndex (DoX.register w g keys).calls k2
          → k1 = k2) := by
  have hm : g.m.getD [] = [] := List.length_eq_zero.mp hg
  rw [DoX_register_eq, hm]
  generalize hst : ({ w := w, m := [], calls := [], toCall := [] } : Registered K V E P) = st
  have hstm : st.m = [] := by rw [← hst]
  have hstc : st.calls = [] := by rw [← hst]
  have hstt : st.toCall = [] := by rw [← hst]
  have hstw : st.w = w := by rw [← hst]
  have habs : ∀ k, mapGet st.m k = none := by intro k; rw [hstm]; rfl
  have hwf : ∀ k p, mapGet st.m k = some p → p ≤ st.w.allocated := by
    intro k p h; rw [habs k] at h; cases h
  have hfresh : ∀ k ∈ keys, ∃ p, p ≠ 0
      ∧ mapGet (keys.foldl (registerStep (fun _ => [])) st).m k = some p
      ∧ mapGet (keys.foldl (registerStep (fun _ => [])) st).calls k = some p
      ∧ (keys.foldl (registerStep (fun _ => [])) st).w.heap p
        = { (call.zero : call V E P) with
            wg := 1, dups := (keys.filter (fun x => decide (x = k))).length - 1 } := by
    intro k hk
    obtain ⟨p, hp1, hp2⟩ := reg_heap_new (fun _ => []) keys st hwf k hk (habs k)
    obtain ⟨p', hp1', hp2', _⟩ := reg_m_fresh (fun _ => []) keys st k hk (habs k)
    rw [hp1] at hp1'
    cases hp1'
    refine ⟨p, by omega, hp1, ?_, ?_⟩
    · rw [(reg_calls_mem (fun _ => []) keys st k hk).1, hp1]
    · rw [hp2]; simp [call.zero]
  refine ⟨?_, ?_, ?_, ?_, hfresh, ?_⟩
  · rw [reg_toCall, hstt, hstm]
    simp [mapGet]
  · rw [(reg_world_frame _ keys st).2.2, hstw]
  · apply reg_calls_nodup
    rw [hstc]; simp [mapKeys]
  · intro k hk
    rw [reg_m_not_mem _ keys st k hk, reg_calls_not_mem _ keys st k hk, hstm, hstc]
    exact ⟨rfl, rfl⟩
  · intro k1 h1 k2 h2 e
    apply reg_fresh_inj (fun _ => []) keys st k1 k2 h1 h2 (habs k1) (habs k2)
    obtain ⟨p1, _, a1, b1, _⟩ := hfresh k1 h1
    obtain ⟨p2, _, a2, b2, _⟩ := hfresh k2 h2
    simp only [mapIndex, b1, b2, Option.getD_some] at e
    rw [a1, a2, e]

/-- What `DoX` does on a group without in-flight records when `fn` returns. -/
theorem DoX_returns (rx : Bool) (w : World K V E P) (g : Group K) (keys : List K)
    (fn : List K → FnOutcome K V E P) (values : Option (List (K × V))) (err : Option E)
    (hg : g.len = 0)
    (hfn : fn (firstOccurrences keys) = FnOutcome.returned values err) :
    ∃ results, (DoX rx w g keys fn).2.2 = Exit.returned results
      ∧ (DoX rx w g keys fn).2.1.len = 0
      ∧ (keys = [] → (DoX rx w g keys fn).1.invoked = w.invoked)
      ∧ (keys ≠ [] → (DoX rx w g keys fn).1.invoked = w.invoked ++ [firstOccurrences keys])
      ∧ (mapKeys results).Nodup
      ∧ (∀ k, k ∉ keys → mapGet results k = none)
      ∧ (∀ k ∈ keys, mapGet results k
          = some (({ (call.zero : call V E P) with
                      dups := (keys.filter (fun x => decide (x = k))).length - 1 }).fill
                    (values.getD []) (Error.ofReturn err) k).result) := by
  obtain ⟨r1, r2, r3, r4, r5, r6⟩ := DoX_register_fresh w g keys hg
  generalize hr : DoX.register w g keys = r at r1 r2 r3 r4 r5 r6
  have hDoX : DoX rx w g keys fn
      = match doCallX rx r.w { m := some r.m } r.calls r.toCall fn with
        | (w, g, Exit.returned ()) => (w, g, DoX.wait w r.calls [])
        | (w, g, Exit.panicked e) => (w, g, Exit.panicked e)
        | (w, g, Exit.goexit) => (w, g, Exit.goexit)
        | (w, g, Exit.crashed e) => (w, g, Exit.crashed e)
        | (w, g, Exit.blocked) => (w, g, Exit.blocked)
        | (w, g, Exit.fault) => (w, g, Exit.fault) := by
    unfold DoX
    rw [hr]
    try rfl
  rw [hDoX, r1]
  by_cases hkeys : keys = []
  · subst hkeys
    have hcalls : r.calls = [] := by
      rw [← hr]; rfl
    have hm : r.m = [] := eq_nil_of_mapGet_none r.m (fun k => (r4 k (by simp)).1)
    simp only [firstOccurrences, doCallX_nil, hcalls, DoX.wait]
    refine ⟨[], rfl, ?_, fun _ => r2, fun h => absurd rfl h, by simp [mapKeys], ?_, ?_⟩
    · simp [Group.len, hm]
    · intro k _; rfl
    · intro k hk; cases hk
  · have hne : firstOccurrences keys ≠ [] := by
      obtain ⟨a, ha⟩ := List.exists_mem_of_ne_nil keys hkeys
      intro h
      have := (mem_firstOccurrences keys a).mpr ha
      rw [h] at this
      cases this
    have hidx : ∀ k ∈ keys, ∃ p, p ≠ 0 ∧ mapGet r.m k = some p ∧ mapIndex r.calls k = p
        ∧ r.w.heap p = { (call.zero : call V E P) with
            wg := 1, dups := (keys.filter (fun x => decide (x = k))).length - 1 } := by
      intro k hk
      obtain ⟨p, h1, h2, h3, h4⟩ := r5 k hk
      exact ⟨p, h1, h2, by simp [mapIndex, h3], h4⟩
    have hrec : ∀ k ∈ firstOccurrences keys,
        mapIndex r.calls k ≠ 0 ∧ (r.w.heap (mapIndex r.calls k)).wg ≠ 0 := by
      intro k hk
      obtain ⟨p, h1, _, h3, h4⟩ := hidx k ((mem_firstOccurrences keys k).mp hk)
      rw [h3, h4]
      exact ⟨h1, by simp⟩
    have hinj : ∀ k1 ∈ firstOccurrences keys, ∀ k2 ∈ firstOccurrences keys,
        mapIndex r.calls k1 = mapIndex r.calls k2 → k1 = k2 :=
      fun k1 h1 k2 h2 => r6 k1 ((mem_firstOccurrences keys k1).mp h1) k2
        ((mem_firstOccurrences keys k2).mp h2)
    obtain ⟨d1, d2, d3, d4, d5, d6⟩ := doCallX_returned rx r.w { m := some r.m } r.calls
      (firstOccurrences keys) fn values err hne hfn (nodup_firstOccurrences keys) hinj hrec
    have hret : (doCallX rx r.w { m := some r.m } r.calls (firstOccurrences keys) fn).2.2
        = Exit.returned () := by
      apply d2
      intro k hk
      obtain ⟨p, _, _, h3, h4⟩ := hidx k ((mem_firstOccurrences keys k).mp hk)
      right
      rw [h3, h4]
      rfl
    obtain ⟨e1, e2, e3, e4⟩ := d6 hret
    generalize hout : doCallX rx r.w { m := some r.m } r.calls (firstOccurrences keys) fn
      = out at d3 d4 d5 hret e1 e2 e3 e4
    obtain ⟨w', g', ex⟩ := out
    simp only at hret d5 e1 e2 e3 e4
    subst hret
    simp only
    have hheap : ∀ k ∈ keys, ∃ p, mapGet r.calls k = some p
        ∧ w'.heap p = { ({ (call.zero : call V E P) with
              dups := (keys.filter (fun x => decide (x = k))).length - 1 }).fill
              (values.getD []) (Error.ofReturn err) k with wg := 0 } := by
      intro k hk
      obtain ⟨p, h1, h2, h3, h4⟩ := r5 k hk
      refine ⟨p, h3, ?_⟩
      have hi : mapIndex r.calls k = p := by simp [mapIndex, h3]
      have := e2 k ((mem_firstOccurrences keys k).mpr hk)
      rw [hi, h4] at this
      rw [this]
      unfold call.fill
      cases mapGet (values.getD []) k <;> simp
    have hwait : ∀ e ∈ r.calls, (w'.heap e.2).wg = 0
        ∧ ∃ x, (w'.heap e.2).err = Error.ofReturn x := by
      intro e he
      obtain ⟨k, c⟩ := e
      have hget := mapGet_of_mem r.calls k c r3 he
      have hk : k ∈ keys := by
        by_contra hn
        rw [(r4 k hn).2] at hget
        cases hget
      obtain ⟨p, h1, h2⟩ := hheap k hk
      rw [hget] at h1
      cases h1
      simp only
      rw [h2]
      refine ⟨rfl, err, ?_⟩
      unfold call.fill
      cases mapGet (values.getD []) k <;> simp
    rw [wait_returned w' r.calls [] hwait]
    refine ⟨_, rfl, ?_, fun h => absurd h hkeys, fun _ => ?_, ?_, ?_, ?_⟩
    · apply Group.len_eq_zero_of_get
      intro k
      rw [e1 k]
      by_cases hk : k ∈ keys
      · obtain ⟨p, h1, h2, h3, h4⟩ := hidx k hk
        have : (({ m := some r.m } : Group K).get k) = some (mapIndex r.calls k) := by
          rw [h3]; simpa [Group.get] using h2
        simp [(mem_firstOccurrences keys k).mpr hk, this]
      · have hn : k ∉ firstOccurrences keys := fun h => hk ((mem_firstOccurrences keys k).mp h)
        have : (({ m := some r.m } : Group K).get k) = none := by
          simpa [Group.get] using (r4 k hk).1
        simp [hn, this]
    · rw [d5, r2]
    · apply foldl_mapSet_nodup
      simp [mapKeys]
    · intro k hk
      rw [foldl_mapSet_get w' r.calls [] r3 k, (r4 k hk).2]
      rfl
    · intro k hk
      obtain ⟨p, h1, h2⟩ := hheap k hk
      rw [foldl_mapSet_get w' r.calls [] r3 k, h1]
      simp only
      rw [h2]
      unfold call.fill call.result
      cases mapGet (values.getD []) k <;> simp

end DoXLemmas

/-! ## `DoChanX`: the channels and the registration -/

section ChanLemmas

variable {K V E P : Type} [DecidableEq K] [Inhabited V]

theorem make_frame (keys : List K) (st : World K V E P × List (K × Nat)) :
    (keys.foldl DoChanX.makeStep st).1.heap = st.1.heap
    ∧ (keys.foldl DoChanX.makeStep st).1.allocated = st.1.allocated
    ∧ (keys.foldl DoChanX.makeStep st).1.invoked = st.1.invoked
    ∧ (keys.foldl DoChanX.makeStep st).1.made = st.1.made + keys.length := by
  induction keys generalizing st with
  | nil => simp
  | cons a rest ih =>
    rw [List.foldl_cons]
    obtain ⟨h1, h2, h3, h4⟩ := ih (DoChanX.makeStep st a)
    rw [h1, h2, h3, h4]
    simp [DoChanX.makeStep, World.makeChan]
    omega

theorem make_chans (keys : List K) (st : World K V E P × List (K × Nat)) (ch : Nat) :
    (keys.foldl DoChanX.makeStep st).1.chans ch
      = if st.1.made < ch ∧ ch ≤ st.1.made + keys.length then [] else st.1.chans ch := by
  induction keys generalizing st with
  | nil =>
    have : ¬ (st.1.made < ch ∧ ch ≤ st.1.made) := by omega
    simp [this]
  | cons a rest ih =>
    rw [List.foldl_cons, ih]
    simp only [DoChanX.makeStep, World.makeChan, List.length_cons]
    by_cases h1 : ch = st.1.made + 1
    · subst h1
      have : ¬ (st.1.made + 1 < st.1.made + 1 ∧ st.1.made + 1 ≤ st.1.made + 1 + rest.length) := by
        omega
      have h2 : st.1.made < st.1.made + 1 ∧ st.1.made + 1 ≤ st.1.made + (rest.length + 1) := by
        omega
      simp [this, h2]
    · by_cases h2 : st.1.made < ch ∧ ch ≤ st.1.made + (rest.length + 1)
      · have : st.1.made + 1 < ch ∧ ch ≤ st.1.made + 1 + rest.length := by omega
        simp [this, h2]
      · have : ¬ (st.1.made + 1 < ch ∧ ch ≤ st.1.made + 1 + rest.length) := by omega
        simp [this, h2, h1]

theorem make_results_not_mem (keys : List K) (st : World K V E P × List (K × Nat)) (k : K)
    (h : k ∉ keys) : mapGet (keys.foldl DoChanX.makeStep st).2 k = mapGet st.2 k := by
  induction keys generalizing st with
  | nil => simp
  | cons a rest ih =>
    rw [List.foldl_cons, ih _ (fun e => h (List.mem_cons_of_mem _ e))]
    have : k ≠ a := fun e => h (by simp [e])
    simp [DoChanX.makeStep, mapGet_mapSet, this]

theorem make_results_mem (keys : List K) (st : World K V E P × List (K × Nat)) (k : K)
    (h : k ∈ keys) :
    ∃ ch, mapGet (keys.foldl DoChanX.makeStep st).2 k = some ch
      ∧ st.1.made < ch ∧ ch ≤ st.1.made + keys.length := by
  induction keys generalizing st with
  | nil => cases h
  | cons a rest ih =>
    rw [List.foldl_cons]
    by_cases hr : k ∈ rest
    · obtain ⟨ch, h1, h2, h3⟩ := ih (DoChanX.makeStep st a) hr
      refine ⟨ch, h1, ?_, ?_⟩
      · simp [DoChanX.makeStep, World.makeChan] at h2; omega
      · simp [DoChanX.makeStep, World.makeChan] at h3
        simp only [List.length_cons]; omega
    · have hka : k = a := by
        rcases List.mem_cons.mp h with e | e
        · exact e
        · exact absurd e hr
      subst hka
      rw [make_results_not_mem rest _ k hr]
      refine ⟨st.1.made + 1, ?_, by omega, ?_⟩
      · simp [DoChanX.makeStep, mapGet_mapSet]
      · simp only [List.length_cons]; omega

theorem make_results_inj (keys : List K) (st : World K V E P × List (K × Nat)) (k1 k2 : K)
    (h1 : k1 ∈ keys) (h2 : k2 ∈ keys)
    (e : mapGet (keys.foldl DoChanX.makeStep st).2 k1
      = mapGet (keys.foldl DoChanX.makeStep st).2 k2) : k1 = k2 := by
  induction keys generalizing st with
  | nil => cases h1
  | cons a rest ih =>
    rw [List.foldl_cons] at e
    have hself : ∀ k, k ∉ rest → k ∈ a :: rest →
        mapGet (rest.foldl DoChanX.makeStep (DoChanX.makeStep st a)).2 k
          = some (st.1.made + 1) := by
      intro k hr hk
      have hka : k = a := by
        rcases List.mem_cons.mp hk with e | e
        · exact e
        · exact absurd e hr
      subst hka
      rw [make_results_not_mem rest _ k hr]
      simp [DoChanX.makeStep, mapGet_mapSet]
    have hlater : ∀ k, k ∈ rest →
        ∃ ch, mapGet (rest.foldl DoChanX.makeStep (DoChanX.makeStep st a)).2 k = some ch
          ∧ st.1.made + 1 < ch := by
      intro k hk
      obtain ⟨ch, c1, c2, _⟩ := make_results_mem rest (DoChanX.makeStep st a) k hk
      refine ⟨ch, c1, ?_⟩
      simpa [DoChanX.makeStep, World.makeChan] using c2
    by_cases r1 : k1 ∈ rest
    · by_cases r2 : k2 ∈ rest
      · exact ih _ r1 r2 e
      · exfalso
        obtain ⟨ch, c1, c2⟩ := hlater k1 r1
        rw [c1, hself k2 r2 h2] at e
        simp only [Option.some.injEq] at e
        omega
    · by_cases r2 : k2 ∈ rest
      · exfalso
        obtain ⟨ch, c1, c2⟩ := hlater k2 r2
        rw [c1, hself k1 r1 h1] at e
        simp only [Option.some.injEq] at e
        omega
      · have a1 : k1 = a := by
          rcases List.mem_cons.mp h1 with e | e
          · exact e
          · exact absurd e r1
        have a2 : k2 = a := by
          rcases List.mem_cons.mp h2 with e | e
          · exact e
          · exact absurd e r2
        rw [a1, a2]

theorem DoChanX_eq (w : World K V E P) (g : Group K) (keys : List K) :
    DoChanX w g keys
      = { w := (keys.foldl (registerStep (fun k =>
                  [mapIndex (keys.foldl DoChanX.makeStep (w, [])).2 k]))
                { w := (keys.foldl DoChanX.makeStep (w, [])).1, m := g.m.getD [],
                  calls := [], toCall := [] }).w,
          m := (keys.foldl (registerStep (fun k =>
                  [mapIndex (keys.foldl DoChanX.makeStep (w, [])).2 k]))
                { w := (keys.foldl DoChanX.makeStep (w, [])).1, m := g.m.getD [],
                  calls := [], toCall := [] }).m,
          results := (keys.foldl DoChanX.makeStep (w, [])).2,
          calls := (keys.foldl (registerStep (fun k =>
                  [mapIndex (keys.foldl DoChanX.makeStep (w, [])).2 k]))
                { w := (keys.foldl DoChanX.makeStep (w, [])).1, m := g.m.getD [],
                  calls := [], toCall := [] }).calls,
          toCall := (keys.foldl (registerStep (fun k =>
                  [mapIndex (keys.foldl DoChanX.makeStep (w, [])).2 k]))
                { w := (keys.foldl DoChanX.makeStep (w, [])).1, m := g.m.getD [],
                  calls := [], toCall := [] }).toCall } := rfl

theorem filter_eq_length (keys : List K) (k : K) :
    (keys.filter (fun x => decide (x = k))).length = keys.count k := by
  rw [List.count_eq_countP, List.countP_eq_length_filter]
  congr 1

theorem flatMap_filter_eq (keys : List K) (k : K) (f : K → Nat) :
    (keys.filter (fun x => decide (x = k))).flatMap (fun x => [f x])
      = List.replicate (keys.count k) (f k) := by
  induction keys with
  | nil => simp
  | cons a rest ih =>
    by_cases h : a = k
    · subst h
      simp [List.filter_cons, ih, List.replicate_succ]
    · have h' : ¬ (a == k) = true := by simpa using h
      simp [List.filter_cons, h, ih, List.count_cons, h']

/-- The facts about a registration by `DoChanX` of keys that have no record. -/
theorem DoChanX_fresh (w : World K V E P) (g : Group K) (keys : List K)
    (habs : ∀ k ∈ keys, g.get k = none)
    (hwf : ∀ k p, g.get k = some p → p ≤ w.allocated) :
    (DoChanX w g keys).toCall = firstOccurrences keys
    ∧ (DoChanX w g keys).w.invoked = w.invoked
    ∧ (DoChanX w g keys).w.made = w.made + keys.length
    ∧ (mapKeys (DoChanX w g keys).calls).Nodup
    ∧ (∀ k, k ∉ keys → mapGet (DoChanX w g keys).m k = g.get k
        ∧ mapGet (DoChanX w g keys).calls k = none)
    ∧ (∀ k ∈ keys, ∃ p ch, w.allocated < p ∧ p ≤ (DoChanX w g keys).w.allocated
        ∧ mapGet (DoChanX w g keys).m k = some p
        ∧ mapGet (DoChanX w g keys).calls k = some p
        ∧ mapGet (DoChanX w g keys).results k = some ch
        ∧ w.made < ch ∧ ch ≤ w.made + keys.length
        ∧ (DoChanX w g keys).w.heap p
          = { (call.zero : call V E P) with
              wg := 1, dups := keys.count k - 1, chans := List.replicate (keys.count k) ch })
    ∧ (∀ k1 ∈ keys, ∀ k2 ∈ keys,
        mapIndex (DoChanX w g keys).calls k1 = mapIndex (DoChanX w g keys).calls k2 → k1 = k2)
    ∧ (∀ k1 ∈ keys, ∀ k2 ∈ keys,
        mapGet (DoChanX w g keys).results k1 = mapGet (DoChanX w g keys).results k2 → k1 = k2)
    ∧ (∀ ch, (DoChanX w g keys).w.chans ch
        = if w.made < ch ∧ ch ≤ w.made + keys.length then [] else w.chans ch)
    ∧ (∀ q, q ≤ w.allocated → (DoChanX w g keys).w.heap q = w.heap q)
    ∧ (∀ k p, mapGet (DoChanX w g keys).m k = some p → p ≤ (DoChanX w g keys).w.allocated) := by
  rw [DoChanX_eq]
  simp only
  obtain ⟨m1, m2, m3, m4⟩ := make_frame keys ((w, []) : World K V E P × List (K × Nat))
  have m5 := make_chans keys ((w, []) : World K V E P × List (K × Nat))
  have m6 := make_results_mem keys ((w, []) : World K V E P × List (K × Nat))
  have m7 := make_results_inj keys ((w, []) : World K V E P × List (K × Nat))
  generalize hmade : keys.foldl DoChanX.makeStep ((w, []) : World K V E P × List (K × Nat))
    = made at m1 m2 m3 m4 m5 m6 m7
  simp only at m1 m2 m3 m4 m5 m6
  generalize hatt : (fun k => [mapIndex made.2 k]) = attach
  generalize hst : ({ w := made.1, m := g.m.getD [], calls := [], toCall := [] }
    : Registered K V E P) = st
  have hstm : st.m = g.m.getD [] := by rw [← hst]
  have hstc : st.calls = [] := by rw [← hst]
  have hstt : st.toCall = [] := by rw [← hst]
  have hstw : st.w = made.1 := by rw [← hst]
  have habs' : ∀ k ∈ keys, mapGet st.m k = none := by
    intro k hk; rw [hstm]; exact habs k hk
  have hwf' : ∀ k p, mapGet st.m k = some p → p ≤ st.w.allocated := by
    intro k p h
    rw [hstm] at h
    rw [hstw, m2]
    exact hwf k p h
  have hfresh : ∀ k ∈ keys, ∃ p ch, w.allocated < p
      ∧ p ≤ (keys.foldl (registerStep attach) st).w.allocated
      ∧ mapGet (keys.foldl (registerStep attach) st).m k = some p
      ∧ mapGet (keys.foldl (registerStep attach) st).calls k = some p
      ∧ mapGet made.2 k = some ch
      ∧ w.made < ch ∧ ch ≤ w.made + keys.length
      ∧ (keys.foldl (registerStep attach) st).w.heap p
        = { (call.zero : call V E P) with
            wg := 1, dups := keys.count k - 1, chans := List.replicate (keys.count k) ch } := by
    intro k hk
    obtain ⟨p, hp1, hp2⟩ := reg_heap_new attach keys st hwf' k hk (habs' k hk)
    obtain ⟨p', hp1', hp2', hp3'⟩ := reg_m_fresh attach keys st k hk (habs' k hk)
    rw [hp1] at hp1'
    cases hp1'
    obtain ⟨ch, c1, c2, c3⟩ := m6 k hk
    refine ⟨p, ch, ?_, hp3', hp1, ?_, c1, c2, c3, ?_⟩
    · rw [hstw, m2] at hp2'; exact hp2'
    · rw [(reg_calls_mem attach keys st k hk).1, hp1]
    · rw [hp2, ← hatt, flatMap_filter_eq, filter_eq_length]
      simp [mapIndex, c1]
  refine ⟨?_, ?_, ?_, ?_, ?_, hfresh, ?_, fun k1 h1 k2 h2 => m7 k1 k2 h1 h2, ?_, ?_, ?_⟩
  · rw [reg_toCall, hstt]
    have : keys.filter (fun k => (mapGet st.m k).isNone) = keys := by
      apply List.filter_eq_self.mpr
      intro k hk
      simp [habs' k hk]
    simp [this]
  · rw [(reg_world_frame attach keys st).2.2, hstw, m3]
  · rw [(reg_world_frame attach keys st).2.1, hstw, m4]
  · apply reg_calls_nodup
    rw [hstc]; simp [mapKeys]
  · intro k hk
    rw [reg_m_not_mem attach keys st k hk, reg_calls_not_mem attach keys st k hk, hstm, hstc]
    exact ⟨rfl, rfl⟩
  · intro k1 h1 k2 h2 e
    apply reg_fresh_inj attach keys st k1 k2 h1 h2 (habs' k1 h1) (habs' k2 h2)
    obtain ⟨p1, _, _, _, a1, b1, _⟩ := hfresh k1 h1
    obtain ⟨p2, _, _, _, a2, b2, _⟩ := hfresh k2 h2
    simp only [mapIndex, b1, b2, Option.getD_some] at e
    rw [a1, a2, e]
  · intro ch
    rw [(reg_world_frame attach keys st).1, hstw, m5 ch]
  · intro q hq
    have hq' : q ≤ st.w.allocated := by rw [hstw, m2]; exact hq
    rw [reg_heap_old attach keys st q hq']
    have hnil : keys.filter (fun k => decide (mapGet st.m k = some q)) = [] := by
      apply List.filter_eq_nil_iff.mpr
      intro k hk
      simp [habs' k hk]
    rw [hnil, hstw, m1]
    simp
  · exact reg_wf attach keys st hwf'

end ChanLemmas

/-! ## The claims on `DoX` and `DoChanX` without in-flight records -/

section Claims

variable {K V E P : Type} [DecidableEq K] [Inhabited V]

theorem firstOccurrences_sublist (keys : List K) : (firstOccurrences keys).Sublist keys := by
  induction keys with
  | nil => simp [firstOccurrences]
  | cons a rest ih =>
    simp only [firstOccurrences]
    exact List.Sublist.cons₂ a ((List.filter_sublist _).trans ih)

/-- C2: on a group without in-flight records, when `fn` returns `(values, err)`
for the keys it is called with, `DoX(keys, fn)` returns a map that gives every
key of `keys` the value of `values` with `Valid = true` when `values` has the
key, the zero value with `Valid = false` when it has not (a nil `values` has no
key), and the error `err` whether it is nil or not; a key that is not in `keys`
has no entry. -/
theorem DoX_result_population (rx : Bool) (w : World K V E P) (g : Group K) (keys : List K)
    (fn : List K → FnOutcome K V E P) (values : Option (List (K × V))) (err : Option E)
    (hg : g.len = 0)
    (hfn : fn (DoX.register w g keys).toCall = FnOutcome.returned values err) :
    ∃ results, (DoX rx w g keys fn).2.2 = Exit.returned results
      ∧ (∀ k ∈ keys, ∃ r, mapGet results k = some r
          ∧ (∀ v, mapGet (values.getD []) k = some v → r.Value = { Value := v, Valid := true })
          ∧ (mapGet (values.getD []) k = none → r.Value = { Value := default, Valid := false })
          ∧ (err = none → r.Err = Error.nil)
          ∧ (∀ e, err = some e → r.Err = Error.user e))
      ∧ (∀ k, k ∉ keys → mapGet results k = none) := by
  rw [(DoX_register_fresh w g keys hg).1] at hfn
  obtain ⟨results, h1, _, _, _, _, h6, h7⟩ := DoX_returns rx w g keys fn values err hg hfn
  refine ⟨results, h1, ?_, h6⟩
  intro k hk
  have herr : ((({ (call.zero : call V E P) with
      dups := (keys.filter (fun x => decide (x = k))).length - 1 }).fill
        (values.getD []) (Error.ofReturn err) k).result).Err = Error.ofReturn err := by
    unfold call.fill call.result
    cases mapGet (values.getD []) k <;> simp
  refine ⟨_, h7 k hk, ?_, ?_, ?_, ?_⟩
  · intro v hv
    simp [call.fill, call.result, hv, call.zero]
  · intro hv
    simp [call.fill, call.result, hv, call.zero]
  · intro he
    rw [herr, he]
    rfl
  · intro e he
    rw [herr, he]
    rfl

/-- The keys `"a"`, `"b"`, `"c"` with the work function of the second call of
`TestDoChanX`, which returns values for `"a"` and `"b"` and a non-nil error. -/
theorem DoX_result_population_witness :
    ∃ results, (DoX false (World.init : World String String String String) Group.zero
        ["a", "b", "c"] fnAnError).2.2 = Exit.returned results
      ∧ (∀ k ∈ ["a", "b", "c"], ∃ r, mapGet results k = some r
          ∧ (∀ v, mapGet ((some [("a", "foo"), ("b", "bar")]).getD []) k = some v
              → r.Value = { Value := v, Valid := true })
          ∧ (mapGet ((some [("a", "foo"), ("b", "bar")]).getD []) k = none
              → r.Value = { Value := default, Valid := false })
          ∧ ((some "assert.AnError general error for testing" : Option String) = none
              → r.Err = Error.nil)
          ∧ (∀ e, (some "assert.AnError general error for testing" : Option String) = some e
              → r.Err = Error.user e))
      ∧ (∀ k, k ∉ ["a", "b", "c"] → mapGet results k = none) :=
  DoX_result_population false World.init Group.zero ["a", "b", "c"] fnAnError
    (some [("a", "foo"), ("b", "bar")]) (some "assert.AnError general error for testing")
    rfl rfl

/-- The Results `DoX` returns for the work functions of `TestDoXErr` and of
the second call of `TestDoChanX`: the error the work function returned, the
value it returned for the key, and `Valid = false` where it returned none. -/
theorem DoX_returns_the_error_of_fn :
    (DoX false (World.init : World String String String String) Group.zero
        ["a", "b"] fnErr).2.2
      = Exit.returned
          [("a", { Value := { Value := "", Valid := false },
                   Err := Error.user "Some error", Shared := false }),
           ("b", { Value := { Value := "", Valid := false },
                   Err := Error.user "Some error", Shared := false })]
    ∧ (DoX false (World.init : World String String String String) Group.zero
        ["a", "c"] fnAnError).2.2
      = Exit.returned
          [("a", { Value := { Value := "foo", Valid := true },
                   Err := Error.user "assert.AnError general error for testing",
                   Shared := false }),
           ("c", { Value := { Value := "", Valid := false },
                   Err := Error.user "assert.AnError general error for testing",
                   Shared := false })]
    ∧ (DoX false (World.init : World String String String String) Group.zero
        ["a", "b"] fnPartial).2.2
      = Exit.returned
          [("a", { Value := { Value := "foo", Valid := true }, Err := Error.nil,
                   Shared := false }),
           ("b", { Value := { Value := "", Valid := false }, Err := Error.nil,
                   Shared := false })] :=
  ⟨by decide, by decide, by decide⟩

/-- C3: on a group without in-flight records, when `fn` returns, the map
`DoX(keys, fn)` returns has one entry for each distinct key of `keys` and no
other; for a non-empty `keys` the work function is invoked once, with the
distinct keys in the order of their first occurrences; for an empty `keys` it
is not invoked, the result is empty and the mapping is empty. -/
theorem DoX_distinct_keys_one_invocation (rx : Bool) (w : World K V E P) (g : Group K)
    (keys : List K) (fn : List K → FnOutcome K V E P) (values : Option (List (K × V)))
    (err : Option E) (hg : g.len = 0)
    (hfn : fn (DoX.register w g keys).toCall = FnOutcome.returned values err) :
    ∃ results, (DoX rx w g keys fn).2.2 = Exit.returned results
      ∧ (mapKeys results).Nodup
      ∧ (∀ k, k ∈ mapKeys results ↔ k ∈ keys)
      ∧ (keys ≠ [] → (DoX rx w g keys fn).1.invoked = w.invoked ++ [firstOccurrences keys])
      ∧ (keys = [] → (DoX rx w g keys fn).1.invoked = w.invoked ∧ results = []
          ∧ (DoX rx w g keys fn).2.1.len = 0)
      ∧ (firstOccurrences keys).Nodup
      ∧ (∀ k, k ∈ firstOccurrences keys ↔ k ∈ keys)
      ∧ (firstOccurrences keys).Sublist keys := by
  rw [(DoX_register_fresh w g keys hg).1] at hfn
  obtain ⟨results, h1, h2, h3, h4, h5, h6, h7⟩ := DoX_returns rx w g keys fn values err hg hfn
  have hmem : ∀ k, k ∈ mapKeys results ↔ k ∈ keys := by
    intro k
    constructor
    · intro hk
      by_contra hn
      exact ((mapGet_eq_none_iff results k).mp (h6 k hn)) hk
    · intro hk
      by_contra hn
      have := (mapGet_eq_none_iff results k).mpr hn
      rw [h7 k hk] at this
      cases this
  refine ⟨results, h1, h5, hmem, h4, ?_, nodup_firstOccurrences keys,
    mem_firstOccurrences keys, ?_⟩
  · intro hk
    refine ⟨h3 hk, ?_, h2⟩
    apply eq_nil_of_mapGet_none
    intro k
    apply h6
    rw [hk]
    simp
  · exact firstOccurrences_sublist keys

/-- The "dup" case of `TestDoX`: the keys `["a", "a"]`. -/
theorem DoX_distinct_keys_one_invocation_witness :
    ∃ results, (DoX false (World.init : World String String String String) Group.zero
        ["a", "a"] fnPartial).2.2 = Exit.returned results
      ∧ (mapKeys results).Nodup
      ∧ (∀ k, k ∈ mapKeys results ↔ k ∈ ["a", "a"])
      ∧ (["a", "a"] ≠ [] → (DoX false (World.init : World String String String String)
            Group.zero ["a", "a"] fnPartial).1.invoked
          = (World.init : World String String String String).invoked
            ++ [firstOccurrences ["a", "a"]])
      ∧ (["a", "a"] = [] → (DoX false (World.init : World String String String String)
            Group.zero ["a", "a"] fnPartial).1.invoked
            = (World.init : World String String String String).invoked ∧ results = []
          ∧ (DoX false (World.init : World String String String String) Group.zero
              ["a", "a"] fnPartial).2.1.len = 0)
      ∧ (firstOccurrences ["a", "a"]).Nodup
      ∧ (∀ k, k ∈ firstOccurrences ["a", "a"] ↔ k ∈ ["a", "a"])
      ∧ (firstOccurrences ["a", "a"]).Sublist ["a", "a"] :=
  DoX_distinct_keys_one_invocation false World.init Group.zero ["a", "a"] fnPartial
    (some [("a", "foo"), ("c", "bar")]) none rfl rfl

/-- What the executor started by `DoChanX` does on a group without in-flight
records when `fn` returns. -/
theorem DoChanX_executor_returns (rx : Bool) (w : World K V E P) (g : Group K)
    (keys : List K) (fn : List K → FnOutcome K V E P) (values : Option (List (K × V)))
    (err : Option E) (hg : g.len = 0)
    (hfn : fn (firstOccurrences keys) = FnOutcome.returned values err) :
    ((doCallX rx (DoChanX w g keys).w { m := some (DoChanX w g keys).m }
        (DoChanX w g keys).calls (DoChanX w g keys).toCall fn).2.2 = Exit.returned ()
      → (doCallX rx (DoChanX w g keys).w { m := some (DoChanX w g keys).m }
          (DoChanX w g keys).calls (DoChanX w g keys).toCall fn).2.1.len = 0)
    ∧ (rx = true → (doCallX rx (DoChanX w g keys).w { m := some (DoChanX w g keys).m }
        (DoChanX w g keys).calls (DoChanX w g keys).toCall fn).2.2 = Exit.returned ()) := by
  have hm : g.m.getD [] = [] := List.length_eq_zero.mp hg
  have hget : ∀ k, g.get k = none := by
    intro k; simp [Group.get, hm, mapGet]
  obtain ⟨r1, r2, r3, r4, r5, r6, r7, r8, r9, r10, r11⟩ := DoChanX_fresh w g keys
    (fun k _ => hget k) (fun k p h => by rw [hget k] at h; cases h)
  generalize DoChanX w g keys = r at r1 r2 r3 r4 r5 r6 r7 r8 r9 r10 r11
  rw [r1]
  by_cases hkeys : keys = []
  · subst hkeys
    simp only [firstOccurrences, doCallX_nil]
    refine ⟨fun _ => ?_, fun _ => trivial⟩
    apply Group.len_eq_zero_of_get
    intro k
    have := (r5 k (by simp)).1
    rw [hget k] at this
    simpa [Group.get] using this
  · have hne : firstOccurrences keys ≠ [] := by
      obtain ⟨a, ha⟩ := List.exists_mem_of_ne_nil keys hkeys
      intro h
      have := (mem_firstOccurrences keys a).mpr ha
      rw [h] at this
      cases this
    have hidx : ∀ k ∈ keys, ∃ p ch, p ≠ 0 ∧ ch ≠ 0 ∧ mapGet r.m k = some p
        ∧ mapIndex r.calls k = p
        ∧ r.w.heap p = { (call.zero : call V E P) with
            wg := 1, dups := keys.count k - 1, chans := List.replicate (keys.count k) ch } := by
      intro k hk
      obtain ⟨p, ch, h1, h2, h3, h4, h5, h6, h7, h8⟩ := r6 k hk
      exact ⟨p, ch, by omega, by omega, h3, by simp [mapIndex, h4], h8⟩
    have hrec : ∀ k ∈ firstOccurrences keys,
        mapIndex r.calls k ≠ 0 ∧ (r.w.heap (mapIndex r.calls k)).wg ≠ 0 := by
      intro k hk
      obtain ⟨p, ch, h1, _, _, h3, h4⟩ := hidx k ((mem_firstOccurrences keys k).mp hk)
      rw [h3, h4]
      exact ⟨h1, by simp⟩
    have hinj : ∀ k1 ∈ firstOccurrences keys, ∀ k2 ∈ firstOccurrences keys,
        mapIndex r.calls k1 = mapIndex r.calls k2 → k1 = k2 :=
      fun k1 h1 k2 h2 => r7 k1 ((mem_firstOccurrences keys k1).mp h1) k2
        ((mem_firstOccurrences keys k2).mp h2)
    obtain ⟨d1, d2, d3, d4, d5, d6⟩ := doCallX_returned rx r.w { m := some r.m } r.calls
      (firstOccurrences keys) fn values err hne hfn (nodup_firstOccurrences keys) hinj hrec
    refine ⟨fun hret => ?_, fun hrx => ?_⟩
    · obtain ⟨e1, _, _, _⟩ := d6 hret
      apply Group.len_eq_zero_of_get
      intro k
      rw [e1 k]
      by_cases hk : k ∈ keys
      · obtain ⟨p, ch, _, _, h2, h3, _⟩ := hidx k hk
        have : (({ m := some r.m } : Group K).get k) = some (mapIndex r.calls k) := by
          rw [h3]; simpa [Group.get] using h2
        simp [(mem_firstOccurrences keys k).mpr hk, this]
      · have hn : k ∉ firstOccurrences keys := fun h => hk ((mem_firstOccurrences keys k).mp h)
        have : (({ m := some r.m } : Group K).get k) = none := by
          have := (r5 k hk).1
          rw [hget k] at this
          simpa [Group.get] using this
        simp [hn, this]
    · apply d2
      intro k hk
      obtain ⟨p, ch, _, hch, _, h3, h4⟩ := hidx k ((mem_firstOccurrences keys k).mp hk)
      left
      refine ⟨hrx, ?_⟩
      rw [h3, h4]
      intro c hc
      have := List.eq_of_mem_replicate hc
      rw [this]; exact hch

/-- C5: on a group without in-flight records, when `fn` returns (with a nil
or a non-nil error), `DoX(keys, fn)` returns and leaves the mapping empty; the
executor started by `DoChanX(keys, fn)` leaves the mapping empty when it has
completed, and it completes when the channels are read. -/
theorem no_entry_left_when_fn_returns (rx : Bool) (w : World K V E P) (g : Group K)
    (keys : List K) (fn : List K → FnOutcome K V E P) (values : Option (List (K × V)))
    (err : Option E) (hg : g.len = 0)
    (hfn : fn (DoX.register w g keys).toCall = FnOutcome.returned values err) :
    (∃ results, (DoX rx w g keys fn).2.2 = Exit.returned results)
    ∧ (DoX rx w g keys fn).2.1.len = 0
    ∧ ((doCallX rx (DoChanX w g keys).w { m := some (DoChanX w g keys).m }
          (DoChanX w g keys).calls (DoChanX w g keys).toCall fn).2.2 = Exit.returned ()
        → (doCallX rx (DoChanX w g keys).w { m := some (DoChanX w g keys).m }
            (DoChanX w g keys).calls (DoChanX w g keys).toCall fn).2.1.len = 0)
    ∧ (doCallX true (DoChanX w g keys).w { m := some (DoChanX w g keys).m }
          (DoChanX w g keys).calls (DoChanX w g keys).toCall fn).2.2 = Exit.returned ()
    ∧ (doCallX true (DoChanX w g keys).w { m := some (DoChanX w g keys).m }
          (DoChanX w g keys).calls (DoChanX w g keys).toCall fn).2.1.len = 0 := by
  rw [(DoX_register_fresh w g keys hg).1] at hfn
  obtain ⟨results, h1, h2, _⟩ := DoX_returns rx w g keys fn values err hg hfn
  have c := DoChanX_executor_returns rx w g keys fn values err hg hfn
  have ct := DoChanX_executor_returns true w g keys fn values err hg hfn
  exact ⟨⟨results, h1⟩, h2, c.1, ct.2 rfl, ct.1 (ct.2 rfl)⟩

/-- On a group without in-flight records, when `fn` returns, the Result
`DoX` returns for a key has `Shared = true` exactly when the key occurs more
than once in `keys`. -/
theorem DoX_shared_iff_repeated (rx : Bool) (w : World K V E P) (g : Group K)
    (keys : List K) (fn : List K → FnOutcome K V E P) (values : Option (List (K × V)))
    (err : Option E) (hg : g.len = 0)
    (hfn : fn (DoX.register w g keys).toCall = FnOutcome.returned values err) :
    ∃ results, (DoX rx w g keys fn).2.2 = Exit.returned results
      ∧ ∀ k ∈ keys, ∃ r, mapGet results k = some r ∧ (r.Shared = true ↔ 1 < keys.count k) := by
  rw [(DoX_register_fresh w g keys hg).1] at hfn
  obtain ⟨results, h1, _, _, _, _, _, h7⟩ := DoX_returns rx w g keys fn values err hg hfn
  refine ⟨results, h1, fun k hk => ⟨_, h7 k hk, ?_⟩⟩
  rw [filter_eq_length]
  unfold call.fill call.result
  cases mapGet (values.getD []) k <;> simp

/-- The second call of `TestDoChanX`, whose work function returns an error,
here the one of `TestDoXErr`. -/
theorem no_entry_left_when_fn_returns_witness :
    (∃ results, (DoX false (World.init : World String String String String) Group.zero
        ["a", "b"] fnErr).2.2 = Exit.returned results)
    ∧ (DoX false (World.init : World String String String String) Group.zero
        ["a", "b"] fnErr).2.1.len = 0
    ∧ ((doCallX false
          (DoChanX (World.init : World String String String String) Group.zero ["a", "b"]).w
          { m := some (DoChanX (World.init : World String String String String) Group.zero
              ["a", "b"]).m }
          (DoChanX (World.init : World String String String String) Group.zero ["a", "b"]).calls
          (DoChanX (World.init : World String String String String) Group.zero ["a", "b"]).toCall
          fnErr).2.2 = Exit.returned ()
        → (doCallX false
          (DoChanX (World.init : World String String String String) Group.zero ["a", "b"]).w
          { m := some (DoChanX (World.init : World String String String String) Group.zero
              ["a", "b"]).m }
          (DoChanX (World.init : World String String String String) Group.zero ["a", "b"]).calls
          (DoChanX (World.init : World String String String String) Group.zero ["a", "b"]).toCall
          fnErr).2.1.len = 0)
    ∧ (doCallX true
          (DoChanX (World.init : World String String String String) Group.zero ["a", "b"]).w
          { m := some (DoChanX (World.init : World String String String String) Group.zero
              ["a", "b"]).m }
          (DoChanX (World.init : World String String String String) Group.zero ["a", "b"]).calls
          (DoChanX (World.init : World String String String String) Group.zero ["a", "b"]).toCall
          fnErr).2.2 = Exit.returned ()
    ∧ (doCallX true
          (DoChanX (World.init : World String String String String) Group.zero ["a", "b"]).w
          { m := some (DoChanX (World.init : World String String String String) Group.zero
              ["a", "b"]).m }
          (DoChanX (World.init : World String String String String) Group.zero ["a", "b"]).calls
          (DoChanX (World.init : World String String String String) Group.zero ["a", "b"]).toCall
          fnErr).2.1.len = 0 :=
  no_entry_left_when_fn_returns false World.init Group.zero ["a", "b"] fnErr none
    (some "Some error") rfl rfl

/-- C4: with the key `"a"` twice in the key list and no other caller, `DoX`
returns `Shared = true` for `"a"`. -/
theorem DoX_repeated_key_is_shared :
    (DoX false (World.init : World String String String String) Group.zero
        ["a", "a"] fnPartial).2.2
      = Exit.returned
          [("a", { Value := { Value := "foo", Valid := true }, Err := Error.nil,
                   Shared := true })] := by
  decide

/-- C6: when the work function panics in `DoX(["a", "b"], fn)`, the panic
reaches the caller after the record of `"a"` alone has been released and
removed: the mapping still has the entry of `"b"`, and the `WaitGroup` of its
record has not been released. -/
theorem DoX_panic_leaves_later_keys :
    (DoX false (World.init : World String String String String) Group.zero
        ["a", "b"] fnPanic).2.2
      = Exit.panicked "invalid memory address or nil pointer dereference"
    ∧ (DoX false (World.init : World String String String String) Group.zero
        ["a", "b"] fnPanic).2.1.m = some [("b", 2)]
    ∧ ((DoX false (World.init : World String String String String) Group.zero
        ["a", "b"] fnPanic).1.heap 2).wg = 1
    ∧ ((DoX false (World.init : World String String String String) Group.zero
        ["a", "b"] fnPanic).1.heap 1).wg = 0 := by
  decide

/-- When the work function calls `runtime.Goexit` in `DoX(["a", "b"], fn)`, the
thread exits after both records have been released and removed. -/
theorem DoX_goexit_releases_all :
    (DoX false (World.init : World String String String String) Group.zero
        ["a", "b"] fnGoexit).2.2 = Exit.goexit
    ∧ (DoX false (World.init : World String String String String) Group.zero
        ["a", "b"] fnGoexit).2.1.m = some []
    ∧ ((DoX false (World.init : World String String String String) Group.zero
        ["a", "b"] fnGoexit).1.heap 1).wg = 0
    ∧ ((DoX false (World.init : World String String String String) Group.zero
        ["a", "b"] fnGoexit).1.heap 2).wg = 0 := by
  decide

/-- When the work function panics in `DoX(["key"], fn)`, as in `TestPanicDoX`,
the panic reaches the caller after the one record has been released and
removed. -/
theorem DoX_panic_single_key_releases :
    (DoX false (World.init : World String String String String) Group.zero
        ["key"] fnPanic).2.2
      = Exit.panicked "invalid memory address or nil pointer dereference"
    ∧ (DoX false (World.init : World String String String String) Group.zero
        ["key"] fnPanic).2.1.m = some []
    ∧ ((DoX false (World.init : World String String String String) Group.zero
        ["key"] fnPanic).1.heap 1).wg = 0 := by
  decide

end Claims

/-! ## A second `DoChanX` that joins the records of a first one -/

section JoinLemmas

variable {K V E P : Type} [DecidableEq K] [Inhabited V]

theorem reg_all_present (attach : K → List Nat) (keys : List K) (st : Registered K V E P)
    (h : ∀ k ∈ keys, ∃ p, mapGet st.m k = some p) :
    (keys.foldl (registerStep attach) st).m = st.m
    ∧ (keys.foldl (registerStep attach) st).toCall = st.toCall
    ∧ (keys.foldl (registerStep attach) st).w.allocated = st.w.allocated := by
  induction keys generalizing st with
  | nil => simp
  | cons a rest ih =>
    rw [List.foldl_cons]
    obtain ⟨c, hc⟩ := h a (List.mem_cons_self _ _)
    have hst := registerStep_some attach st a c hc
    have hm : (registerStep attach st a).m = st.m := by rw [hst]
    obtain ⟨i1, i2, i3⟩ := ih (registerStep attach st a) (by
      intro k hk
      rw [hm]
      exact h k (List.mem_cons_of_mem _ hk))
    rw [i1, i2, i3, hst]
    simp [World.store]

/-- The facts about a registration by `DoChanX` of keys that all have a
record. -/
theorem DoChanX_join (w : World K V E P) (g : Group K) (keys : List K)
    (hpres : ∀ k ∈ keys, ∃ p, g.get k = some p ∧ p ≤ w.allocated) :
    (DoChanX w g keys).toCall = []
    ∧ (DoChanX w g keys).m = g.m.getD []
    ∧ (DoChanX w g keys).w.invoked = w.invoked
    ∧ (∀ k ∈ keys, mapGet (DoChanX w g keys).calls k = g.get k)
    ∧ (∀ k ∈ keys, ∃ ch, mapGet (DoChanX w g keys).results k = some ch
        ∧ w.made < ch ∧ ch ≤ w.made + keys.length)
    ∧ (∀ k1 ∈ keys, ∀ k2 ∈ keys,
        mapGet (DoChanX w g keys).results k1 = mapGet (DoChanX w g keys).results k2 → k1 = k2)
    ∧ (∀ ch, (DoChanX w g keys).w.chans ch
        = if w.made < ch ∧ ch ≤ w.made + keys.length then [] else w.chans ch)
    ∧ (∀ q, q ≤ w.allocated → (DoChanX w g keys).w.heap q
        = { w.heap q with
            dups := (w.heap q).dups
              + (keys.filter (fun k => decide (g.get k = some q))).length,
            chans := (w.heap q).chans
              ++ (keys.filter (fun k => decide (g.get k = some q))).flatMap
                  (fun k => [mapIndex (DoChanX w g keys).results k]) }) := by
  rw [DoChanX_eq]
  simp only
  obtain ⟨m1, m2, m3, m4⟩ := make_frame keys ((w, []) : World K V E P × List (K × Nat))
  have m5 := make_chans keys ((w, []) : World K V E P × List (K × Nat))
  have m6 := make_results_mem keys ((w, []) : World K V E P × List (K × Nat))
  have m7 := make_results_inj keys ((w, []) : World K V E P × List (K × Nat))
  generalize hmade : keys.foldl DoChanX.makeStep ((w, []) : World K V E P × List (K × Nat))
    = made at m1 m2 m3 m4 m5 m6 m7
  simp only at m1 m2 m3 m4 m5 m6
  generalize hatt : (fun k => [mapIndex made.2 k]) = attach
  generalize hst : ({ w := made.1, m := g.m.getD [], calls := [], toCall := [] }
    : Registered K V E P) = st
  have hstm : st.m = g.m.getD [] := by rw [← hst]
  have hstc : st.calls = [] := by rw [← hst]
  have hstt : st.toCall = [] := by rw [← hst]
  have hstw : st.w = made.1 := by rw [← hst]
  have hpres' : ∀ k ∈ keys, ∃ p, mapGet st.m k = some p := by
    intro k hk
    obtain ⟨p, hp, _⟩ := hpres k hk
    exact ⟨p, by rw [hstm]; exact hp⟩
  obtain ⟨a1, a2, a3⟩ := reg_all_present attach keys st hpres'
  refine ⟨by rw [a2, hstt], by rw [a1, hstm], ?_, ?_, m6, fun k1 h1 k2 h2 => m7 k1 k2 h1 h2,
    ?_, ?_⟩
  · rw [(reg_world_frame attach keys st).2.2, hstw, m3]
  · intro k hk
    rw [(reg_calls_mem attach keys st k hk).1, a1, hstm]
    rfl
  · intro ch
    rw [(reg_world_frame attach keys st).1, hstw, m5 ch]
  · intro q hq
    have hq' : q ≤ st.w.allocated := by rw [hstw, m2]; exact hq
    rw [reg_heap_old attach keys st q hq', hstw, m1, hstm]
    rfl

end JoinLemmas

/-! ## Joining instead of re-executing -/

section Joining

variable {K V E P : Type} [DecidableEq K] [Inhabited V]

/-- The records after a `DoChanX` of keys without a record followed by a second
`DoChanX` of the same keys. -/
theorem DoChanX_twice (w : World K V E P) (g : Group K) (keys : List K)
    (habs : ∀ k ∈ keys, g.get k = none)
    (hwf : ∀ k p, g.get k = some p → p ≤ w.allocated)
    (r1 r2 : RegisteredChan K V E P)
    (hr1 : r1 = DoChanX w g keys)
    (hr2 : r2 = DoChanX r1.w { m := some r1.m } keys) :
    r2.toCall = [] ∧ r2.m = r1.m ∧ r2.w.invoked = w.invoked
    ∧ r1.toCall = firstOccurrences keys
    ∧ (∀ k1 ∈ keys, ∀ k2 ∈ keys, mapIndex r1.calls k1 = mapIndex r1.calls k2 → k1 = k2)
    ∧ (∀ k1 ∈ keys, ∀ k2 ∈ keys, mapGet r1.results k1 = mapGet r1.results k2 → k1 = k2)
    ∧ (∀ k1 ∈ keys, ∀ k2 ∈ keys, mapGet r2.results k1 = mapGet r2.results k2 → k1 = k2)
    ∧ (∀ k ∈ keys, ∃ p ch1 ch2, p ≠ 0 ∧ ch1 ≠ 0 ∧ ch2 ≠ 0
        ∧ mapGet r1.m k = some p
        ∧ mapGet r1.calls k = some p ∧ mapGet r2.calls k = some p
        ∧ mapGet r1.results k = some ch1 ∧ mapGet r2.results k = some ch2
        ∧ ch1 ≤ r1.w.made ∧ r1.w.made < ch2
        ∧ r2.w.chans ch1 = [] ∧ r2.w.chans ch2 = []
        ∧ (r1.w.heap p).dups = keys.count k - 1
        ∧ r2.w.heap p
          = { (call.zero : call V E P) with
              wg := 1, dups := keys.count k - 1 + keys.count k,
              chans := List.replicate (keys.count k) ch1
                ++ List.replicate (keys.count k) ch2 }) := by
  obtain ⟨f1, f2, f3, f4, f5, f6, f7, f8, f9, f10, f11⟩ := DoChanX_fresh w g keys habs hwf
  rw [← hr1] at f1 f2 f3 f4 f5 f6 f7 f8 f9 f10 f11
  have hget : ∀ k, ({ m := some r1.m } : Group K).get k = mapGet r1.m k := fun k => rfl
  have hpres : ∀ k ∈ keys, ∃ p, ({ m := some r1.m } : Group K).get k = some p
      ∧ p ≤ r1.w.allocated := by
    intro k hk
    obtain ⟨p, ch, h1, h2, h3, _⟩ := f6 k hk
    exact ⟨p, h3, h2⟩
  obtain ⟨j1, j2, j3, j4, j5, j6, j7, j8⟩ := DoChanX_join r1.w { m := some r1.m } keys hpres
  rw [← hr2] at j1 j2 j3 j4 j5 j6 j7 j8
  refine ⟨j1, j2, by rw [j3, f2], f1, f7, f8, j6, ?_⟩
  intro k hk
  obtain ⟨p, ch1, h1, h2, h3, h4, h5, h6, h7, h8⟩ := f6 k hk
  obtain ⟨ch2, c1, c2, c3⟩ := j5 k hk
  have hfilter : keys.filter (fun x => decide (({ m := some r1.m } : Group K).get x = some p))
      = keys.filter (fun x => decide (x = k)) := by
    apply List.filter_congr
    intro x hx
    obtain ⟨px, _, _, _, x3, x4, _⟩ := f6 x hx
    have e1 : mapIndex r1.calls x = px := by simp [mapIndex, x4]
    have e2 : mapIndex r1.calls k = p := by simp [mapIndex, h4]
    rw [hget, x3]
    by_cases hxk : x = k
    · subst hxk
      rw [h3] at x3
      simp [x3]
    · have : ¬ px = p := by
        intro e
        apply hxk
        apply f7 x hx k hk
        rw [e1, e2, e]
      simp [hxk, this]
  refine ⟨p, ch1, ch2, by omega, by omega, by omega, h3, h4, ?_, h5, c1, ?_, ?_, ?_, ?_, ?_, ?_⟩
  · rw [j4 k hk, hget, h3]
  · rw [f3]; exact h7
  · exact c2
  · rw [j7 ch1]
    have : ¬ (r1.w.made < ch1 ∧ ch1 ≤ r1.w.made + keys.length) := by
      rw [f3]; omega
    rw [if_neg this, f9 ch1, if_pos ⟨h6, h7⟩]
  · rw [j7 ch2, if_pos ⟨c2, c3⟩]
  · rw [h8]
  · rw [j8 p h2, hfilter, flatMap_filter_eq, filter_eq_length, h8]
    simp [mapIndex, c1]

/-- C1: `DoChanX(keys, fn1)` registers keys that have no record, then
`DoChanX(keys, fn2)` registers before the first executor has completed.  The
second call has nothing to call, its executor returns without invoking `fn2`
and changes nothing, and every record it joined has its `dups` increased by
the number of occurrences of the key.  The first executor then invokes `fn1`
once; when `fn1` returns `(values, err)` the executor completes if the
channels are read and otherwise waits on a send, and once it has completed
every channel either call returned for a key has received a Result and every
Result it received is the same one for the key: the value of `values` for the
key with its `Valid` flag, the error `err`, and `Shared = true`. -/
theorem DoChanX_second_call_joins (rx : Bool) (w : World K V E P) (g : Group K)
    (keys : List K) (fn1 fn2 : List K → FnOutcome K V E P)
    (values : Option (List (K × V))) (err : Option E)
    (habs : ∀ k ∈ keys, g.get k = none)
    (hwf : ∀ k p, g.get k = some p → p ≤ w.allocated)
    (hfn1 : fn1 (DoChanX w g keys).toCall = FnOutcome.returned values err) :
    let r1 := DoChanX w g keys
    let r2 := DoChanX r1.w { m := some r1.m } keys
    let x2 := doCallX rx r2.w { m := some r2.m } r2.calls r2.toCall fn2
    let x1 := doCallX rx x2.1 x2.2.1 r1.calls r1.toCall fn1
    r2.toCall = []
    ∧ r2.m = r1.m
    ∧ x2 = (r2.w, { m := some r2.m }, Exit.returned ())
    ∧ x2.1.invoked = w.invoked
    ∧ (∀ k ∈ keys, ∃ p, mapGet r1.calls k = some p ∧ mapGet r2.calls k = some p
        ∧ 0 < keys.count k ∧ (r2.w.heap p).dups = (r1.w.heap p).dups + keys.count k)
    ∧ (keys ≠ [] → x1.1.invoked = w.invoked ++ [r1.toCall])
    ∧ (x1.2.2 = Exit.returned () ∨ x1.2.2 = Exit.blocked)
    ∧ (rx = true → x1.2.2 = Exit.returned ())
    ∧ (x1.2.2 = Exit.returned () → ∀ k ∈ keys, ∃ R : Result V E P,
        R.Shared = true ∧ R.Err = Error.ofReturn err
        ∧ (∀ v, mapGet (values.getD []) k = some v → R.Value = { Value := v, Valid := true })
        ∧ (mapGet (values.getD []) k = none → R.Value = { Value := default, Valid := false })
        ∧ ∀ ch, (mapGet r1.results k = some ch ∨ mapGet r2.results k = some ch)
            → x1.1.chans ch ≠ [] ∧ ∀ r ∈ x1.1.chans ch, r = R) := by
  intro r1 r2 x2 x1
  obtain ⟨t1, t2, t3, t4, t5, t7, t8, t6⟩ := DoChanX_twice w g keys habs hwf r1 r2 rfl rfl
  have hx2 : x2 = (r2.w, { m := some r2.m }, Exit.returned ()) := by
    show doCallX rx r2.w { m := some r2.m } r2.calls r2.toCall fn2 = _
    rw [t1, doCallX_nil]
  have hx1 : x1 = doCallX rx r2.w { m := some r2.m } r1.calls (firstOccurrences keys) fn1 := by
    show doCallX rx x2.1 x2.2.1 r1.calls r1.toCall fn1 = _
    rw [hx2, t4]
  have hfn : fn1 (firstOccurrences keys) = FnOutcome.returned values err := by
    rw [← t4]; exact hfn1
  have hcount : ∀ k ∈ keys, 0 < keys.count k := fun k hk => List.count_pos_iff.mpr hk
  refine ⟨t1, t2, hx2, by rw [hx2]; exact t3, ?_, ?_⟩
  · intro k hk
    obtain ⟨p, ch1, ch2, _, _, _, _, a1, a2, _, _, _, _, _, _, a3, a4⟩ := t6 k hk
    refine ⟨p, a1, a2, hcount k hk, ?_⟩
    rw [a4, a3]
  by_cases hkeys : keys = []
  · subst hkeys
    have : x1 = (r2.w, { m := some r2.m }, Exit.returned ()) := by
      rw [hx1]; simp [firstOccurrences, doCallX_nil]
    rw [this]
    refine ⟨fun h => absurd rfl h, Or.inl rfl, fun _ => rfl, ?_⟩
    intro _ k hk
    cases hk
  · have hne : firstOccurrences keys ≠ [] := by
      obtain ⟨a, ha⟩ := List.exists_mem_of_ne_nil keys hkeys
      intro h
      have := (mem_firstOccurrences keys a).mpr ha
      rw [h] at this
      cases this
    have hidx : ∀ k ∈ keys, ∃ p ch1 ch2, p ≠ 0 ∧ ch1 ≠ 0 ∧ ch2 ≠ 0
        ∧ mapIndex r1.calls k = p
        ∧ mapGet r1.results k = some ch1 ∧ mapGet r2.results k = some ch2
        ∧ ch1 ≤ r1.w.made ∧ r1.w.made < ch2
        ∧ r2.w.chans ch1 = [] ∧ r2.w.chans ch2 = []
        ∧ r2.w.heap p
          = { (call.zero : call V E P) with
              wg := 1, dups := keys.count k - 1 + keys.count k,
              chans := List.replicate (keys.count k) ch1
                ++ List.replicate (keys.count k) ch2 } := by
      intro k hk
      obtain ⟨p, ch1, ch2, b1, b2, b3, _, a1, _, b4, b5, b6, b7, b8, b9, _, a4⟩ := t6 k hk
      exact ⟨p, ch1, ch2, b1, b2, b3, by simp [mapIndex, a1], b4, b5, b6, b7, b8, b9, a4⟩
    have hrec : ∀ k ∈ firstOccurrences keys,
        mapIndex r1.calls k ≠ 0 ∧ (r2.w.heap (mapIndex r1.calls k)).wg ≠ 0 := by
      intro k hk
      obtain ⟨p, ch1, ch2, b1, _, _, b4, _, _, _, _, _, _, b5⟩ :=
        hidx k ((mem_firstOccurrences keys k).mp hk)
      rw [b4, b5]
      exact ⟨b1, by simp⟩
    have hinj : ∀ k1 ∈ firstOccurrences keys, ∀ k2 ∈ firstOccurrences keys,
        mapIndex r1.calls k1 = mapIndex r1.calls k2 → k1 = k2 :=
      fun k1 h1 k2 h2 => t5 k1 ((mem_firstOccurrences keys k1).mp h1) k2
        ((mem_firstOccurrences keys k2).mp h2)
    obtain ⟨d1, d2, d3, d4, d5, d6⟩ := doCallX_returned rx r2.w { m := some r2.m } r1.calls
      (firstOccurrences keys) fn1 values err hne hfn (nodup_firstOccurrences keys) hinj hrec
    rw [← hx1] at d1 d2 d3 d4 d5 d6
    refine ⟨fun _ => by rw [d5, t3, t4], d1, ?_, ?_⟩
    · intro hrx
      apply d2
      intro k hk
      obtain ⟨p, ch1, ch2, _, c1, c2, b4, _, _, _, _, _, _, b5⟩ :=
        hidx k ((mem_firstOccurrences keys k).mp hk)
      left
      refine ⟨hrx, ?_⟩
      rw [b4, b5]
      intro c hc
      rcases List.mem_append.mp hc with h | h
      · rw [List.eq_of_mem_replicate h]; exact c1
      · rw [List.eq_of_mem_replicate h]; exact c2
    · intro hret k hk
      obtain ⟨_, _, _, e4⟩ := d6 hret
      obtain ⟨p, ch1, ch2, _, _, _, b4, r1k, r2k, l1, l2, n1, n2, b5⟩ := hidx k hk
      refine ⟨((r2.w.heap p).fill (values.getD []) (Error.ofReturn err) k).result,
        ?_, ?_, ?_, ?_, ?_⟩
      · have hpos : (r2.w.heap p).dups > 0 := by
          rw [b5]
          have := hcount k hk
          show keys.count k - 1 + keys.count k > 0
          omega
        show decide (((r2.w.heap p).fill (values.getD []) (Error.ofReturn err) k).dups > 0)
          = true
        rw [(call_fill_fields _ _ _ _).2.1]
        exact decide_eq_true hpos
      · unfold call.fill call.result
        cases mapGet (values.getD []) k <;> simp
      · intro v hv
        rw [b5]
        simp [call.fill, call.result, hv, call.zero]
      · intro hv
        rw [b5]
        simp [call.fill, call.result, hv, call.zero]
      · intro ch hch
        have hch' : ch = ch1 ∨ ch = ch2 := by
          rcases hch with h | h
          · rw [r1k] at h; left; exact (Option.some.inj h).symm
          · rw [r2k] at h; right; exact (Option.some.inj h).symm
        have hnil : r2.w.chans ch = [] := by
          rcases hch' with h | h
          · rw [h]; exact n1
          · rw [h]; exact n2
        rw [e4 ch, hnil, List.nil_append]
        constructor
        · intro hnone
          have hmem : ((r2.w.heap p).fill (values.getD []) (Error.ofReturn err) k).result
              ∈ (firstOccurrences keys).flatMap (fun k' =>
                List.replicate ((r2.w.heap (mapIndex r1.calls k')).chans.count ch)
                  ((r2.w.heap (mapIndex r1.calls k')).fill (values.getD [])
                    (Error.ofReturn err) k').result) := by
            rw [List.mem_flatMap]
            refine ⟨k, (mem_firstOccurrences keys k).mpr hk, ?_⟩
            rw [b4, List.mem_replicate]
            refine ⟨?_, rfl⟩
            rw [b5]
            have hc := hcount k hk
            intro hzero
            have hin : ch ∈ List.replicate (keys.count k) ch1
                ++ List.replicate (keys.count k) ch2 := by
              rcases hch' with h | h
              · rw [h]
                exact List.mem_append_left _ (List.mem_replicate.mpr ⟨by omega, rfl⟩)
              · rw [h]
                exact List.mem_append_right _ (List.mem_replicate.mpr ⟨by omega, rfl⟩)
            exact (List.count_pos_iff.mpr hin).ne' hzero
          rw [hnone] at hmem
          cases hmem
        · intro r hr
          rw [List.mem_flatMap] at hr
          obtain ⟨k', hk', hr'⟩ := hr
          rw [List.mem_replicate] at hr'
          obtain ⟨hcnt, hreq⟩ := hr'
          have hk'' := (mem_firstOccurrences keys k').mp hk'
          obtain ⟨p', ch1', ch2', _, _, _, b4', r1k', r2k', l1', l2', _, _, b5'⟩ := hidx k' hk''
          have hin : ch ∈ (r2.w.heap (mapIndex r1.calls k')).chans :=
            List.count_pos_iff.mp (Nat.pos_of_ne_zero hcnt)
          rw [b4', b5'] at hin
          simp only [List.mem_append, List.mem_replicate] at hin
          have hkk : k' = k := by
            rcases hin with ⟨_, h⟩ | ⟨_, h⟩
            · rcases hch' with h' | h'
              · apply t7 k' hk'' k hk
                rw [r1k', r1k, ← h, h']
              · exfalso; omega
            · rcases hch' with h' | h'
              · exfalso; omega
              · apply t8 k' hk'' k hk
                rw [r2k', r2k, ← h, h']
          subst hkk
          rw [hreq, b4]

/-- The two calls of `ExampleGroup`, with the channels read. -/
theorem DoChanX_second_call_joins_witness :
    let r1 := DoChanX (World.init : World String Int String String) Group.zero ["foo", "bar"]
    let r2 := DoChanX r1.w { m := some r1.m } ["foo", "bar"]
    let x2 := doCallX true r2.w { m := some r2.m } r2.calls r2.toCall fnExample
    let x1 := doCallX true x2.1 x2.2.1 r1.calls r1.toCall fnExample
    r2.toCall = []
    ∧ r2.m = r1.m
    ∧ x2 = (r2.w, { m := some r2.m }, Exit.returned ())
    ∧ x2.1.invoked = (World.init : World String Int String String).invoked
    ∧ (∀ k ∈ ["foo", "bar"], ∃ p, mapGet r1.calls k = some p ∧ mapGet r2.calls k = some p
        ∧ 0 < ["foo", "bar"].count k
        ∧ (r2.w.heap p).dups = (r1.w.heap p).dups + ["foo", "bar"].count k)
    ∧ (["foo", "bar"] ≠ [] → x1.1.invoked
        = (World.init : World String Int String String).invoked ++ [r1.toCall])
    ∧ (x1.2.2 = Exit.returned () ∨ x1.2.2 = Exit.blocked)
    ∧ (true = true → x1.2.2 = Exit.returned ())
    ∧ (x1.2.2 = Exit.returned () → ∀ k ∈ ["foo", "bar"], ∃ R : Result Int String String,
        R.Shared = true ∧ R.Err = Error.ofReturn (none : Option String)
        ∧ (∀ v, mapGet ((some [("foo", (21 : Int)), ("bar", 42)]).getD []) k = some v
            → R.Value = { Value := v, Valid := true })
        ∧ (mapGet ((some [("foo", (21 : Int)), ("bar", 42)]).getD []) k = none
            → R.Value = { Value := default, Valid := false })
        ∧ ∀ ch, (mapGet r1.results k = some ch ∨ mapGet r2.results k = some ch)
            → x1.1.chans ch ≠ [] ∧ ∀ r ∈ x1.1.chans ch, r = R) :=
  DoChanX_second_call_joins true World.init Group.zero ["foo", "bar"] fnExample fnExample
    (some [("foo", 21), ("bar", 42)]) none (fun _ _ => rfl)
    (fun k p h => by simp [Group.get, Group.zero, mapGet] at h) rfl

end Joining

/-! ## Registration on a mapping with in-flight records -/

section RegFacts

variable {K V E P : Type} [DecidableEq K] [Inhabited V]

/-- The facts about the loop over `keys` of a registration that starts with
empty `calls` and `toCall`, on a mapping whose records have been allocated. -/
theorem reg_facts (attach : K → List Nat) (keys : List K) (wm : World K V E P)
    (m0 : List (K × Nat)) (F : Registered K V E P)
    (hF : F = keys.foldl (registerStep attach) { w := wm, m := m0, calls := [], toCall := [] })
    (hwf : ∀ x p, mapGet m0 x = some p → p ≤ wm.allocated) :
    F.w.invoked = wm.invoked ∧ F.w.chans = wm.chans ∧ F.w.made = wm.made
    ∧ wm.allocated ≤ F.w.allocated
    ∧ F.toCall.Nodup
    ∧ (∀ x, x ∈ F.toCall ↔ (x ∈ keys ∧ mapGet m0 x = none))
    ∧ (∀ x ∈ keys, mapGet m0 x = none → ∃ p, wm.allocated < p ∧ p ≤ F.w.allocated
        ∧ mapGet F.m x = some p ∧ mapGet F.calls x = some p
        ∧ F.w.heap p = { (call.zero : call V E P) with
            wg := 1, dups := keys.count x - 1,
            chans := (keys.filter (fun y => decide (y = x))).flatMap attach })
    ∧ (∀ x p, mapGet m0 x = some p → mapGet F.m x = some p
        ∧ (x ∈ keys → mapGet F.calls x = some p))
    ∧ (∀ x, x ∉ keys → mapGet F.m x = mapGet m0 x)
    ∧ (∀ q, q ≤ wm.allocated → F.w.heap q
        = { wm.heap q with
            dups := (wm.heap q).dups
              + (keys.filter (fun y => decide (mapGet m0 y = some q))).length,
            chans := (wm.heap q).chans
              ++ (keys.filter (fun y => decide (mapGet m0 y = some q))).flatMap attach })
    ∧ (∀ x p, mapGet F.m x = some p → p ≤ F.w.allocated)
    ∧ (∀ x ∈ keys, ∀ y ∈ keys, mapGet m0 x = none → mapGet m0 y = none
        → mapGet F.m x = mapGet F.m y → x = y) := by
  subst hF
  generalize hst : ({ w := wm, m := m0, calls := [], toCall := [] } : Registered K V E P) = st
  have hstm : st.m = m0 := by rw [← hst]
  have hstc : st.calls = [] := by rw [← hst]
  have hstt : st.toCall = [] := by rw [← hst]
  have hstw : st.w = wm := by rw [← hst]
  have hwf' : ∀ x p, mapGet st.m x = some p → p ≤ st.w.allocated := by
    rw [hstm, hstw]; exact hwf
  obtain ⟨w1, w2, w3⟩ := reg_world_frame attach keys st
  have htc : (keys.foldl (registerStep attach) st).toCall
      = firstOccurrences (keys.filter (fun x => (mapGet m0 x).isNone)) := by
    rw [reg_toCall, hstt, hstm]; simp
  refine ⟨by rw [w3, hstw], by rw [w1, hstw], by rw [w2, hstw], ?_, ?_, ?_, ?_, ?_, ?_, ?_,
    reg_wf attach keys st hwf', ?_⟩
  · have := reg_allocated_le attach keys st
    rw [hstw] at this; exact this
  · rw [htc]; exact nodup_firstOccurrences _
  · intro x
    rw [htc, mem_firstOccurrences, List.mem_filter]
    simp [Option.isNone_iff_eq_none]
  · intro x hx habs
    have habs' : mapGet st.m x = none := by rw [hstm]; exact habs
    obtain ⟨p, hp1, hp2⟩ := reg_heap_new attach keys st hwf' x hx habs'
    obtain ⟨p', hp1', hp2', hp3'⟩ := reg_m_fresh attach keys st x hx habs'
    rw [hp1] at hp1'
    cases hp1'
    refine ⟨p, by rw [hstw] at hp2'; exact hp2', hp3', hp1, ?_, ?_⟩
    · rw [(reg_calls_mem attach keys st x hx).1, hp1]
    · rw [hp2, filter_eq_length]
  · intro x p hx
    have hx' : mapGet st.m x = some p := by rw [hstm]; exact hx
    have := reg_m_of_some attach keys st x p hx'
    refine ⟨this, fun hk => ?_⟩
    rw [(reg_calls_mem attach keys st x hk).1, this]
  · intro x hx
    rw [reg_m_not_mem attach keys st x hx, hstm]
  · intro q hq
    have hq' : q ≤ st.w.allocated := by rw [hstw]; exact hq
    rw [reg_heap_old attach keys st q hq', hstw, hstm]
  · intro x hx y hy ax ay e
    exact reg_fresh_inj attach keys st x y hx hy (by rw [hstm]; exact ax)
      (by rw [hstm]; exact ay) e

/-- The facts about the registration of a batch call, by `DoX` or by
`DoChanX`, on a mapping whose records have been allocated.  `attach k` is the
list of the channels the call attaches for `k`. -/
theorem register_facts (chan : Bool) (w : World K V E P) (g : Group K) (keys : List K)
    (r : RegisteredChan K V E P) (hr : r = register chan w g keys)
    (hwf : ∀ x p, g.get x = some p → p ≤ w.allocated) :
    ∃ attach : K → List Nat,
      (∀ x ∈ keys, ∀ ch ∈ attach x, w.made < ch ∧ ch ≤ r.w.made ∧ r.w.chans ch = []
        ∧ mapGet r.results x = some ch)
      ∧ (∀ x ∈ keys, ∀ ch, mapGet r.results x = some ch → ch ∈ attach x)
      ∧ (∀ x ∈ keys, ∀ y ∈ keys, ∀ ch, ch ∈ attach x → ch ∈ attach y → x = y)
      ∧ (∀ ch, ch ≤ w.made → r.w.chans ch = w.chans ch)
      ∧ w.made ≤ r.w.made
      ∧ r.w.invoked = w.invoked
      ∧ w.allocated ≤ r.w.allocated
      ∧ r.toCall.Nodup
      ∧ (∀ x, x ∈ r.toCall ↔ (x ∈ keys ∧ g.get x = none))
      ∧ (∀ x ∈ keys, g.get x = none → ∃ p, w.allocated < p ∧ p ≤ r.w.allocated
          ∧ mapGet r.m x = some p ∧ mapGet r.calls x = some p
          ∧ r.w.heap p = { (call.zero : call V E P) with
              wg := 1, dups := keys.count x - 1,
              chans := (keys.filter (fun y => decide (y = x))).flatMap attach })
      ∧ (∀ x p, g.get x = some p → mapGet r.m x = some p
          ∧ (x ∈ keys → mapGet r.calls x = some p))
      ∧ (∀ x, x ∉ keys → mapGet r.m x = g.get x)
      ∧ (∀ q, q ≤ w.allocated → r.w.heap q
          = { w.heap q with
              dups := (w.heap q).dups
                + (keys.filter (fun y => decide (g.get y = some q))).length,
              chans := (w.heap q).chans
                ++ (keys.filter (fun y => decide (g.get y = some q))).flatMap attach })
      ∧ (∀ x p, mapGet r.m x = some p → p ≤ r.w.allocated)
      ∧ (∀ x ∈ keys, ∀ y ∈ keys, g.get x = none → g.get y = none
          → mapGet r.m x = mapGet r.m y → x = y) := by
  cases chan with
  | false =>
    refine ⟨fun _ => [], ?_⟩
    obtain ⟨a1, a2, a3, a4, a5, a6, a7, a8, a9, a10, a11, a12⟩ :=
      reg_facts (fun _ => []) keys w (g.m.getD []) (DoX.register w g keys)
        (DoX_register_eq w g keys) hwf
    have e1 : r.w = (DoX.register w g keys).w := by rw [hr]; rfl
    have e2 : r.m = (DoX.register w g keys).m := by rw [hr]; rfl
    have e3 : r.calls = (DoX.register w g keys).calls := by rw [hr]; rfl
    have e4 : r.toCall = (DoX.register w g keys).toCall := by rw [hr]; rfl
    have e5 : r.results = [] := by rw [hr]; rfl
    rw [e1, e2, e3, e4, e5]
    refine ⟨?_, ?_, ?_, ?_, ?_, a1, a4, a5, a6, a7, a8, a9, a10, a11, a12⟩
    · intro x _ ch hch; cases hch
    · intro x _ ch hch; cases hch
    · intro x _ y _ ch hch; cases hch
    · intro ch _; rw [a2]
    · rw [a3]
  | true =>
    obtain ⟨m1, m2, m3, m4⟩ := make_frame keys ((w, []) : World K V E P × List (K × Nat))
    have m5 := make_chans keys ((w, []) : World K V E P × List (K × Nat))
    have m6 := make_results_mem keys ((w, []) : World K V E P × List (K × Nat))
    have m7 := make_results_inj keys ((w, []) : World K V E P × List (K × Nat))
    have hd := DoChanX_eq w g keys
    generalize hmade : keys.foldl DoChanX.makeStep ((w, []) : World K V E P × List (K × Nat))
      = made at m1 m2 m3 m4 m5 m6 m7 hd
    simp only at m1 m2 m3 m4 m5 m6
    refine ⟨fun k => [mapIndex made.2 k], ?_⟩
    have hwf' : ∀ x p, mapGet (g.m.getD []) x = some p → p ≤ made.1.allocated := by
      rw [m2]; exact hwf
    obtain ⟨a1, a2, a3, a4, a5, a6, a7, a8, a9, a10, a11, a12⟩ :=
      reg_facts (fun k => [mapIndex made.2 k]) keys made.1 (g.m.getD []) _ rfl hwf'
    generalize hF : keys.foldl (registerStep (fun k => [mapIndex made.2 k]))
      ({ w := made.1, m := g.m.getD [], calls := [], toCall := [] } : Registered K V E P)
      = F at a1 a2 a3 a4 a5 a6 a7 a8 a9 a10 a11 a12 hd
    have hreg : r = DoChanX w g keys := by rw [hr]; rfl
    have e1 : r.w = F.w := by rw [hreg, hd]
    have e2 : r.m = F.m := by rw [hreg, hd]
    have e3 : r.calls = F.calls := by rw [hreg, hd]
    have e4 : r.toCall = F.toCall := by rw [hreg, hd]
    have e5 : r.results = made.2 := by rw [hreg, hd]
    rw [e1, e2, e3, e4, e5]
    rw [m2] at a4 a7 a10
    rw [m1] at a10
    refine ⟨?_, ?_, ?_, ?_, ?_, by rw [a1, m3], a4, a5, a6, a7, a8, a9, a10, a11, a12⟩
    · intro x hx ch hch
      obtain ⟨c, c1, c2, c3⟩ := m6 x hx
      have : ch = c := by
        simp only [List.mem_singleton, mapIndex, c1, Option.getD_some] at hch
        exact hch
      subst this
      refine ⟨c2, by rw [a3, m4]; exact c3, ?_, c1⟩
      rw [a2, m5 ch, if_pos ⟨c2, c3⟩]
    · intro x hx ch hch
      simp [mapIndex, hch]
    · intro x hx y hy ch hx' hy'
      obtain ⟨c, c1, _⟩ := m6 x hx
      obtain ⟨d, d1, _⟩ := m6 y hy
      simp only [List.mem_singleton, mapIndex, c1, d1, Option.getD_some] at hx' hy'
      apply m7 x y hx hy
      rw [c1, d1, ← hx', ← hy']
    · intro ch hch
      rw [a2, m5 ch]
      have : ¬ (w.made < ch ∧ ch ≤ w.made + keys.length) := by omega
      rw [if_neg this]
    · rw [a3, m4]; omega

end RegFacts

/-! ## Forget isolation -/

section Forget

variable {K V E P : Type} [DecidableEq K] [Inhabited V]

theorem flatMap_replicate_only {A B : Type} (l : List A) (cnt : A → Nat) (f : A → B) (k : A)
    (hk : k ∈ l) (hpos : cnt k ≠ 0) (honly : ∀ x ∈ l, cnt x ≠ 0 → x = k) :
    l.flatMap (fun x => List.replicate (cnt x) (f x)) ≠ []
    ∧ ∀ r ∈ l.flatMap (fun x => List.replicate (cnt x) (f x)), r = f k := by
  constructor
  · intro hnil
    have hmem : f k ∈ l.flatMap (fun x => List.replicate (cnt x) (f x)) := by
      rw [List.mem_flatMap]
      exact ⟨k, hk, List.mem_replicate.mpr ⟨hpos, rfl⟩⟩
    rw [hnil] at hmem
    cases hmem
  · intro r hr
    rw [List.mem_flatMap] at hr
    obtain ⟨x, hx, hr'⟩ := hr
    obtain ⟨hc, he⟩ := List.mem_replicate.mp hr'
    rw [he, honly x hx hc]

theorem mem_flatMap_filter {A B : Type} (l : List A) (q : A → Bool) (f : A → List B) (b : B)
    (h : b ∈ (l.filter q).flatMap f) : ∃ y ∈ l, q y = true ∧ b ∈ f y := by
  rw [List.mem_flatMap] at h
  obtain ⟨y, hy, hb⟩ := h
  rw [List.mem_filter] at hy
  exact ⟨y, hy.1, hy.2, hb⟩

theorem fill_result (r : call V E P) (values : List (K × V)) (err : Error E P) (k : K)
    (n : Nat) (hv : r.value = default) (ha : r.absent = false) :
    ({ r.fill values err k with wg := n } : call V E P).result.Err = err
    ∧ (∀ v, mapGet values k = some v
        → ({ r.fill values err k with wg := n } : call V E P).result.Value
          = { Value := v, Valid := true })
    ∧ (mapGet values k = none
        → ({ r.fill values err k with wg := n } : call V E P).result.Value
          = { Value := default, Valid := false })
    ∧ ({ r.fill values err k with wg := n } : call V E P).result.Shared = decide (r.dups > 0)
    ∧ ({ r.fill values err k with wg := n } : call V E P).result
        = (r.fill values err k).result := by
  refine ⟨?_, ?_, ?_, ?_, rfl⟩
  · unfold call.fill call.result
    cases mapGet values k <;> simp
  · intro v h
    simp [call.fill, call.result, h, ha]
  · intro h
    simp [call.fill, call.result, h, hv]
  · unfold call.fill call.result
    cases mapGet values k <;> simp

theorem ForgetX_get (w : World K V E P) (g : Group K) (k x : K) :
    (ForgetX w g [k]).1 = w
    ∧ (ForgetX w g [k]).2.get x = if x = k then none else g.get x := by
  refine ⟨rfl, ?_⟩
  have := foldl_delete_get [k] g x
  simpa [ForgetX] using this

/-- C7: a call (`DoX` when `c1` is false, `DoChanX` when it is true)
registers `keys1`, where `k` has no record, so a call for `k` is in flight;
`ForgetX([k])` runs; a second call registers `keys2`, which contains `k`; the
executor of the first call completes; a third call registers `keys3`, which
contains `k`; the executor of the second call completes.  `ForgetX` removes
the entry of `k`, so the second call gives `k` a record of its own, other than
the first one, and has `k` in the list it invokes its own `fn2` with.  When
the first executor has completed, the `WaitGroup` of its record is released,
the record holds the outcome of `fn1` and the channel of the first caller has
received that Result only; the entry of `k` still points to the record of the
second call, which is as it was.  The third call finds that record for `k`
and has nothing to call for `k`.  The work functions have then been invoked
with the lists of the first and of the second call and no other, and when the
second executor has completed its record holds the outcome of `fn2` with
`Shared = true`, and the channel of the third caller has received that Result
only.  Each executor completes when the channels are read. -/
theorem forget_isolation (rx c1 c2 c3 : Bool) (w : World K V E P) (g : Group K) (k : K)
    (keys1 keys2 keys3 : List K) (fn1 fn2 : List K → FnOutcome K V E P)
    (v1 v2 : Option (List (K × V))) (e1 e2 : Option E)
    (hwf : ∀ x p, g.get x = some p → p ≤ w.allocated)
    (habs : g.get k = none) (hk1 : k ∈ keys1) (hk2 : k ∈ keys2) (hk3 : k ∈ keys3) :
    let r1 := register c1 w g keys1
    let f := ForgetX r1.w { m := some r1.m } [k]
    let r2 := register c2 f.1 f.2 keys2
    let x1 := doCallX rx r2.w { m := some r2.m } r1.calls r1.toCall fn1
    let r3 := register c3 x1.1 x1.2.1 keys3
    let x2 := doCallX rx r3.w { m := some r3.m } r2.calls r2.toCall fn2
    fn1 r1.toCall = FnOutcome.returned v1 e1 →
    fn2 r2.toCall = FnOutcome.returned v2 e2 →
    ∃ p1 p2 : Nat,
      k ∈ r1.toCall ∧ mapGet r1.calls k = some p1 ∧ mapGet r1.m k = some p1
      ∧ f.2.get k = none
      ∧ k ∈ r2.toCall ∧ mapGet r2.calls k = some p2 ∧ mapGet r2.m k = some p2
      ∧ p2 ≠ p1 ∧ r1.w.allocated < p2
      ∧ (x1.2.2 = Exit.returned () ∨ x1.2.2 = Exit.blocked)
      ∧ (rx = true → x1.2.2 = Exit.returned ())
      ∧ (x1.2.2 = Exit.returned () →
          (x1.1.heap p1).wg = 0
          ∧ (x1.1.heap p1).result.Err = Error.ofReturn e1
          ∧ (∀ v, mapGet (v1.getD []) k = some v
              → (x1.1.heap p1).result.Value = { Value := v, Valid := true })
          ∧ (mapGet (v1.getD []) k = none
              → (x1.1.heap p1).result.Value = { Value := default, Valid := false })
          ∧ (∀ ch, mapGet r1.results k = some ch
              → x1.1.chans ch ≠ [] ∧ ∀ r ∈ x1.1.chans ch, r = (x1.1.heap p1).result)
          ∧ x1.2.1.get k = some p2
          ∧ x1.1.heap p2 = r2.w.heap p2
          ∧ k ∉ r3.toCall ∧ mapGet r3.calls k = some p2 ∧ mapGet r3.m k = some p2
          ∧ x2.1.invoked = w.invoked ++ [r1.toCall, r2.toCall]
          ∧ (x2.2.2 = Exit.returned () ∨ x2.2.2 = Exit.blocked)
          ∧ (rx = true → x2.2.2 = Exit.returned ())
          ∧ (x2.2.2 = Exit.returned () →
              (x2.1.heap p2).wg = 0
              ∧ (x2.1.heap p2).result.Shared = true
              ∧ (x2.1.heap p2).result.Err = Error.ofReturn e2
              ∧ (∀ v, mapGet (v2.getD []) k = some v
                  → (x2.1.heap p2).result.Value = { Value := v, Valid := true })
              ∧ (mapGet (v2.getD []) k = none
                  → (x2.1.heap p2).result.Value = { Value := default, Valid := false })
              ∧ (∀ ch, mapGet r3.results k = some ch
                  → x2.1.chans ch ≠ [] ∧ ∀ r ∈ x2.1.chans ch, r = (x2.1.heap p2).result))) := by
  intro r1 f r2 x1 r3 x2 hfn1 hfn2
  -- the first registration
  obtain ⟨at1, p11, p12, p13, p14, p15, q11, q12, q13, q14, q15, q16, q17, q18, q19, q110⟩ :=
    register_facts c1 w g keys1 r1 rfl hwf
  obtain ⟨p1, h11, h12, h13, h14, h15⟩ := q15 k hk1 habs
  have hkt1 : k ∈ r1.toCall := (q14 k).mpr ⟨hk1, habs⟩
  -- ForgetX
  have hf1 : f.1 = r1.w := rfl
  have hfget : ∀ x, f.2.get x = if x = k then none else mapGet r1.m x :=
    fun x => (ForgetX_get r1.w { m := some r1.m } k x).2
  have hfk : f.2.get k = none := by rw [hfget k]; simp
  have wff : ∀ x p, f.2.get x = some p → p ≤ f.1.allocated := by
    intro x p h
    rw [hfget x] at h
    by_cases hx : x = k
    · simp [hx] at h
    · simp only [hx, if_false] at h
      exact q19 x p h
  -- the second registration
  obtain ⟨at2, p21, p22, p23, p24, p25, q21, q22, q23, q24, q25, q26, q27, q28, q29, q210⟩ :=
    register_facts c2 f.1 f.2 keys2 r2 rfl wff
  obtain ⟨p2, h21, h22, h23, h24, h25⟩ := q25 k hk2 hfk
  have hkt2 : k ∈ r2.toCall := (q24 k).mpr ⟨hk2, hfk⟩
  have hlt : r1.w.allocated < p2 := h21
  have hne12 : p2 ≠ p1 := by omega
  -- the records of the first call when its executor runs
  have hrec1 : ∀ x ∈ r1.toCall, ∃ px, mapIndex r1.calls x = px ∧ mapGet r1.m x = some px
      ∧ w.allocated < px ∧ px ≤ r1.w.allocated
      ∧ (r2.w.heap px).wg = 1 ∧ (r2.w.heap px).value = default
      ∧ (r2.w.heap px).absent = false
      ∧ (r2.w.heap px).chans
        = (keys1.filter (fun y => decide (y = x))).flatMap at1
          ++ (keys2.filter (fun y => decide (f.2.get y = some px))).flatMap at2 := by
    intro x hx
    obtain ⟨hx1, hx2⟩ := (q14 x).mp hx
    obtain ⟨px, a1, a2, a3, a4, a5⟩ := q15 x hx1 hx2
    have hold := q28 px a2
    rw [show f.1.heap px = r1.w.heap px from rfl, a5] at hold
    refine ⟨px, by simp [mapIndex, a4], a3, a1, a2, ?_, ?_, ?_, ?_⟩
    · rw [hold]
    · rw [hold]; rfl
    · rw [hold]; rfl
    · rw [hold]
  have hne1 : r1.toCall ≠ [] := List.ne_nil_of_mem hkt1
  have hinj1 : ∀ x ∈ r1.toCall, ∀ y ∈ r1.toCall,
      mapIndex r1.calls x = mapIndex r1.calls y → x = y := by
    intro x hx y hy e
    obtain ⟨hx1, hx2⟩ := (q14 x).mp hx
    obtain ⟨hy1, hy2⟩ := (q14 y).mp hy
    obtain ⟨px, a1, a2, _⟩ := hrec1 x hx
    obtain ⟨py, b1, b2, _⟩ := hrec1 y hy
    apply q110 x hx1 y hy1 hx2 hy2
    rw [a2, b2, ← a1, ← b1, e]
  have hready1 : ∀ x ∈ r1.toCall,
      mapIndex r1.calls x ≠ 0 ∧ (r2.w.heap (mapIndex r1.calls x)).wg ≠ 0 := by
    intro x hx
    obtain ⟨px, a1, _, a3, _, a5, _⟩ := hrec1 x hx
    rw [a1, a5]
    exact ⟨by omega, by simp⟩
  have hx1 : x1 = doCallX rx r2.w { m := some r2.m } r1.calls r1.toCall fn1 := rfl
  obtain ⟨d1, d2, d3, d4, d5, d6⟩ := doCallX_returned rx r2.w { m := some r2.m } r1.calls
    r1.toCall fn1 v1 e1 hne1 hfn1 q13 hinj1 hready1
  rw [← hx1] at d1 d2 d3 d4 d5 d6
  have hch1 : ∀ x ∈ r1.toCall, ∀ ch ∈ (r2.w.heap (mapIndex r1.calls x)).chans, ch ≠ 0 := by
    intro x hx ch hch
    obtain ⟨px, a1, _, _, _, _, _, _, a8⟩ := hrec1 x hx
    rw [a1, a8] at hch
    rcases List.mem_append.mp hch with h | h
    · obtain ⟨y, hy, _, hc⟩ := mem_flatMap_filter _ _ _ _ h
      have := (p11 y hy ch hc).1
      omega
    · obtain ⟨y, hy, _, hc⟩ := mem_flatMap_filter _ _ _ _ h
      have := (p21 y hy ch hc).1
      omega
  obtain ⟨pk, k1, k2, k3, k4, k5, k6, k7, k8⟩ := hrec1 k hkt1
  have hpk : pk = p1 := by
    rw [h13] at k2
    exact (Option.some.inj k2).symm
  subst hpk
  refine ⟨pk, p2, hkt1, h14, h13, hfk, hkt2, h24, h23, hne12, hlt, d1,
    fun hrx => d2 (fun x hx => Or.inl ⟨hrx, hch1 x hx⟩), ?_⟩
  intro hret
  obtain ⟨g1e, h1e, f1e, c1e⟩ := d6 hret
  have hp1 : x1.1.heap pk
      = { (r2.w.heap pk).fill (v1.getD []) (Error.ofReturn e1) k with
          wg := (r2.w.heap pk).wg - 1 } := by
    have := h1e k hkt1
    rw [k1] at this
    exact this
  obtain ⟨fr1, fr2, fr3, fr4, fr5⟩ := fill_result (r2.w.heap pk) (v1.getD [])
    (Error.ofReturn e1 : Error E P) k ((r2.w.heap pk).wg - 1) k6 k7
  rw [← hp1] at fr1 fr2 fr3 fr4 fr5
  have hk3get : x1.2.1.get k = some p2 := by
    rw [g1e k, k1]
    have hg : ({ m := some r2.m } : Group K).get k = some p2 := h23
    rw [hg]
    have : ¬ (k ∈ r1.toCall ∧ some p2 = some pk) := by
      rintro ⟨_, h⟩
      exact hne12 (Option.some.inj h)
    rw [if_neg this]
  have himg1 : ∀ q, r1.w.allocated < q → ∀ x ∈ r1.toCall, mapIndex r1.calls x ≠ q := by
    intro q hq x hx e
    obtain ⟨px, a1, _, _, a4, _⟩ := hrec1 x hx
    rw [a1] at e
    omega
  -- the third registration
  have wf3 : ∀ x p, x1.2.1.get x = some p → p ≤ x1.1.allocated := by
    intro x p h
    rw [g1e x] at h
    rw [d3]
    by_cases hc : x ∈ r1.toCall
        ∧ ({ m := some r2.m } : Group K).get x = some (mapIndex r1.calls x)
    · rw [if_pos hc] at h; cases h
    · rw [if_neg hc] at h
      exact q29 x p h
  obtain ⟨at3, p31, p32, p33, p34, p35, q31, q32, q33, q34, q35, q36, q37, q38, q39, q310⟩ :=
    register_facts c3 x1.1 x1.2.1 keys3 r3 rfl wf3
  obtain ⟨m3k, c3k⟩ := q36 k p2 hk3get
  have hnt3 : k ∉ r3.toCall := by
    intro h
    have := ((q34 k).mp h).2
    rw [hk3get] at this
    cases this
  -- the records of the second call when its executor runs
  have hrec2 : ∀ x ∈ r2.toCall, ∃ px, mapIndex r2.calls x = px ∧ mapGet r2.m x = some px
      ∧ r1.w.allocated < px ∧ px ≤ r2.w.allocated
      ∧ (r3.w.heap px).wg = 1 ∧ (r3.w.heap px).value = default
      ∧ (r3.w.heap px).absent = false
      ∧ (r3.w.heap px).dups = keys2.count x - 1
          + (keys3.filter (fun y => decide (x1.2.1.get y = some px))).length
      ∧ (r3.w.heap px).chans
        = (keys2.filter (fun y => decide (y = x))).flatMap at2
          ++ (keys3.filter (fun y => decide (x1.2.1.get y = some px))).flatMap at3 := by
    intro x hx
    obtain ⟨hx1, hx2⟩ := (q24 x).mp hx
    obtain ⟨px, a1, a2, a3, a4, a5⟩ := q25 x hx1 hx2
    have hsame : x1.1.heap px = r2.w.heap px := f1e px (himg1 px a1)
    have hold := q38 px (by rw [d3]; exact a2)
    rw [hsame, a5] at hold
    refine ⟨px, by simp [mapIndex, a4], a3, a1, a2, ?_, ?_, ?_, ?_, ?_⟩
    · rw [hold]
    · rw [hold]; rfl
    · rw [hold]; rfl
    · rw [hold]
    · rw [hold]
  have hne2 : r2.toCall ≠ [] := List.ne_nil_of_mem hkt2
  have hinj2 : ∀ x ∈ r2.toCall, ∀ y ∈ r2.toCall,
      mapIndex r2.calls x = mapIndex r2.calls y → x = y := by
    intro x hx y hy e
    obtain ⟨hx1, hx2⟩ := (q24 x).mp hx
    obtain ⟨hy1, hy2⟩ := (q24 y).mp hy
    obtain ⟨px, a1, a2, _⟩ := hrec2 x hx
    obtain ⟨py, b1, b2, _⟩ := hrec2 y hy
    apply q210 x hx1 y hy1 hx2 hy2
    rw [a2, b2, ← a1, ← b1, e]
  have hready2 : ∀ x ∈ r2.toCall,
      mapIndex r2.calls x ≠ 0 ∧ (r3.w.heap (mapIndex r2.calls x)).wg ≠ 0 := by
    intro x hx
    obtain ⟨px, a1, _, a3, _, a5, _⟩ := hrec2 x hx
    rw [a1, a5]
    exact ⟨by omega, by simp⟩
  have hx2 : x2 = doCallX rx r3.w { m := some r3.m } r2.calls r2.toCall fn2 := rfl
  obtain ⟨t1, t2, t3, t4, t5, t6⟩ := doCallX_returned rx r3.w { m := some r3.m } r2.calls
    r2.toCall fn2 v2 e2 hne2 hfn2 q23 hinj2 hready2
  rw [← hx2] at t1 t2 t3 t4 t5 t6
  have hch2 : ∀ x ∈ r2.toCall, ∀ ch ∈ (r3.w.heap (mapIndex r2.calls x)).chans, ch ≠ 0 := by
    intro x hx ch hch
    obtain ⟨px, a1, _, _, _, _, _, _, _, a9⟩ := hrec2 x hx
    rw [a1, a9] at hch
    rcases List.mem_append.mp hch with h | h
    · obtain ⟨y, hy, _, hc⟩ := mem_flatMap_filter _ _ _ _ h
      have := (p21 y hy ch hc).1
      omega
    · obtain ⟨y, hy, _, hc⟩ := mem_flatMap_filter _ _ _ _ h
      have := (p31 y hy ch hc).1
      omega
  have hinv : x2.1.invoked = w.invoked ++ [r1.toCall, r2.toCall] := by
    rw [t5, q31, d5, q21, show f.1.invoked = r1.w.invoked from rfl, q11]
    simp
  refine ⟨?_, fr1, fr2, fr3, ?_, hk3get, f1e p2 (himg1 p2 hlt), hnt3, c3k hk3, m3k, hinv, t1,
    fun hrx => t2 (fun x hx => Or.inl ⟨hrx, hch2 x hx⟩), ?_⟩
  · rw [hp1]
    show (r2.w.heap pk).wg - 1 = 0
    rw [k5]
  · intro ch hch
    have hat : ch ∈ at1 k := p12 k hk1 ch hch
    obtain ⟨c1, c2, c3, _⟩ := p11 k hk1 ch hat
    have hnil : r2.w.chans ch = [] := by
      rw [p24 ch (by rw [show f.1.made = r1.w.made from rfl]; exact c2)]
      exact c3
    rw [c1e ch, hnil, List.nil_append, fr5, ← k1]
    apply flatMap_replicate_only r1.toCall
      (fun x => (r2.w.heap (mapIndex r1.calls x)).chans.count ch)
      (fun x => ((r2.w.heap (mapIndex r1.calls x)).fill (v1.getD [])
        (Error.ofReturn e1) x).result) k hkt1
    · have hin : ch ∈ (r2.w.heap (mapIndex r1.calls k)).chans := by
        rw [k1, k8]
        apply List.mem_append_left
        rw [List.mem_flatMap]
        exact ⟨k, List.mem_filter.mpr ⟨hk1, by simp⟩, hat⟩
      exact (List.count_pos_iff.mpr hin).ne'
    · intro x hx hcnt
      have hin : ch ∈ (r2.w.heap (mapIndex r1.calls x)).chans :=
        List.count_pos_iff.mp (Nat.pos_of_ne_zero hcnt)
      obtain ⟨px, a1, _, _, _, _, _, _, a8⟩ := hrec1 x hx
      rw [a1, a8] at hin
      rcases List.mem_append.mp hin with h | h
      · obtain ⟨y, hy, hyx, hc⟩ := mem_flatMap_filter _ _ _ _ h
        have hyx' : y = x := by simpa using hyx
        rw [← hyx']
        exact p13 y hy k hk1 ch hc hat
      · exfalso
        obtain ⟨y, hy, _, hc⟩ := mem_flatMap_filter _ _ _ _ h
        have h1 := (p21 y hy ch hc).1
        have h2 : f.1.made = r1.w.made := rfl
        omega
  · intro hret2
    obtain ⟨g2e, h2e, f2e, c2e⟩ := t6 hret2
    obtain ⟨pk2, l1, l2, l3, l4, l5, l6, l7, l8, l9⟩ := hrec2 k hkt2
    have hpk2 : pk2 = p2 := by
      rw [h23] at l2
      exact (Option.some.inj l2).symm
    subst hpk2
    have hp2 : x2.1.heap pk2
        = { (r3.w.heap pk2).fill (v2.getD []) (Error.ofReturn e2) k with
            wg := (r3.w.heap pk2).wg - 1 } := by
      have := h2e k hkt2
      rw [l1] at this
      exact this
    obtain ⟨gr1, gr2, gr3, gr4, gr5⟩ := fill_result (r3.w.heap pk2) (v2.getD [])
      (Error.ofReturn e2 : Error E P) k ((r3.w.heap pk2).wg - 1) l6 l7
    rw [← hp2] at gr1 gr2 gr3 gr4 gr5
    have hkJ : k ∈ keys3.filter (fun y => decide (x1.2.1.get y = some pk2)) :=
      List.mem_filter.mpr ⟨hk3, by simp [hk3get]⟩
    refine ⟨?_, ?_, gr1, gr2, gr3, ?_⟩
    · rw [hp2]
      show (r3.w.heap pk2).wg - 1 = 0
      rw [l5]
    · rw [gr4, l8]
      have := List.length_pos_of_mem hkJ
      exact decide_eq_true (by omega)
    · intro ch hch
      have hat : ch ∈ at3 k := p32 k hk3 ch hch
      obtain ⟨c1, c2, c3, _⟩ := p31 k hk3 ch hat
      rw [c2e ch, c3, List.nil_append, gr5, ← l1]
      apply flatMap_replicate_only r2.toCall
        (fun x => (r3.w.heap (mapIndex r2.calls x)).chans.count ch)
        (fun x => ((r3.w.heap (mapIndex r2.calls x)).fill (v2.getD [])
          (Error.ofReturn e2) x).result) k hkt2
      · have hin : ch ∈ (r3.w.heap (mapIndex r2.calls k)).chans := by
          rw [l1, l9]
          apply List.mem_append_right
          rw [List.mem_flatMap]
          exact ⟨k, hkJ, hat⟩
        exact (List.count_pos_iff.mpr hin).ne'
      · intro x hx hcnt
        have hin : ch ∈ (r3.w.heap (mapIndex r2.calls x)).chans :=
          List.count_pos_iff.mp (Nat.pos_of_ne_zero hcnt)
        obtain ⟨px, a1, a2, _, _, _, _, _, _, a9⟩ := hrec2 x hx
        rw [a1, a9] at hin
        rcases List.mem_append.mp hin with h | h
        · exfalso
          obtain ⟨y, hy, _, hc⟩ := mem_flatMap_filter _ _ _ _ h
          have h1 := (p21 y hy ch hc).2.1
          omega
        · obtain ⟨y, hy, hyp, hc⟩ := mem_flatMap_filter _ _ _ _ h
          have hyk : y = k := p33 y hy k hk3 ch hc hat
          rw [hyk] at hyp
          have hpe : x1.2.1.get k = some px := by simpa using hyp
          rw [hk3get] at hpe
          have hpx : px = pk2 := (Option.some.inj hpe).symm
          obtain ⟨hx1, hx2⟩ := (q24 x).mp hx
          apply q210 x hx1 k hk2 hx2 hfk
          rw [a2, h23, hpx]

/-- The calls of `TestForget`: a `DoX`, `ForgetX`, and two `DoChanX`, on the
key `"key"`, with the channels read. -/
theorem forget_isolation_witness :
    let r1 := register false (World.init : World String Int String String) Group.zero ["key"]
    let f := ForgetX r1.w { m := some r1.m } ["key"]
    let r2 := register true f.1 f.2 ["key"]
    let x1 := doCallX true r2.w { m := some r2.m } r1.calls r1.toCall fnFirst
    let r3 := register true x1.1 x1.2.1 ["key"]
    let x2 := doCallX true r3.w { m := some r3.m } r2.calls r2.toCall fnSecond
    fnFirst r1.toCall = FnOutcome.returned none none →
    fnSecond r2.toCall = FnOutcome.returned (some [("key", 2)]) none →
    ∃ p1 p2 : Nat,
      "key" ∈ r1.toCall ∧ mapGet r1.calls "key" = some p1 ∧ mapGet r1.m "key" = some p1
      ∧ f.2.get "key" = none
      ∧ "key" ∈ r2.toCall ∧ mapGet r2.calls "key" = some p2 ∧ mapGet r2.m "key" = some p2
      ∧ p2 ≠ p1 ∧ r1.w.allocated < p2
      ∧ (x1.2.2 = Exit.returned () ∨ x1.2.2 = Exit.blocked)
      ∧ (true = true → x1.2.2 = Exit.returned ())
      ∧ (x1.2.2 = Exit.returned () →
          (x1.1.heap p1).wg = 0
          ∧ (x1.1.heap p1).result.Err = Error.ofReturn (none : Option String)
          ∧ (∀ v, mapGet ((none : Option (List (String × Int))).getD []) "key" = some v
              → (x1.1.heap p1).result.Value = { Value := v, Valid := true })
          ∧ (mapGet ((none : Option (List (String × Int))).getD []) "key" = none
              → (x1.1.heap p1).result.Value = { Value := default, Valid := false })
          ∧ (∀ ch, mapGet r1.results "key" = some ch
              → x1.1.chans ch ≠ [] ∧ ∀ r ∈ x1.1.chans ch, r = (x1.1.heap p1).result)
          ∧ x1.2.1.get "key" = some p2
          ∧ x1.1.heap p2 = r2.w.heap p2
          ∧ "key" ∉ r3.toCall ∧ mapGet r3.calls "key" = some p2 ∧ mapGet r3.m "key" = some p2
          ∧ x2.1.invoked = (World.init : World String Int String String).invoked ++ [r1.toCall, r2.toCall]
          ∧ (x2.2.2 = Exit.returned () ∨ x2.2.2 = Exit.blocked)
          ∧ (true = true → x2.2.2 = Exit.returned ())
          ∧ (x2.2.2 = Exit.returned () →
              (x2.1.heap p2).wg = 0
              ∧ (x2.1.heap p2).result.Shared = true
              ∧ (x2.1.heap p2).result.Err = Error.ofReturn (none : Option String)
              ∧ (∀ v, mapGet ((some [("key", (2 : Int))]).getD []) "key" = some v
                  → (x2.1.heap p2).result.Value = { Value := v, Valid := true })
              ∧ (mapGet ((some [("key", (2 : Int))]).getD []) "key" = none
                  → (x2.1.heap p2).result.Value = { Value := default, Valid := false })
              ∧ (∀ ch, mapGet r3.results "key" = some ch
                  → x2.1.chans ch ≠ [] ∧ ∀ r ∈ x2.1.chans ch, r = (x2.1.heap p2).result))) :=
  forget_isolation true false true true World.init Group.zero "key" ["key"] ["key"] ["key"]
    fnFirst fnSecond none (some [("key", 2)]) none none
    (fun k p h => by simp [Group.get, Group.zero, mapGet] at h) rfl
    (List.mem_singleton.mpr rfl) (List.mem_singleton.mpr rfl) (List.mem_singleton.mpr rfl)

end Forget


/-! ## The terminal outcome of a batch: panic and thread exit -/

section Terminal

variable {K V E P : Type} [DecidableEq K] [Inhabited V]

theorem setErr_some (c : List (K × Nat)) (e : Error E P) (keys : List K) (w : World K V E P)
    (h0 : ∀ k ∈ keys, mapIndex c k ≠ 0) : ∃ w', setErr c e w keys = some w' := by
  induction keys generalizing w with
  | nil => exact ⟨w, rfl⟩
  | cons a rest ih =>
    have ha : mapIndex c a ≠ 0 := h0 a (List.mem_cons_self _ _)
    simp only [setErr, ha, if_false]
    exact ih _ (fun k hk => h0 k (List.mem_cons_of_mem _ hk))

theorem setErr_frame (c : List (K × Nat)) (e : Error E P) (keys : List K)
    (w w' : World K V E P) (h : setErr c e w keys = some w') :
    w'.allocated = w.allocated ∧ w'.chans = w.chans ∧ w'.made = w.made
    ∧ w'.invoked = w.invoked
    ∧ (∀ k ∈ keys, mapIndex c k ≠ 0)
    ∧ (∀ k ∈ keys, w'.heap (mapIndex c k) = { w.heap (mapIndex c k) with err := e })
    ∧ (∀ q, (∀ k ∈ keys, mapIndex c k ≠ q) → w'.heap q = w.heap q) := by
  induction keys generalizing w with
  | nil =>
    simp only [setErr, Option.some.injEq] at h
    subst h
    simp
  | cons a rest ih =>
    by_cases ha : mapIndex c a = 0
    · simp [setErr, ha] at h
    · simp only [setErr, ha, if_false] at h
      obtain ⟨i1, i2, i3, i4, i5, i6, i7⟩ := ih _ h
      have hst : ∀ q, (w.store (mapIndex c a) { w.heap (mapIndex c a) with err := e }).heap q
          = if q = mapIndex c a then { w.heap (mapIndex c a) with err := e } else w.heap q :=
        fun q => rfl
      refine ⟨i1, i2, i3, i4, ?_, ?_, ?_⟩
      · intro k hk
        rcases List.mem_cons.mp hk with rfl | hk
        · exact ha
        · exact i5 k hk
      · intro k hk
        rcases List.mem_cons.mp hk with rfl | hk
        · by_cases hq : ∃ k' ∈ rest, mapIndex c k' = mapIndex c k
          · obtain ⟨k', hk', e'⟩ := hq
            rw [← e', i6 k' hk', hst]
            by_cases hka : mapIndex c k' = mapIndex c k
            · rw [if_pos hka, hka]
            · exact absurd e' hka
          · have hq' : ∀ k' ∈ rest, mapIndex c k' ≠ mapIndex c k := fun k' hk' e => hq ⟨k', hk', e⟩
            rw [i7 _ hq', hst, if_pos rfl]
        · rw [i6 k hk, hst]
          by_cases hka : mapIndex c k = mapIndex c a
          · rw [if_pos hka, hka]
          · rw [if_neg hka]
      · intro q hq
        rw [i7 q (fun k hk => hq k (List.mem_cons_of_mem _ hk)), hst,
          if_neg (fun e => hq a (List.mem_cons_self _ _) e.symm)]

/-- The error every record of a non-empty batch has when the loop of the
deferred function dispatches on it. -/
theorem populate_err (c : List (K × Nat)) (values : List (K × V)) (err : Error E P)
    (keys : List K) (w w' : World K V E P) (h : populate c values err w keys = some w') :
    ∀ k ∈ keys, (w'.heap (mapIndex c k)).err = err := by
  induction keys generalizing w with
  | nil => intro k hk; cases hk
  | cons a rest ih =>
    by_cases ha : mapIndex c a = 0
    · simp [populate, ha] at h
    · simp only [populate, ha, if_false] at h
      intro k hk
      by_cases hkr : k ∈ rest
      · exact ih _ h k hkr
      · have hka : k = a := by
          rcases List.mem_cons.mp hk with h1 | h1
          · exact h1
          · exact absurd h1 hkr
        subst hka
        by_cases hq : ∃ k' ∈ rest, mapIndex c k' = mapIndex c k
        · obtain ⟨k', hk', e'⟩ := hq
          rw [← e']
          exact ih _ h k' hk'
        · have hq' : ∀ k' ∈ rest, mapIndex c k' ≠ mapIndex c k := fun k' hk' e => hq ⟨k', hk', e⟩
          rw [(populate_frame c values err rest _ w' h).2.2.2.2.2 _ hq']
          simp only [World.store, if_true]
          exact (call_fill_fields _ _ _ _).2.2.2

theorem register_toCall_records (chan : Bool) (w : World K V E P) (g : Group K)
    (keys : List K) :
    ∀ k ∈ (register chan w g keys).toCall, mapIndex (register chan w g keys).calls k ≠ 0 := by
  have key : ∀ (attach : K → List Nat) (w1 : World K V E P),
      ∀ k ∈ (keys.foldl (registerStep attach)
          { w := w1, m := g.m.getD [], calls := [], toCall := [] }).toCall,
        mapIndex (keys.foldl (registerStep attach)
          { w := w1, m := g.m.getD [], calls := [], toCall := [] }).calls k ≠ 0 := by
    intro attach w1 k hk
    rw [reg_toCall, List.nil_append, mem_firstOccurrences, List.mem_filter] at hk
    obtain ⟨hk1, hk2⟩ := hk
    have habs : mapGet (g.m.getD []) k = none := by
      simpa [Option.isNone_iff_eq_none] using hk2
    obtain ⟨p, hp, hlt, _⟩ := reg_m_fresh attach keys
      { w := w1, m := g.m.getD [], calls := [], toCall := [] } k hk1 habs
    have hc := (reg_calls_mem attach keys
      { w := w1, m := g.m.getD [], calls := [], toCall := [] } k hk1).1
    unfold mapIndex
    rw [hc, hp]
    simp only [Option.getD_some]
    omega
  cases chan with
  | false =>
    intro k hk
    have e1 : (register false w g keys).toCall = (DoX.register w g keys).toCall := rfl
    have e2 : (register false w g keys).calls = (DoX.register w g keys).calls := rfl
    rw [e1] at hk
    rw [e2]
    rw [DoX_register_eq] at hk ⊢
    exact key _ w k hk
  | true =>
    intro k hk
    have e1 : register true w g keys = DoChanX w g keys := rfl
    rw [e1] at hk ⊢
    rw [DoChanX_eq] at hk ⊢
    exact key _ _ k hk

theorem doCallX_at_dispatch (rx : Bool) (w : World K V E P) (g : Group K) (c : List (K × Nat))
    (keys : List K) (fn : List K → FnOutcome K V E P) (w1 w2 : World K V E P)
    (normalReturn exiting : Bool) (hne : keys ≠ [])
    (hin : doCallX.inner w c keys fn = some (w1, normalReturn, exiting))
    (hm : doCallX.marked w1 c keys normalReturn (if exiting then false else !normalReturn)
      = some w2) :
    (doCallX rx w g c keys fn).1 = (doCallX.loop rx c w2 g keys).1
    ∧ (doCallX rx w g c keys fn).2.1 = (doCallX.loop rx c w2 g keys).2.1
    ∧ ((doCallX.loop rx c w2 g keys).2.2 = Exit.returned ()
        → (doCallX rx w g c keys fn).2.2 = if exiting then Exit.goexit else Exit.returned ())
    ∧ ((doCallX.loop rx c w2 g keys).2.2 ≠ Exit.returned ()
        → (doCallX rx w g c keys fn).2.2 = (doCallX.loop rx c w2 g keys).2.2) := by
  have hlen : ¬ keys.length = 0 := by
    intro h; exact hne (List.length_eq_zero.mp h)
  have hdef : doCallX.deferred rx w1 g c keys normalReturn
      (if exiting then false else !normalReturn) = doCallX.loop rx c w2 g keys := by
    unfold doCallX.deferred
    unfold doCallX.marked at hm
    by_cases hc : (!normalReturn && !(if exiting then false else !normalReturn)) = true
    · rw [if_pos hc] at hm ⊢
      rw [hm]
    · rw [if_neg hc] at hm ⊢
      cases hm
      rfl
  simp only [doCallX, hlen, if_false, hin, hdef]
  generalize doCallX.loop rx c w2 g keys = out
  obtain ⟨a, b, e⟩ := out
  cases e <;> simp


/-- C14: for every batch registered by `DoX` or `DoChanX` whose `toCall` is
not empty, in whatever state the executor gets to run, `doCallX` reaches the
point where its outer deferred function dispatches, the loop of that function
runs from the state `w2` reached there, and in `w2` every record of `toCall`
has the one `err` that the end of `fn` decides: the error `fn` returned (nil
or not) when it returned, the `*panicError` of the panic value when it
panicked, `errGoexit` when it exited its thread.  `errGoexit` is on a record
iff `normalReturn` and `recovered` are both false, which is iff `fn` exited
its thread, and all records of the batch have the same `err`. -/
theorem terminal_mode_classification (chan rx : Bool) (w w0 : World K V E P)
    (g g0 : Group K) (keys : List K) (fn : List K → FnOutcome K V E P)
    (hne : (register chan w g keys).toCall ≠ []) :
    ∃ w1 normalReturn exiting w2,
      doCallX.inner w0 (register chan w g keys).calls (register chan w g keys).toCall fn
        = some (w1, normalReturn, exiting)
      ∧ doCallX.atDispatch w0 (register chan w g keys).calls (register chan w g keys).toCall fn
        = some w2
      ∧ (doCallX rx w0 g0 (register chan w g keys).calls (register chan w g keys).toCall fn).1
        = (doCallX.loop rx (register chan w g keys).calls w2 g0
            (register chan w g keys).toCall).1
      ∧ (doCallX rx w0 g0 (register chan w g keys).calls (register chan w g keys).toCall fn).2.1
        = (doCallX.loop rx (register chan w g keys).calls w2 g0
            (register chan w g keys).toCall).2.1
      ∧ ((doCallX.loop rx (register chan w g keys).calls w2 g0
            (register chan w g keys).toCall).2.2 = Exit.returned ()
          → (doCallX rx w0 g0 (register chan w g keys).calls
              (register chan w g keys).toCall fn).2.2
            = if exiting then Exit.goexit else Exit.returned ())
      ∧ ((doCallX.loop rx (register chan w g keys).calls w2 g0
            (register chan w g keys).toCall).2.2 ≠ Exit.returned ()
          → (doCallX rx w0 g0 (register chan w g keys).calls
              (register chan w g keys).toCall fn).2.2
            = (doCallX.loop rx (register chan w g keys).calls w2 g0
                (register chan w g keys).toCall).2.2)
      ∧ (∀ values, fn (register chan w g keys).toCall = FnOutcome.returned values none
          → ∀ k ∈ (register chan w g keys).toCall,
            (w2.heap (mapIndex (register chan w g keys).calls k)).err = Error.nil)
      ∧ (∀ values e, fn (register chan w g keys).toCall = FnOutcome.returned values (some e)
          → ∀ k ∈ (register chan w g keys).toCall,
            (w2.heap (mapIndex (register chan w g keys).calls k)).err = Error.user e)
      ∧ (∀ v, fn (register chan w g keys).toCall = FnOutcome.panicked v
          → ∀ k ∈ (register chan w g keys).toCall,
            (w2.heap (mapIndex (register chan w g keys).calls k)).err = Error.panicError v)
      ∧ (fn (register chan w g keys).toCall = FnOutcome.goexit
          → ∀ k ∈ (register chan w g keys).toCall,
            (w2.heap (mapIndex (register chan w g keys).calls k)).err = Error.errGoexit)
      ∧ (∀ k ∈ (register chan w g keys).toCall,
          ((w2.heap (mapIndex (register chan w g keys).calls k)).err = Error.errGoexit
            ↔ (normalReturn = false ∧ (if exiting then false else !normalReturn) = false)))
      ∧ ((normalReturn = false ∧ (if exiting then false else !normalReturn) = false)
          ↔ fn (register chan w g keys).toCall = FnOutcome.goexit)
      ∧ (∀ k1 ∈ (register chan w g keys).toCall, ∀ k2 ∈ (register chan w g keys).toCall,
          (w2.heap (mapIndex (register chan w g keys).calls k1)).err
            = (w2.heap (mapIndex (register chan w g keys).calls k2)).err) := by
  have h0 := register_toCall_records chan w g keys
  generalize (register chan w g keys).toCall = tc at hne h0 ⊢
  generalize (register chan w g keys).calls = c at h0 ⊢
  cases hfn : fn tc with
  | returned values err =>
    obtain ⟨w2, hw2⟩ := populate_some c (values.getD []) (Error.ofReturn err) tc
      ({ w0 with invoked := w0.invoked ++ [tc] } : World K V E P) h0
    have herr := populate_err c _ _ tc _ w2 hw2
    have hin : doCallX.inner w0 c tc fn = some (w2, true, false) := by
      simp [doCallX.inner, hfn, hw2]
    have hm : doCallX.marked w2 c tc true (if false then false else !true) = some w2 := by
      simp [doCallX.marked]
    obtain ⟨d1, d2, d3, d4⟩ := doCallX_at_dispatch rx w0 g0 c tc fn w2 w2 true false hne hin hm
    refine ⟨w2, true, false, w2, hin, ?_, d1, d2, d3, d4, ?_, ?_, ?_, ?_, ?_, ?_, ?_⟩
    · simp only [doCallX.atDispatch, hin]; exact hm
    · intro values' h k hk
      cases h
      exact herr k hk
    · intro values' e h k hk
      cases h
      exact herr k hk
    · intro v h; cases h
    · intro h; cases h
    · intro k hk
      rw [herr k hk]
      cases err <;> simp [Error.ofReturn]
    · simp
    · intro k1 h1 k2 h2
      rw [herr k1 h1, herr k2 h2]
  | panicked v =>
    obtain ⟨w2, hw2⟩ := setErr_some c (Error.panicError v : Error E P) tc
      ({ w0 with invoked := w0.invoked ++ [tc] } : World K V E P) h0
    have herr : ∀ k ∈ tc, (w2.heap (mapIndex c k)).err = Error.panicError v := by
      intro k hk
      rw [(setErr_frame c _ tc _ w2 hw2).2.2.2.2.2.1 k hk]
    have hin : doCallX.inner w0 c tc fn = some (w2, false, false) := by
      simp [doCallX.inner, hfn, hw2]
    have hm : doCallX.marked w2 c tc false (if false then false else !false) = some w2 := by
      simp [doCallX.marked]
    obtain ⟨d1, d2, d3, d4⟩ := doCallX_at_dispatch rx w0 g0 c tc fn w2 w2 false false hne hin hm
    refine ⟨w2, false, false, w2, hin, ?_, d1, d2, d3, d4, ?_, ?_, ?_, ?_, ?_, ?_, ?_⟩
    · simp only [doCallX.atDispatch, hin]; exact hm
    · intro values' h; cases h
    · intro values' e h; cases h
    · intro v' h k hk
      cases h
      exact herr k hk
    · intro h; cases h
    · intro k hk
      rw [herr k hk]
      simp
    · simp
    · intro k1 h1 k2 h2
      rw [herr k1 h1, herr k2 h2]
  | goexit =>
    obtain ⟨w2, hw2⟩ := setErr_some c (Error.errGoexit : Error E P) tc
      ({ w0 with invoked := w0.invoked ++ [tc] } : World K V E P) h0
    have herr : ∀ k ∈ tc, (w2.heap (mapIndex c k)).err = Error.errGoexit := by
      intro k hk
      rw [(setErr_frame c _ tc _ w2 hw2).2.2.2.2.2.1 k hk]
    have hin : doCallX.inner w0 c tc fn
        = some (({ w0 with invoked := w0.invoked ++ [tc] } : World K V E P), false, true) := by
      simp [doCallX.inner, hfn]
    have hm : doCallX.marked ({ w0 with invoked := w0.invoked ++ [tc] } : World K V E P) c tc
        false (if true then false else !false) = some w2 := by
      simp [doCallX.marked, hw2]
    obtain ⟨d1, d2, d3, d4⟩ := doCallX_at_dispatch rx w0 g0 c tc fn _ w2 false true hne hin hm
    refine ⟨_, false, true, w2, hin, ?_, d1, d2, d3, d4, ?_, ?_, ?_, ?_, ?_, ?_, ?_⟩
    · simp only [doCallX.atDispatch, hin]; exact hm
    · intro values' h; cases h
    · intro values' e h; cases h
    · intro v' h; cases h
    · intro _ k hk
      exact herr k hk
    · intro k hk
      rw [herr k hk]
      simp
    · simp
    · intro k1 h1 k2 h2
      rw [herr k1 h1, herr k2 h2]


/-- The batch of `DoX(["a", "b"], fn)` with the work function of the second
call of `TestDoChanX`, which returns a non-nil error. -/
theorem terminal_mode_classification_witness :
    (register false (World.init : World String String String String) Group.zero ["a", "b"]).toCall ≠ []
    ∧ (∃ w1 normalReturn exiting w2,
      doCallX.inner (register false (World.init : World String String String String) Group.zero ["a", "b"]).w (register false (World.init : World String String String String) Group.zero ["a", "b"]).calls (register false (World.init : World String String String String) Group.zero ["a", "b"]).toCall fnAnError
        = some (w1, normalReturn, exiting)
      ∧ doCallX.atDispatch (register false (World.init : World String String String String) Group.zero ["a", "b"]).w (register false (World.init : World String String String String) Group.zero ["a", "b"]).calls (register false (World.init : World String String String String) Group.zero ["a", "b"]).toCall fnAnError
        = some w2
      ∧ (doCallX false (register false (World.init : World String String String String) Group.zero ["a", "b"]).w { m := some (register false (World.init : World String String String String) Group.zero ["a", "b"]).m } (register false (World.init : World String String String String) Group.zero ["a", "b"]).calls (register false (World.init : World String String String String) Group.zero ["a", "b"]).toCall fnAnError).1
        = (doCallX.loop false (register false (World.init : World String String String String) Group.zero ["a", "b"]).calls w2 { m := some (register false (World.init : World String String String String) Group.zero ["a", "b"]).m }
            (register false (World.init : World String String String String) Group.zero ["a", "b"]).toCall).1
      ∧ (doCallX false (register false (World.init : World String String String String) Group.zero ["a", "b"]).w { m := some (register false (World.init : World String String String String) Group.zero ["a", "b"]).m } (register false (World.init : World String String String String) Group.zero ["a", "b"]).calls (register false (World.init : World String String String String) Group.zero ["a", "b"]).toCall fnAnError).2.1
        = (doCallX.loop false (register false (World.init : World String String String String) Group.zero ["a", "b"]).calls w2 { m := some (register false (World.init : World String String String String) Group.zero ["a", "b"]).m }
            (register false (World.init : World String String String String) Group.zero ["a", "b"]).toCall).2.1
      ∧ ((doCallX.loop false (register false (World.init : World String String String String) Group.zero ["a", "b"]).calls w2 { m := some (register false (World.init : World String String String String) Group.zero ["a", "b"]).m }
            (register false (World.init : World String String String String) Group.zero ["a", "b"]).toCall).2.2 = Exit.returned ()
          → (doCallX false (register false (World.init : World String String String String) Group.zero ["a", "b"]).w { m := some (register false (World.init : World String String String String) Group.zero ["a", "b"]).m } (register false (World.init : World String String String String) Group.zero ["a", "b"]).calls
              (register false (World.init : World String String String String) Group.zero ["a", "b"]).toCall fnAnError).2.2
            = if exiting then Exit.goexit else Exit.returned ())
      ∧ ((doCallX.loop false (register false (World.init : World String String String String) Group.zero ["a", "b"]).calls w2 { m := some (register false (World.init : World String String String String) Group.zero ["a", "b"]).m }
            (register false (World.init : World String String String String) Group.zero ["a", "b"]).toCall).2.2 ≠ Exit.returned ()
          → (doCallX false (register false (World.init : World String String String String) Group.zero ["a", "b"]).w { m := some (register false (World.init : World String String String String) Group.zero ["a", "b"]).m } (register false (World.init : World String String String String) Group.zero ["a", "b"]).calls
              (register false (World.init : World String String String String) Group.zero ["a", "b"]).toCall fnAnError).2.2
            = (doCallX.loop false (register false (World.init : World String String String String) Group.zero ["a", "b"]).calls w2 { m := some (register false (World.init : World String String String String) Group.zero ["a", "b"]).m }
                (register false (World.init : World String String String String) Group.zero ["a", "b"]).toCall).2.2)
      ∧ (∀ values, fnAnError (register false (World.init : World String String String String) Group.zero ["a", "b"]).toCall = FnOutcome.returned values none
          → ∀ k ∈ (register false (World.init : World String String String String) Group.zero ["a", "b"]).toCall,
            (w2.heap (mapIndex (register false (World.init : World String String String String) Group.zero ["a", "b"]).calls k)).err = Error.nil)
      ∧ (∀ values e, fnAnError (register false (World.init : World String String String String) Group.zero ["a", "b"]).toCall = FnOutcome.returned values (some e)
          → ∀ k ∈ (register false (World.init : World String String String String) Group.zero ["a", "b"]).toCall,
            (w2.heap (mapIndex (register false (World.init : World String String String String) Group.zero ["a", "b"]).calls k)).err = Error.user e)
      ∧ (∀ v, fnAnError (register false (World.init : World String String String String) Group.zero ["a", "b"]).toCall = FnOutcome.panicked v
          → ∀ k ∈ (register false (World.init : World String String String String) Group.zero ["a", "b"]).toCall,
            (w2.heap (mapIndex (register false (World.init : World String String String String) Group.zero ["a", "b"]).calls k)).err = Error.panicError v)
      ∧ (fnAnError (register false (World.init : World String String String String) Group.zero ["a", "b"]).toCall = FnOutcome.goexit
          → ∀ k ∈ (register false (World.init : World String String String String) Group.zero ["a", "b"]).toCall,
            (w2.heap (mapIndex (register false (World.init : World String String String String) Group.zero ["a", "b"]).calls k)).err = Error.errGoexit)
      ∧ (∀ k ∈ (register false (World.init : World String String String String) Group.zero ["a", "b"]).toCall,
          ((w2.heap (mapIndex (register false (World.init : World String String String String) Group.zero ["a", "b"]).calls k)).err = Error.errGoexit
            ↔ (normalReturn = false ∧ (if exiting then false else !normalReturn) = false)))
      ∧ ((normalReturn = false ∧ (if exiting then false else !normalReturn) = false)
          ↔ fnAnError (register false (World.init : World String String String String) Group.zero ["a", "b"]).toCall = FnOutcome.goexit)
      ∧ (∀ k1 ∈ (register false (World.init : World String String String String) Group.zero ["a", "b"]).toCall, ∀ k2 ∈ (register false (World.init : World String String String String) Group.zero ["a", "b"]).toCall,
          (w2.heap (mapIndex (register false (World.init : World String String String String) Group.zero ["a", "b"]).calls k1)).err
            = (w2.heap (mapIndex (register false (World.init : World String String String String) Group.zero ["a", "b"]).calls k2)).err)) :=
  ⟨by decide,
   terminal_mode_classification false false World.init
     (register false (World.init : World String String String String) Group.zero ["a", "b"]).w
     Group.zero { m := some (register false (World.init : World String String String String) Group.zero ["a", "b"]).m }
     ["a", "b"] fnAnError (by decide)⟩

/-- The `err` of the records of `DoX(["a", "b"], fn)` where the deferred
function of `doCallX` dispatches, for the work functions of the tests: the
error returned, nil or not, the `*panicError` of the panic value, and
`errGoexit`. -/
theorem terminal_modes_of_the_tests :
    (DoX.register (World.init : World String String String String) Group.zero
        ["a", "b"]).toCall = ["a", "b"]
    ∧ (let r := DoX.register (World.init : World String String String String) Group.zero
        ["a", "b"]
      (doCallX.atDispatch r.w r.calls r.toCall fnAnError).map
          (fun w => ((w.heap 1).err, (w.heap 2).err))
        = some (Error.user "assert.AnError general error for testing",
                Error.user "assert.AnError general error for testing")
      ∧ (doCallX.atDispatch r.w r.calls r.toCall fnPartial).map
          (fun w => ((w.heap 1).err, (w.heap 2).err))
        = some (Error.nil, Error.nil)
      ∧ (doCallX.atDispatch r.w r.calls r.toCall fnPanic).map
          (fun w => ((w.heap 1).err, (w.heap 2).err))
        = some (Error.panicError "invalid memory address or nil pointer dereference",
                Error.panicError "invalid memory address or nil pointer dereference")
      ∧ (doCallX.atDispatch r.w r.calls r.toCall fnGoexit).map
          (fun w => ((w.heap 1).err, (w.heap 2).err))
        = some (Error.errGoexit, Error.errGoexit)) :=
  ⟨by decide, by decide⟩

/-- C13: in `DoX(["a", "b"], fn)` with a `fn` that panics, when a caller of
`DoChanX(["b"])` has joined the record of `"b"` before the executor completes,
the panic is raised on the thread of the `DoX` caller, where it can be
recovered, while the loop handles `"a"`; it is not raised on a fresh thread.
Nothing is sent on the channel attached to `"b"`, and the record of `"b"` is
neither released nor removed from the mapping. -/
theorem DoX_panic_recoverable_with_channel_on_later_key :
    (DoX.register (World.init : World String String String String) Group.zero
        ["a", "b"]).toCall = ["a", "b"]
    ∧ (let r1 := DoX.register (World.init : World String String String String) Group.zero
        ["a", "b"]
      let r2 := DoChanX r1.w { m := some r1.m } ["b"]
      let x := doCallX false r2.w { m := some r2.m } r1.calls r1.toCall fnPanic
      r2.toCall = [] ∧ r2.results = [("b", 1)]
      ∧ (r2.w.heap 1).chans = [] ∧ (r2.w.heap 2).chans = [1]
      ∧ x.2.2 = Exit.panicked "invalid memory address or nil pointer dereference"
      ∧ x.1.chans 1 = [] ∧ (x.1.heap 2).wg = 1 ∧ x.2.1.m = some [("b", 2)]) := by
  decide

/-- With the channel on the first key of the batch instead, a caller of
`DoChanX(["a"])` having joined `DoX(["a", "b"], fn)`, the panic is raised on a
fresh thread; and so it is in a batch started by `DoChanX(["a", "b"], fn)`.
Nothing is sent on a channel. -/
theorem DoX_panic_crashes_with_channel_on_first_key :
    (DoX.register (World.init : World String String String String) Group.zero
        ["a", "b"]).toCall = ["a", "b"]
    ∧ (let r1 := DoX.register (World.init : World String String String String) Group.zero
        ["a", "b"]
      let r2 := DoChanX r1.w { m := some r1.m } ["a"]
      let x := doCallX false r2.w { m := some r2.m } r1.calls r1.toCall fnPanic
      let r3 := DoChanX (World.init : World String String String String) Group.zero ["a", "b"]
      let y := doCallX false r3.w { m := some r3.m } r3.calls r3.toCall fnPanic
      x.2.2 = Exit.crashed "invalid memory address or nil pointer dereference"
      ∧ x.1.chans 1 = []
      ∧ y.2.2 = Exit.crashed "invalid memory address or nil pointer dereference"
      ∧ y.1.chans 1 = [] ∧ y.1.chans 2 = []) := by
  decide

/-- C15: `DoChanX(["a", "a"], fn)` returns one channel for `"a"`, the second
one it made, and attaches it to the record of `"a"` twice.  The executor then
sends two Results on it: when nobody reads, the second send waits for ever,
inside the region that holds `g.mu`, after one Result has been sent; when the
channel is read, it gets the same Result twice. -/
theorem DoChanX_repeated_key_attaches_channel_twice :
    (DoChanX (World.init : World String String String String) Group.zero
        ["a", "a"]).results = [("a", 2)]
    ∧ (let r := DoChanX (World.init : World String String String String) Group.zero ["a", "a"]
      let x := doCallX false r.w { m := some r.m } r.calls r.toCall fnPartial
      let y := doCallX true r.w { m := some r.m } r.calls r.toCall fnPartial
      r.toCall = ["a"] ∧ (r.w.heap 1).chans = [2, 2]
      ∧ x.2.2 = Exit.blocked
      ∧ x.1.chans 2 = [{ Value := { Value := "foo", Valid := true }, Err := Error.nil,
                         Shared := true }]
      ∧ y.2.2 = Exit.returned ()
      ∧ y.1.chans 2 = [{ Value := { Value := "foo", Valid := true }, Err := Error.nil,
                         Shared := true },
                       { Value := { Value := "foo", Valid := true }, Err := Error.nil,
                         Shared := true }]) := by
  decide

end Terminal

/-! ## The sharded group: dispatch by shard -/

section Sharded

variable {K V E P : Type} [DecidableEq K] [Inhabited V]

theorem computeHash_some (bits : Nat) (hb : bits = 32 ∨ bits = 64) (h : K → Nat)
    (k : K) (N : Nat) (hN : 1 ≤ N) (hfit : N < 2 ^ bits) :
    computeHash bits h k N = some (h k % 2 ^ 64 % N) := by
  have hlt : h k % 2 ^ 64 % N < N := Nat.mod_lt _ hN
  have h64 : N < 2 ^ 64 := by
    rcases hb with hb | hb
    · subst hb; omega
    · subst hb; exact hfit
  unfold computeHash
  have e1 : N % 2 ^ bits % 2 ^ 64 = N := by
    rw [Nat.mod_eq_of_lt hfit, Nat.mod_eq_of_lt h64]
  have e2 : h k % 2 ^ 64 % N % 2 ^ bits = h k % 2 ^ 64 % N :=
    Nat.mod_eq_of_lt (lt_trans hlt hfit)
  simp only [e1, e2]
  have hne : ¬ N = 0 := by omega
  simp [hne]

theorem shardOf_eq (bits : Nat) (hb : bits = 32 ∨ bits = 64) (sg : ShardedGroup K)
    (hN : 1 ≤ sg.count) (hfit : sg.count < 2 ^ bits) (k : K) :
    ShardedGroup.shardOf bits sg k = sg.hasher k % 2 ^ 64 % sg.count
    ∧ ShardedGroup.shardOf bits sg k < sg.count := by
  unfold ShardedGroup.shardOf
  rw [computeHash_some bits hb sg.hasher k sg.count hN hfit]
  exact ⟨rfl, Nat.mod_lt _ hN⟩

theorem keysByShard_some (bits : Nat) (hb : bits = 32 ∨ bits = 64) (sg : ShardedGroup K)
    (hN : 1 ≤ sg.count) (hfit : sg.count < 2 ^ bits) (keys : List K) :
    ShardedGroup.keysByShard bits sg keys
      = some (partitionBy keys (ShardedGroup.shardOf bits sg)) := by
  unfold ShardedGroup.keysByShard
  rw [if_pos]
  rw [List.all_eq_true]
  intro k _
  rw [computeHash_some bits hb sg.hasher k sg.count hN hfit]
  rfl

/-- The entries of `partitionBy`: the index of an entry is the projection of
each of its keys, and its keys are keys of the input. -/
theorem partitionBy_entry (l : List K) (p : K → Nat) (e : Nat × List K)
    (he : e ∈ partitionBy l p) :
    e.2 = l.filter (fun x => decide (p x = e.1)) ∧ e.2 ≠ [] := by
  have hg := mapGet_of_mem (partitionBy l p) e.1 e.2 (partitionBy_keys_nodup l p) he
  rw [partitionBy_get] at hg
  split_ifs at hg with hf
  · simp only [Option.some.injEq] at hg
    refine ⟨hg.symm, ?_⟩
    rw [← hg]
    intro hnil
    exact hf (by rw [hnil]; rfl)

theorem partitionBy_mem_of_key (l : List K) (p : K → Nat) (k : K) (hk : k ∈ l) :
    (p k, l.filter (fun x => decide (p x = p k))) ∈ partitionBy l p := by
  have hg := partitionBy_get l p (p k)
  have hne : ¬ (l.filter (fun x => decide (p x = p k))).isEmpty = true := by
    rw [List.isEmpty_iff]
    intro h
    have : k ∈ l.filter (fun x => decide (p x = p k)) := by
      rw [List.mem_filter]; exact ⟨hk, by simp⟩
    rw [h] at this
    cases this
  rw [if_neg hne] at hg
  generalize partitionBy l p = m at hg
  induction m with
  | nil => simp [mapGet] at hg
  | cons a rest ih =>
    obtain ⟨i, ks⟩ := a
    by_cases hi : i = p k
    · simp only [mapGet, hi, if_true, Option.some.injEq] at hg
      rw [hi, hg]
      exact List.mem_cons_self _ _
    · simp only [mapGet, hi, if_false] at hg
      exact List.mem_cons_of_mem _ (ih hg)

theorem make_results_nodup (keys : List K) (st : World K V E P × List (K × Nat))
    (h : (mapKeys st.2).Nodup) : (mapKeys (keys.foldl DoChanX.makeStep st).2).Nodup := by
  induction keys generalizing st with
  | nil => simpa using h
  | cons a rest ih =>
    rw [List.foldl_cons]
    apply ih
    exact mapKeys_mapSet_nodup _ _ _ h

/-- What a `DoChanX` leaves whatever the group has in flight. -/
theorem DoChanX_shape (w : World K V E P) (g : Group K) (keys : List K) :
    (∀ x, x ∉ keys → mapGet (DoChanX w g keys).m x = g.get x)
    ∧ (∀ x ∈ keys, ∃ p, mapGet (DoChanX w g keys).m x = some p)
    ∧ (DoChanX w g keys).toCall.Nodup
    ∧ (∀ x, x ∈ (DoChanX w g keys).toCall ↔ (x ∈ keys ∧ g.get x = none))
    ∧ (mapKeys (DoChanX w g keys).results).Nodup
    ∧ (∀ x, x ∉ keys → mapGet (DoChanX w g keys).results x = none)
    ∧ (∀ x ∈ keys, ∃ ch, mapGet (DoChanX w g keys).results x = some ch ∧ w.made < ch)
    ∧ (DoChanX w g keys).w.invoked = w.invoked := by
  rw [DoChanX_eq]
  simp only
  refine ⟨?_, ?_, ?_, ?_, ?_, ?_, ?_, ?_⟩
  · intro x hx
    rw [reg_m_not_mem _ keys _ x hx]
    rfl
  · intro x hx
    exact (reg_calls_mem _ keys _ x hx).2
  · rw [reg_toCall, List.nil_append]
    exact nodup_firstOccurrences _
  · intro x
    rw [reg_toCall, List.nil_append, mem_firstOccurrences, List.mem_filter]
    simp [Group.get, Option.isNone_iff_eq_none]
  · exact make_results_nodup keys _ (by simp [mapKeys])
  · intro x hx
    rw [make_results_not_mem keys _ x hx]
    rfl
  · intro x hx
    obtain ⟨ch, h1, h2, _⟩ := make_results_mem keys ((w, []) : World K V E P × List (K × Nat)) x hx
    exact ⟨ch, h1, h2⟩
  · rw [(reg_world_frame _ keys _).2.2]
    exact (make_frame keys _).2.2.1

theorem merge_get {B : Type} (m acc : List (K × B)) (hnd : (mapKeys m).Nodup) (k : K) :
    mapGet (m.foldl (fun results e => mapSet results e.1 e.2) acc) k
      = if (mapGet m k).isSome = true then mapGet m k else mapGet acc k := by
  induction m generalizing acc with
  | nil => simp [mapGet]
  | cons e rest ih =>
    obtain ⟨a, c⟩ := e
    have hc : (a :: mapKeys rest).Nodup := by simpa [mapKeys] using hnd
    rw [List.foldl_cons, ih _ (List.nodup_cons.mp hc).2]
    by_cases hka : a = k
    · subst hka
      have : mapGet rest a = none := (mapGet_eq_none_iff rest a).mpr (List.nodup_cons.mp hc).1
      simp [this, mapGet, mapGet_mapSet]
    · have hka' : ¬ k = a := fun e => hka e.symm
      simp only [mapGet, hka, if_false, mapGet_mapSet, hka']

theorem merge_nodup {B : Type} (m acc : List (K × B)) (hnd : (mapKeys acc).Nodup) :
    (mapKeys (m.foldl (fun results e => mapSet results e.1 e.2) acc)).Nodup := by
  induction m generalizing acc with
  | nil => simpa using hnd
  | cons e rest ih =>
    rw [List.foldl_cons]
    exact ih _ (mapKeys_mapSet_nodup _ _ _ hnd)

theorem sharded_loop_cons (st : ShardedChan K V E P) (i : Nat) (ks : List K)
    (rest : List (Nat × List K)) (g : Group K) (hg : st.shards[i]? = some g) :
    ∃ st1 : ShardedChan K V E P,
      ShardedGroup.DoChanX.loop st ((i, ks) :: rest) = ShardedGroup.DoChanX.loop st1 rest
      ∧ st1.w = (DoChanX st.w g ks).w
      ∧ st1.shards = st.shards.set i { m := some (DoChanX st.w g ks).m }
      ∧ st1.results = (DoChanX st.w g ks).results.foldl
          (fun results e => mapSet results e.1 e.2) st.results
      ∧ st1.spawned = st.spawned ++ [{ shard := i, results := (DoChanX st.w g ks).results,
                                       calls := (DoChanX st.w g ks).calls,
                                       toCall := (DoChanX st.w g ks).toCall }] := by
  refine ⟨ShardedChan.mk (DoChanX st.w g ks).w
    (st.shards.set i (Group.mk (some (DoChanX st.w g ks).m)))
    ((DoChanX st.w g ks).results.foldl (fun results e => mapSet results e.1 e.2) st.results)
    (st.spawned ++ [Spawned.mk i (DoChanX st.w g ks).results (DoChanX st.w g ks).calls
      (DoChanX st.w g ks).toCall]), ?_, rfl, rfl, rfl, rfl⟩
  simp only [ShardedGroup.DoChanX.loop, hg]

/-- The loop of `ShardedGroup.DoChanX` over entries of distinct indices and
disjoint key lists. -/
theorem sharded_loop_facts (L : List (Nat × List K)) (st : ShardedChan K V E P)
    (hnd : (mapKeys L).Nodup) (hidx : ∀ e ∈ L, e.1 < st.shards.length)
    (hdisj : ∀ e1 ∈ L, ∀ e2 ∈ L, ∀ k, k ∈ e1.2 → k ∈ e2.2 → e1.1 = e2.1)
    (hres : (mapKeys st.results).Nodup) :
    ∃ r, ShardedGroup.DoChanX.loop st L = some r
      ∧ r.shards.length = st.shards.length
      ∧ (∀ j, j ∉ mapKeys L → r.shards[j]? = st.shards[j]?)
      ∧ r.spawned.map Spawned.shard = st.spawned.map Spawned.shard ++ mapKeys L
      ∧ (∀ t ∈ st.spawned, t ∈ r.spawned)
      ∧ (∀ t ∈ r.spawned, t ∈ st.spawned ∨ ∃ e ∈ L, ∃ (g : Group K) (wi : World K V E P), st.shards[e.1]? = some g
          ∧ t = { shard := e.1, results := (DoChanX wi g e.2).results,
                  calls := (DoChanX wi g e.2).calls, toCall := (DoChanX wi g e.2).toCall })
      ∧ (∀ e ∈ L, ∃ (g : Group K) (wi : World K V E P), st.shards[e.1]? = some g
          ∧ r.shards[e.1]? = some { m := some (DoChanX wi g e.2).m }
          ∧ ({ shard := e.1, results := (DoChanX wi g e.2).results,
               calls := (DoChanX wi g e.2).calls,
               toCall := (DoChanX wi g e.2).toCall } : Spawned K) ∈ r.spawned
          ∧ ∀ k ∈ e.2, mapGet r.results k = mapGet (DoChanX wi g e.2).results k)
      ∧ (∀ k, (∀ e ∈ L, k ∉ e.2) → mapGet r.results k = mapGet st.results k)
      ∧ (mapKeys r.results).Nodup
      ∧ r.w.invoked = st.w.invoked := by
  induction L generalizing st with
  | nil =>
    refine ⟨st, rfl, rfl, fun _ _ => rfl, by simp [mapKeys], fun t ht => ht,
      fun t ht => Or.inl ht, ?_, fun _ _ => rfl, hres, rfl⟩
    intro e he; cases he
  | cons a rest ih =>
    obtain ⟨i, ks⟩ := a
    have hc : (i :: mapKeys rest).Nodup := by simpa [mapKeys] using hnd
    have hi : i < st.shards.length := hidx (i, ks) (List.mem_cons_self _ _)
    have hg : st.shards[i]? = some st.shards[i] := List.getElem?_eq_getElem hi
    generalize st.shards[i] = g at hg
    obtain ⟨st1, hloop, e4, e1, e2, e3⟩ := sharded_loop_cons st i ks rest g hg
    rw [hloop]
    obtain ⟨s1, s2, s3, s4, s5, s6, s7, s8⟩ := DoChanX_shape st.w g ks
    have hlen1 : st1.shards.length = st.shards.length := by rw [e1, List.length_set]
    have hne : ∀ e ∈ rest, e.1 ≠ i := by
      intro e he h
      apply (List.nodup_cons.mp hc).1
      rw [← h]
      simp only [mapKeys, List.mem_map]
      exact ⟨e, he, rfl⟩
    have hsh : ∀ j, j ≠ i → st1.shards[j]? = st.shards[j]? := by
      intro j hj
      rw [e1, List.getElem?_set_ne (fun h => hj h.symm)]
    have hnotin : ∀ k ∈ ks, ∀ e ∈ rest, k ∉ e.2 := by
      intro k hk e he hke
      have := hdisj (i, ks) (List.mem_cons_self _ _) e (List.mem_cons_of_mem _ he) k hk hke
      exact hne e he this.symm
    obtain ⟨r, h1, h2, h3, h4, h5, h6, h7, h8, h9, h10⟩ := ih st1 (List.nodup_cons.mp hc).2
      (fun e he => by rw [hlen1]; exact hidx e (List.mem_cons_of_mem _ he))
      (fun x hx y hy => hdisj x (List.mem_cons_of_mem _ hx) y (List.mem_cons_of_mem _ hy))
      (by rw [e2]; exact merge_nodup _ _ hres)
    have hmine : Spawned.mk i (DoChanX st.w g ks).results (DoChanX st.w g ks).calls
        (DoChanX st.w g ks).toCall ∈ st1.spawned := by
      rw [e3]; simp
    refine ⟨r, h1, by rw [h2, hlen1], ?_, ?_, ?_, ?_, ?_, ?_, h9, ?_⟩
    · intro j hj
      have hj' : j ≠ i ∧ j ∉ mapKeys rest := by
        simpa [mapKeys] using hj
      rw [h3 j hj'.2, hsh j hj'.1]
    · rw [h4, e3]
      simp [mapKeys]
    · intro t ht
      apply h5
      rw [e3]
      exact List.mem_append_left _ ht
    · intro t ht
      rcases h6 t ht with h | ⟨e, he, g', wi, hg', ht'⟩
      · rw [e3] at h
        rcases List.mem_append.mp h with h | h
        · exact Or.inl h
        · right
          refine ⟨(i, ks), List.mem_cons_self _ _, g, st.w, hg, ?_⟩
          simpa using h
      · right
        refine ⟨e, List.mem_cons_of_mem _ he, g', wi, ?_, ht'⟩
        rw [← hsh e.1 (hne e he)]
        exact hg'
    · intro e he
      rcases List.mem_cons.mp he with rfl | he
      · refine ⟨g, st.w, hg, ?_, h5 _ hmine, ?_⟩
        · rw [h3 i (List.nodup_cons.mp hc).1, e1, List.getElem?_set_self hi]
        · intro k hk
          rw [h8 k (hnotin k hk), e2, merge_get _ _ s5]
          obtain ⟨ch, hch, _⟩ := s7 k hk
          simp [hch]
      · obtain ⟨g', wi, a1, a2, a3, a4⟩ := h7 e he
        refine ⟨g', wi, ?_, a2, a3, a4⟩
        rw [← hsh e.1 (hne e he)]
        exact a1
    · intro k hk
      rw [h8 k (fun e he => hk e (List.mem_cons_of_mem _ he)), e2, merge_get _ _ s5]
      have : k ∉ ks := hk (i, ks) (List.mem_cons_self _ _)
      simp [s6 k this]
    · rw [h10, e4, s8]

theorem sharded_forget_facts (L : List (Nat × List K)) (w : World K V E P)
    (shards : List (Group K))
    (hnd : (mapKeys L).Nodup) (hidx : ∀ e ∈ L, e.1 < shards.length) :
    ∃ shards', ShardedGroup.ForgetX.loop w shards L = some (w, shards')
      ∧ shards'.length = shards.length
      ∧ (∀ j, j ∉ mapKeys L → shards'[j]? = shards[j]?)
      ∧ (∀ e ∈ L, ∃ g, shards[e.1]? = some g
          ∧ shards'[e.1]? = some (e.2.foldl Group.delete g)) := by
  induction L generalizing shards with
  | nil =>
    refine ⟨shards, rfl, rfl, fun _ _ => rfl, ?_⟩
    intro e he; cases he
  | cons a rest ih =>
    obtain ⟨i, ks⟩ := a
    have hc : (i :: mapKeys rest).Nodup := by simpa [mapKeys] using hnd
    have hi : i < shards.length := hidx (i, ks) (List.mem_cons_self _ _)
    have hg : shards[i]? = some shards[i] := List.getElem?_eq_getElem hi
    generalize shards[i] = g at hg
    have hne : ∀ e ∈ rest, e.1 ≠ i := by
      intro e he h
      apply (List.nodup_cons.mp hc).1
      rw [← h]
      simp only [mapKeys, List.mem_map]
      exact ⟨e, he, rfl⟩
    obtain ⟨s', h1, h2, h3, h4⟩ := ih (shards.set i (ks.foldl Group.delete g))
      (List.nodup_cons.mp hc).2
      (fun e he => by rw [List.length_set]; exact hidx e (List.mem_cons_of_mem _ he))
    refine ⟨s', ?_, by rw [h2, List.length_set], ?_, ?_⟩
    · simp only [ShardedGroup.ForgetX.loop, hg, ForgetX]
      exact h1
    · intro j hj
      have hj' : j ≠ i ∧ j ∉ mapKeys rest := by
        simpa [mapKeys] using hj
      rw [h3 j hj'.2, List.getElem?_set_ne (fun h => hj'.1 h.symm)]
    · intro e he
      rcases List.mem_cons.mp he with rfl | he
      · refine ⟨g, hg, ?_⟩
        rw [h3 i (List.nodup_cons.mp hc).1, List.getElem?_set_self hi]
      · obtain ⟨g', a1, a2⟩ := h4 e he
        refine ⟨g', ?_, a2⟩
        rw [← a1, List.getElem?_set_ne (fun h => hne e he h.symm)]

theorem loop_frame (rx : Bool) (c : List (K × Nat)) (keys : List K)
    (w : World K V E P) (g : Group K) :
    (doCallX.loop rx c w g keys).1.allocated = w.allocated
    ∧ (doCallX.loop rx c w g keys).1.made = w.made
    ∧ (doCallX.loop rx c w g keys).1.invoked = w.invoked := by
  induction keys generalizing w g with
  | nil => simp [doCallX.loop]
  | cons a rest ih =>
    simp only [doCallX.loop]
    by_cases h1 : mapIndex c a = 0
    · simp [h1]
    by_cases h2 : (w.heap (mapIndex c a)).wg = 0
    · simp [h1, h2]
    simp only [h1, h2, if_false]
    have hw1 : (w.store (mapIndex c a)
        { w.heap (mapIndex c a) with wg := (w.heap (mapIndex c a)).wg - 1 }).allocated
          = w.allocated
        ∧ (w.store (mapIndex c a)
        { w.heap (mapIndex c a) with wg := (w.heap (mapIndex c a)).wg - 1 }).made = w.made
        ∧ (w.store (mapIndex c a)
        { w.heap (mapIndex c a) with wg := (w.heap (mapIndex c a)).wg - 1 }).invoked
          = w.invoked := ⟨rfl, rfl, rfl⟩
    generalize (w.store (mapIndex c a)
        { w.heap (mapIndex c a) with wg := (w.heap (mapIndex c a)).wg - 1 }) = w1 at hw1 ⊢
    generalize (if mapIndex (g.m.getD []) a = mapIndex c a then g.delete a else g) = g1
    obtain ⟨a1, a2, a3⟩ := hw1
    cases herr : (w1.heap (mapIndex c a)).err with
    | panicError e =>
      simp only
      split_ifs <;> exact ⟨a1, a2, a3⟩
    | errGoexit =>
      simp only
      obtain ⟨i1, i2, i3⟩ := ih w1 g1
      exact ⟨i1.trans a1, i2.trans a2, i3.trans a3⟩
    | nil =>
      simp only
      have hfr := deliver_frame rx (w1.heap (mapIndex c a)).result
        (w1.heap (mapIndex c a)).chans w1
      cases hd : deliver rx (w1.heap (mapIndex c a)).result w1 (w1.heap (mapIndex c a)).chans with
      | mk w2 ok =>
        rw [hd] at hfr
        cases ok with
        | false => exact ⟨hfr.2.1.trans a1, hfr.2.2.1.trans a2, hfr.2.2.2.trans a3⟩
        | true =>
          obtain ⟨i1, i2, i3⟩ := ih w2 g1
          exact ⟨(i1.trans hfr.2.1).trans a1, (i2.trans hfr.2.2.1).trans a2,
            (i3.trans hfr.2.2.2).trans a3⟩
    | user x =>
      simp only
      have hfr := deliver_frame rx (w1.heap (mapIndex c a)).result
        (w1.heap (mapIndex c a)).chans w1
      cases hd : deliver rx (w1.heap (mapIndex c a)).result w1 (w1.heap (mapIndex c a)).chans with
      | mk w2 ok =>
        rw [hd] at hfr
        cases ok with
        | false => exact ⟨hfr.2.1.trans a1, hfr.2.2.1.trans a2, hfr.2.2.2.trans a3⟩
        | true =>
          obtain ⟨i1, i2, i3⟩ := ih w2 g1
          exact ⟨(i1.trans hfr.2.1).trans a1, (i2.trans hfr.2.2.1).trans a2,
            (i3.trans hfr.2.2.2).trans a3⟩

/-- The executor invokes `fn` at most once, and never with an empty list. -/
theorem doCallX_invoked (rx : Bool) (w : World K V E P) (g : Group K) (c : List (K × Nat))
    (keys : List K) (fn : List K → FnOutcome K V E P) :
    (doCallX rx w g c keys fn).1.invoked = w.invoked
    ∨ (keys ≠ [] ∧ (doCallX rx w g c keys fn).1.invoked = w.invoked ++ [keys]) := by
  by_cases hne : keys = []
  · left
    subst hne
    simp [doCallX]
  have hlen : ¬ keys.length = 0 := by
    intro h; exact hne (List.length_eq_zero.mp h)
  cases hin : doCallX.inner w c keys fn with
  | none =>
    left
    simp [doCallX, hlen, hin]
  | some x =>
    obtain ⟨w1, nr, ex⟩ := x
    right
    refine ⟨hne, ?_⟩
    have hw1 : w1.invoked = w.invoked ++ [keys] := by
      unfold doCallX.inner at hin
      cases hfn : fn keys with
      | returned values err =>
        simp only [hfn, Option.map_eq_some'] at hin
        obtain ⟨w', h1, h2⟩ := hin
        cases h2
        rw [(populate_frame c _ _ keys _ _ h1).2.2.2.1]
      | panicked v =>
        simp only [hfn, Option.map_eq_some'] at hin
        obtain ⟨w', h1, h2⟩ := hin
        cases h2
        rw [(setErr_frame c _ keys _ _ h1).2.2.2.1]
      | goexit =>
        simp only [hfn, Option.some.injEq, Prod.mk.injEq] at hin
        rw [← hin.1]
    cases hm : doCallX.marked w1 c keys nr (if ex then false else !nr) with
    | none =>
      have hdef : doCallX.deferred rx w1 g c keys nr (if ex then false else !nr)
          = (w1, g, Exit.fault) := by
        unfold doCallX.deferred
        unfold doCallX.marked at hm
        by_cases hc : (!nr && !(if ex then false else !nr)) = true
        · rw [if_pos hc] at hm ⊢
          rw [hm]
        · rw [if_neg hc] at hm
          cases hm
      simp only [doCallX, hlen, if_false, hin, hdef]
      exact hw1
    | some w2 =>
      rw [(doCallX_at_dispatch rx w g c keys fn w1 w2 nr ex hne hin hm).1,
        (loop_frame rx c keys w2 g).2.2]
      unfold doCallX.marked at hm
      by_cases hc : (!nr && !(if ex then false else !nr)) = true
      · rw [if_pos hc] at hm
        rw [(setErr_frame c _ keys _ w2 hm).2.2.2.1, hw1]
      · rw [if_neg hc] at hm
        cases hm
        exact hw1

theorem getD_of_getElem? {A : Type} (l : List A) (j : Nat) (a d : A) (h : l[j]? = some a) :
    l.getD j d = a := by
  rw [List.getD_eq_getElem?_getD, h]
  rfl

/-- The entries `partitionBy` makes for the sharded operations. -/
theorem keysByShard_entries (keys : List K) (p : K → Nat) :
    (mapKeys (partitionBy keys p)).Nodup
    ∧ (∀ e ∈ partitionBy keys p, e.2 ≠ [] ∧ ∀ k, k ∈ e.2 ↔ (k ∈ keys ∧ p k = e.1))
    ∧ (∀ k ∈ keys, ∃ e ∈ partitionBy keys p, e.1 = p k ∧ k ∈ e.2)
    ∧ (∀ j, j ∉ mapKeys (partitionBy keys p) → ∀ k ∈ keys, p k ≠ j) := by
  have hent : ∀ e ∈ partitionBy keys p, e.2 ≠ [] ∧ ∀ k, k ∈ e.2 ↔ (k ∈ keys ∧ p k = e.1) := by
    intro e he
    obtain ⟨h1, h2⟩ := partitionBy_entry keys p e he
    refine ⟨h2, ?_⟩
    intro k
    rw [h1, List.mem_filter]
    simp
  have hmem : ∀ k ∈ keys, ∃ e ∈ partitionBy keys p, e.1 = p k ∧ k ∈ e.2 := by
    intro k hk
    refine ⟨_, partitionBy_mem_of_key keys p k hk, rfl, ?_⟩
    rw [List.mem_filter]
    exact ⟨hk, by simp⟩
  refine ⟨partitionBy_keys_nodup keys p, hent, hmem, ?_⟩
  intro j hj k hk e
  obtain ⟨x, hx, h1, _⟩ := hmem k hk
  apply hj
  simp only [mapKeys, List.mem_map]
  exact ⟨x, hx, h1.trans e⟩

/-- C11: for a `uint` of 32 or 64 bits, a sharded group of `N ≥ 1` shards and
any hasher, state and key list, the shard of a key is `h(k) mod N`, and
`ShardedGroup.DoChanX(keys, fn)` returns.  Every key of `keys` then has an
entry in the mapping of its shard, and the mapping of a shard is unchanged at
every key that is not a key of `keys` owned by that shard.  It starts one
executor per entry of `partitionBy`, for distinct shards, each the executor of
the `DoChanX` of its shard applied to the sub-list `partitionBy` gives for
that shard: the keys it was called with are the keys of `keys` of that shard,
its `toCall` are those of them the shard did not have in flight, and it
invokes `fn` at most once, with `toCall` and never with an empty list.  The
map returned has the keys of `keys`, each once, each with the channel the
`DoChanX` of its shard returned for it.  `ShardedGroup.ForgetX(keys)` removes
`k` from the mapping of shard `h(k) mod N` and changes nothing else. -/
theorem sharded_dispatch_and_merge (bits : Nat) (hb : bits = 32 ∨ bits = 64)
    (w : World K V E P) (sg : ShardedGroup K) (keys : List K)
    (fn : List K → FnOutcome K V E P)
    (hN : 1 ≤ sg.count) (hfit : sg.count < 2 ^ bits) (hlen : sg.shards.length = sg.count) :
    (∀ k, ShardedGroup.shardOf bits sg k = sg.hasher k % 2 ^ 64 % sg.count)
    ∧ ∃ r, ShardedGroup.DoChanX bits w sg keys = some r
      ∧ r.shards.length = sg.count
      ∧ r.w.invoked = w.invoked
      ∧ (∀ k ∈ keys, ∃ p,
          (r.shards.getD (ShardedGroup.shardOf bits sg k) Group.zero).get k = some p)
      ∧ (∀ j k, (k ∉ keys ∨ ShardedGroup.shardOf bits sg k ≠ j)
          → (r.shards.getD j Group.zero).get k = (sg.shards.getD j Group.zero).get k)
      ∧ r.spawned.map Spawned.shard
          = mapKeys (partitionBy keys (ShardedGroup.shardOf bits sg))
      ∧ (r.spawned.map Spawned.shard).Nodup
      ∧ (∀ t ∈ r.spawned,
          (∃ (ks : List K) (wi : World K V E P),
              (t.shard, ks) ∈ partitionBy keys (ShardedGroup.shardOf bits sg)
              ∧ t = { shard := t.shard,
                      results := (DoChanX wi (sg.shards.getD t.shard Group.zero) ks).results,
                      calls := (DoChanX wi (sg.shards.getD t.shard Group.zero) ks).calls,
                      toCall := (DoChanX wi (sg.shards.getD t.shard Group.zero) ks).toCall })
          ∧ (∀ k, k ∈ mapKeys t.results
              ↔ (k ∈ keys ∧ ShardedGroup.shardOf bits sg k = t.shard))
          ∧ t.toCall.Nodup
          ∧ (∀ k, k ∈ t.toCall
              ↔ (k ∈ keys ∧ ShardedGroup.shardOf bits sg k = t.shard
                  ∧ (sg.shards.getD t.shard Group.zero).get k = none))
          ∧ (∀ (rx : Bool) (w1 : World K V E P) (g1 : Group K),
              (doCallX rx w1 g1 t.calls t.toCall fn).1.invoked = w1.invoked
              ∨ (t.toCall ≠ []
                  ∧ (doCallX rx w1 g1 t.calls t.toCall fn).1.invoked
                      = w1.invoked ++ [t.toCall])))
      ∧ (mapKeys r.results).Nodup
      ∧ (∀ k, k ∈ mapKeys r.results ↔ k ∈ keys)
      ∧ (∀ k ∈ keys, ∃ t ∈ r.spawned, t.shard = ShardedGroup.shardOf bits sg k
          ∧ ∃ ch, ch ≠ 0 ∧ mapGet r.results k = some ch ∧ mapGet t.results k = some ch)
      ∧ ∃ f, ShardedGroup.ForgetX bits w sg keys = some (w, f)
          ∧ f.length = sg.count
          ∧ ∀ j k, (f.getD j Group.zero).get k
              = if k ∈ keys ∧ ShardedGroup.shardOf bits sg k = j then none
                else (sg.shards.getD j Group.zero).get k := by
  refine ⟨fun k => (shardOf_eq bits hb sg hN hfit k).1, ?_⟩
  have hlt : ∀ k, ShardedGroup.shardOf bits sg k < sg.count :=
    fun k => (shardOf_eq bits hb sg hN hfit k).2
  have hkbs := keysByShard_some bits hb sg hN hfit keys
  generalize hp : ShardedGroup.shardOf bits sg = p at hlt hkbs ⊢
  obtain ⟨q1, q2, q3, q4⟩ := keysByShard_entries keys p
  generalize hL : partitionBy keys p = L at hkbs q1 q2 q3 q4 ⊢
  have hidx : ∀ e ∈ L, e.1 < sg.shards.length := by
    intro e he
    obtain ⟨h1, h2⟩ := q2 e he
    obtain ⟨k, hk⟩ := List.exists_mem_of_ne_nil _ h1
    rw [hlen, ← ((h2 k).mp hk).2]
    exact hlt k
  have hdisj : ∀ e1 ∈ L, ∀ e2 ∈ L, ∀ k, k ∈ e1.2 → k ∈ e2.2 → e1.1 = e2.1 := by
    intro e1 h1 e2 h2 k k1 k2
    rw [← (((q2 e1 h1).2 k).mp k1).2, ← (((q2 e2 h2).2 k).mp k2).2]
  obtain ⟨r, r1, r2, r3, r4, r5, r6, r7, r8, r9, r10⟩ :=
    sharded_loop_facts L
      ({ w := w, shards := sg.shards, results := [], spawned := [] } : ShardedChan K V E P)
      q1 hidx hdisj (by simp [mapKeys])
  simp only at r2 r3 r4 r5 r6 r7 r8 r10
  obtain ⟨f, f1, f2, f3, f4⟩ := sharded_forget_facts L w sg.shards q1 hidx
  have hsp : r.spawned.map Spawned.shard = mapKeys L := by
    rw [r4]; simp
  refine ⟨r, ?_, by rw [r2, hlen], r10, ?_, ?_, hsp, by rw [hsp]; exact q1, ?_, r9, ?_, ?_,
    f, ?_, by rw [f2, hlen], ?_⟩
  · simp only [ShardedGroup.DoChanX, hkbs]
    exact r1
  · intro k hk
    obtain ⟨e, he, h1, h2⟩ := q3 k hk
    obtain ⟨g, wi, a1, a2, a3, a4⟩ := r7 e he
    obtain ⟨x, hx⟩ := (DoChanX_shape wi g e.2).2.1 k h2
    refine ⟨x, ?_⟩
    rw [← h1, getD_of_getElem? _ _ _ _ a2]
    exact hx
  · intro j k hjk
    by_cases hj : j ∈ mapKeys L
    · simp only [mapKeys, List.mem_map] at hj
      obtain ⟨e, he, rfl⟩ := hj
      obtain ⟨g, wi, a1, a2, a3, a4⟩ := r7 e he
      rw [getD_of_getElem? _ _ _ _ a2, getD_of_getElem? _ _ _ _ a1]
      have hk : k ∉ e.2 := by
        intro h
        have := ((q2 e he).2 k).mp h
        rcases hjk with h1 | h1
        · exact h1 this.1
        · exact h1 this.2
      exact (DoChanX_shape wi g e.2).1 k hk
    · rw [List.getD_eq_getElem?_getD, List.getD_eq_getElem?_getD, r3 j hj]
  · intro t ht
    rcases r6 t ht with h | ⟨e, he, g, wi, a1, a2⟩
    · cases h
    · obtain ⟨s1, s2, s3, s4, s5, s6, s7, s8⟩ := DoChanX_shape wi g e.2
      have hts : t.shard = e.1 := by rw [a2]
      have hg : sg.shards.getD t.shard Group.zero = g := by
        rw [hts]; exact getD_of_getElem? _ _ _ _ a1
      refine ⟨⟨e.2, wi, ?_, ?_⟩, ?_, ?_, ?_, ?_⟩
      · rw [hts]; exact he
      · rw [hg, hts]; exact a2
      · intro k
        have e1 : t.results = (DoChanX wi g e.2).results := by rw [a2]
        rw [e1, hts, ← (q2 e he).2 k]
        constructor
        · intro hk
          by_contra hne
          exact ((mapGet_eq_none_iff _ k).mp (s6 k hne)) hk
        · intro hk
          by_contra hne
          obtain ⟨ch, hch, _⟩ := s7 k hk
          rw [(mapGet_eq_none_iff _ k).mpr hne] at hch
          cases hch
      · rw [a2]; exact s3
      · intro k
        have e1 : t.toCall = (DoChanX wi g e.2).toCall := by rw [a2]
        rw [e1, s4 k, hg, hts, (q2 e he).2 k, and_assoc]
      · intro rx w1 g1
        exact doCallX_invoked rx w1 g1 t.calls t.toCall fn
  · intro k
    constructor
    · intro hk
      by_contra hne
      have : mapGet r.results k = none := by
        rw [r8 k (fun e he h => hne (((q2 e he).2 k).mp h).1)]
        rfl
      exact ((mapGet_eq_none_iff _ k).mp this) hk
    · intro hk
      obtain ⟨e, he, h1, h2⟩ := q3 k hk
      obtain ⟨g, wi, a1, a2, a3, a4⟩ := r7 e he
      obtain ⟨ch, hch, _⟩ := (DoChanX_shape wi g e.2).2.2.2.2.2.2.1 k h2
      by_contra hne
      rw [← a4 k h2, (mapGet_eq_none_iff _ k).mpr hne] at hch
      cases hch
  · intro k hk
    obtain ⟨e, he, h1, h2⟩ := q3 k hk
    obtain ⟨g, wi, a1, a2, a3, a4⟩ := r7 e he
    obtain ⟨ch, hch, hpos⟩ := (DoChanX_shape wi g e.2).2.2.2.2.2.2.1 k h2
    refine ⟨_, a3, h1, ch, by omega, ?_, hch⟩
    rw [a4 k h2, hch]
  · simp only [ShardedGroup.ForgetX, hkbs]
    exact f1
  · intro j k
    by_cases hj : j ∈ mapKeys L
    · simp only [mapKeys, List.mem_map] at hj
      obtain ⟨e, he, rfl⟩ := hj
      obtain ⟨g, a1, a2⟩ := f4 e he
      rw [getD_of_getElem? _ _ _ _ a2, getD_of_getElem? _ _ _ _ a1, foldl_delete_get]
      have hiff := (q2 e he).2 k
      by_cases hk : k ∈ e.2
      · rw [if_pos hk, if_pos (hiff.mp hk)]
      · rw [if_neg hk, if_neg (fun h => hk (hiff.mpr h))]
    · rw [List.getD_eq_getElem?_getD, List.getD_eq_getElem?_getD, f3 j hj]
      have : ¬ (k ∈ keys ∧ p k = j) := fun h => q4 j hj k h.1 h.2
      rw [if_neg this]

/-- The sharded group of four shards and the hasher "length of the key", on
the keys `"a"`, `"bb"`, `"ccc"`, `"dddd"`. -/
theorem sharded_dispatch_and_merge_witness :
    (1 ≤ (NewShardedGroup 4 (fun s : String => s.length)).count ∧ (NewShardedGroup 4 (fun s : String => s.length)).count < 2 ^ 64
      ∧ (NewShardedGroup 4 (fun s : String => s.length)).shards.length = (NewShardedGroup 4 (fun s : String => s.length)).count)
    ∧ ((∀ k, ShardedGroup.shardOf 64 (NewShardedGroup 4 (fun s : String => s.length)) k = (NewShardedGroup 4 (fun s : String => s.length)).hasher k % 2 ^ 64 % (NewShardedGroup 4 (fun s : String => s.length)).count)
    ∧ ∃ r, ShardedGroup.DoChanX 64 (World.init : World String String String String) (NewShardedGroup 4 (fun s : String => s.length)) ["a", "bb", "ccc", "dddd"] = some r
      ∧ r.shards.length = (NewShardedGroup 4 (fun s : String => s.length)).count
      ∧ r.w.invoked = (World.init : World String String String String).invoked
      ∧ (∀ k ∈ ["a", "bb", "ccc", "dddd"], ∃ p,
          (r.shards.getD (ShardedGroup.shardOf 64 (NewShardedGroup 4 (fun s : String => s.length)) k) Group.zero).get k = some p)
      ∧ (∀ j k, (k ∉ ["a", "bb", "ccc", "dddd"] ∨ ShardedGroup.shardOf 64 (NewShardedGroup 4 (fun s : String => s.length)) k ≠ j)
          → (r.shards.getD j Group.zero).get k = ((NewShardedGroup 4 (fun s : String => s.length)).shards.getD j Group.zero).get k)
      ∧ r.spawned.map Spawned.shard
          = mapKeys (partitionBy ["a", "bb", "ccc", "dddd"] (ShardedGroup.shardOf 64 (NewShardedGroup 4 (fun s : String => s.length))))
      ∧ (r.spawned.map Spawned.shard).Nodup
      ∧ (∀ t ∈ r.spawned,
          (∃ (ks : List String) (wi : World String String String String),
              (t.shard, ks) ∈ partitionBy ["a", "bb", "ccc", "dddd"] (ShardedGroup.shardOf 64 (NewShardedGroup 4 (fun s : String => s.length)))
              ∧ t = { shard := t.shard,
                      results := (DoChanX wi ((NewShardedGroup 4 (fun s : String => s.length)).shards.getD t.shard Group.zero) ks).results,
                      calls := (DoChanX wi ((NewShardedGroup 4 (fun s : String => s.length)).shards.getD t.shard Group.zero) ks).calls,
                      toCall := (DoChanX wi ((NewShardedGroup 4 (fun s : String => s.length)).shards.getD t.shard Group.zero) ks).toCall })
          ∧ (∀ k, k ∈ mapKeys t.results
              ↔ (k ∈ ["a", "bb", "ccc", "dddd"] ∧ ShardedGroup.shardOf 64 (NewShardedGroup 4 (fun s : String => s.length)) k = t.shard))
          ∧ t.toCall.Nodup
          ∧ (∀ k, k ∈ t.toCall
              ↔ (k ∈ ["a", "bb", "ccc", "dddd"] ∧ ShardedGroup.shardOf 64 (NewShardedGroup 4 (fun s : String => s.length)) k = t.shard
                  ∧ ((NewShardedGroup 4 (fun s : String => s.length)).shards.getD t.shard Group.zero).get k = none))
          ∧ (∀ (rx : Bool) (w1 : World String String String String) (g1 : Group String),
              (doCallX rx w1 g1 t.calls t.toCall fnPartial).1.invoked = w1.invoked
              ∨ (t.toCall ≠ []
                  ∧ (doCallX rx w1 g1 t.calls t.toCall fnPartial).1.invoked
                      = w1.invoked ++ [t.toCall])))
      ∧ (mapKeys r.results).Nodup
      ∧ (∀ k, k ∈ mapKeys r.results ↔ k ∈ ["a", "bb", "ccc", "dddd"])
      ∧ (∀ k ∈ ["a", "bb", "ccc", "dddd"], ∃ t ∈ r.spawned, t.shard = ShardedGroup.shardOf 64 (NewShardedGroup 4 (fun s : String => s.length)) k
          ∧ ∃ ch, ch ≠ 0 ∧ mapGet r.results k = some ch ∧ mapGet t.results k = some ch)
      ∧ ∃ f, ShardedGroup.ForgetX 64 (World.init : World String String String String) (NewShardedGroup 4 (fun s : String => s.length)) ["a", "bb", "ccc", "dddd"] = some ((World.init : World String String String String), f)
          ∧ f.length = (NewShardedGroup 4 (fun s : String => s.length)).count
          ∧ ∀ j k, (f.getD j Group.zero).get k
              = if k ∈ ["a", "bb", "ccc", "dddd"] ∧ ShardedGroup.shardOf 64 (NewShardedGroup 4 (fun s : String => s.length)) k = j then none
                else ((NewShardedGroup 4 (fun s : String => s.length)).shards.getD j Group.zero).get k) :=
  ⟨⟨by decide, by decide, by decide⟩,
   sharded_dispatch_and_merge 64 (Or.inr rfl) World.init (NewShardedGroup 4 (fun s : String => s.length))
     ["a", "bb", "ccc", "dddd"] fnPartial (by decide) (by decide) (by decide)⟩

end Sharded

/-! ## The executor on the records of one `DoChanX` -/

section ExecChan

variable {K V E P : Type} [DecidableEq K] [Inhabited V]

theorem result_fill_congr (r1 r2 : call V E P) (values : List (K × V)) (err : Error E P)
    (k : K) (hv : r1.value = r2.value) (ha : r1.absent = r2.absent) (hd : r1.dups = r2.dups) :
    (r1.fill values err k).result = (r2.fill values err k).result := by
  unfold call.fill call.result
  cases mapGet values k <;> simp [hv, ha, hd]

theorem doCallX_returned_loop (rx : Bool) (w : World K V E P) (g : Group K)
    (c : List (K × Nat)) (keys : List K) (fn : List K → FnOutcome K V E P)
    (values : Option (List (K × V))) (err : Option E)
    (hne : keys ≠ [])
    (hfn : fn keys = FnOutcome.returned values err)
    (h0 : ∀ k ∈ keys, mapIndex c k ≠ 0) :
    ∃ w2, populate c (values.getD []) (Error.ofReturn err)
        ({ w with invoked := w.invoked ++ [keys] } : World K V E P) keys = some w2
      ∧ doCallX rx w g c keys fn = doCallX.loop rx c w2 g keys := by
  have hlen : ¬ keys.length = 0 := by
    intro h; exact hne (List.length_eq_zero.mp h)
  obtain ⟨w2, hw2⟩ := populate_some c (values.getD []) (Error.ofReturn err) keys
    ({ w with invoked := w.invoked ++ [keys] } : World K V E P) h0
  refine ⟨w2, hw2, ?_⟩
  simp only [doCallX, hlen, if_false, doCallX.inner, hfn, hw2, Option.map_some']
  simp only [doCallX.deferred]
  generalize doCallX.loop rx c w2 g keys = out
  obtain ⟨a, b, e⟩ := out
  cases e <;> simp

/-- The loop of the deferred function completes without a receiver when every
record has one channel, nothing has been sent on it, and no two records have
the same channel. -/
theorem loop_returns_single (rx : Bool) (c : List (K × Nat)) (keys : List K)
    (w : World K V E P) (g : Group K)
    (hnd : keys.Nodup)
    (hinj : ∀ k1 ∈ keys, ∀ k2 ∈ keys, mapIndex c k1 = mapIndex c k2 → k1 = k2)
    (hrec : ∀ k ∈ keys, mapIndex c k ≠ 0 ∧ (w.heap (mapIndex c k)).wg ≠ 0
      ∧ ∃ e, (w.heap (mapIndex c k)).err = Error.ofReturn e)
    (hch : ∀ k ∈ keys, ∃ ch, (w.heap (mapIndex c k)).chans = [ch] ∧ ch ≠ 0 ∧ w.chans ch = [])
    (hchinj : ∀ k1 ∈ keys, ∀ k2 ∈ keys,
      (w.heap (mapIndex c k1)).chans = (w.heap (mapIndex c k2)).chans → k1 = k2) :
    (doCallX.loop rx c w g keys).2.2 = Exit.returned () := by
  induction keys generalizing w g with
  | nil => simp [doCallX.loop]
  | cons a rest ih =>
    obtain ⟨hp, hwg, herr⟩ := hrec a (List.mem_cons_self _ _)
    obtain ⟨ch, hcha, hch0, hche⟩ := hch a (List.mem_cons_self _ _)
    have hnd' := List.nodup_cons.mp hnd
    have hne : ∀ k ∈ rest, mapIndex c k ≠ mapIndex c a := by
      intro k hk e
      have := hinj k (List.mem_cons_of_mem _ hk) a (List.mem_cons_self _ _) e
      subst this
      exact hnd'.1 hk
    rw [loop_cons rx c a rest w g hp hwg herr, hcha]
    have hsend : (w.store (mapIndex c a)
        { w.heap (mapIndex c a) with wg := (w.heap (mapIndex c a)).wg - 1 }).send rx ch
          (w.heap (mapIndex c a)).result
        = some { (w.store (mapIndex c a)
            { w.heap (mapIndex c a) with wg := (w.heap (mapIndex c a)).wg - 1 }) with
            chans := fun q => if q = ch then [] ++ [(w.heap (mapIndex c a)).result]
              else w.chans q } := by
      have hc1 : (w.store (mapIndex c a)
        { w.heap (mapIndex c a) with wg := (w.heap (mapIndex c a)).wg - 1 }).chans ch = [] := hche
      unfold World.send
      rw [if_neg hch0, hc1]
      simp [World.store]
    simp only [deliver, hsend, if_true]
    apply ih
    · exact hnd'.2
    · exact fun k1 h1 k2 h2 => hinj k1 (List.mem_cons_of_mem _ h1) k2 (List.mem_cons_of_mem _ h2)
    · intro k hk
      have : mapIndex c k ≠ mapIndex c a := hne k hk
      simp only [World.store, this, if_false]
      exact hrec k (List.mem_cons_of_mem _ hk)
    · intro k hk
      have hka : mapIndex c k ≠ mapIndex c a := hne k hk
      obtain ⟨ch', h1, h2, h3⟩ := hch k (List.mem_cons_of_mem _ hk)
      refine ⟨ch', ?_, h2, ?_⟩
      · simp only [World.store, hka, if_false]
        exact h1
      · have hne' : ch' ≠ ch := by
          intro e
          subst e
          have := hchinj k (List.mem_cons_of_mem _ hk) a (List.mem_cons_self _ _)
            (by rw [h1, hcha])
          subst this
          exact hnd'.1 hk
        simp only [hne', if_false]
        exact h3
    · intro k1 h1 k2 h2 e
      have e1 : mapIndex c k1 ≠ mapIndex c a := hne k1 h1
      have e2 : mapIndex c k2 ≠ mapIndex c a := hne k2 h2
      simp only [World.store, e1, e2, if_false] at e
      exact hchinj k1 (List.mem_cons_of_mem _ h1) k2 (List.mem_cons_of_mem _ h2) e

theorem loop_cons_goexit (rx : Bool) (c : List (K × Nat)) (a : K) (rest : List K)
    (w : World K V E P) (g : Group K)
    (hp : mapIndex c a ≠ 0) (hwg : (w.heap (mapIndex c a)).wg ≠ 0)
    (herr : (w.heap (mapIndex c a)).err = Error.errGoexit) :
    doCallX.loop rx c w g (a :: rest)
      = doCallX.loop rx c
          (w.store (mapIndex c a)
            { w.heap (mapIndex c a) with wg := (w.heap (mapIndex c a)).wg - 1 })
          (if mapIndex (g.m.getD []) a = mapIndex c a then g.delete a else g) rest := by
  have h1 : ((w.store (mapIndex c a)
      { w.heap (mapIndex c a) with wg := (w.heap (mapIndex c a)).wg - 1 }).heap
        (mapIndex c a)).err = Error.errGoexit := by
    simp [World.store, herr]
  rw [doCallX.loop]
  simp only [hp, hwg, if_false]
  rw [h1]

theorem loop_goexit (rx : Bool) (c : List (K × Nat)) (keys : List K)
    (w : World K V E P) (g : Group K)
    (hnd : keys.Nodup)
    (hinj : ∀ k1 ∈ keys, ∀ k2 ∈ keys, mapIndex c k1 = mapIndex c k2 → k1 = k2)
    (hrec : ∀ k ∈ keys, mapIndex c k ≠ 0 ∧ (w.heap (mapIndex c k)).wg ≠ 0
      ∧ (w.heap (mapIndex c k)).err = Error.errGoexit) :
    (doCallX.loop rx c w g keys).2.2 = Exit.returned ()
    ∧ (doCallX.loop rx c w g keys).1.chans = w.chans
    ∧ (∀ q, (∀ k ∈ keys, mapIndex c k ≠ q) → (doCallX.loop rx c w g keys).1.heap q = w.heap q) := by
  induction keys generalizing w g with
  | nil => simp [doCallX.loop]
  | cons a rest ih =>
    obtain ⟨hp, hwg, herr⟩ := hrec a (List.mem_cons_self _ _)
    have hnd' := List.nodup_cons.mp hnd
    have hne : ∀ k ∈ rest, mapIndex c k ≠ mapIndex c a := by
      intro k hk e
      have := hinj k (List.mem_cons_of_mem _ hk) a (List.mem_cons_self _ _) e
      subst this
      exact hnd'.1 hk
    rw [loop_cons_goexit rx c a rest w g hp hwg herr]
    obtain ⟨i1, i2, i3⟩ := ih
      (w.store (mapIndex c a)
        { w.heap (mapIndex c a) with wg := (w.heap (mapIndex c a)).wg - 1 })
      (if mapIndex (g.m.getD []) a = mapIndex c a then g.delete a else g) hnd'.2
      (fun k1 h1 k2 h2 => hinj k1 (List.mem_cons_of_mem _ h1) k2 (List.mem_cons_of_mem _ h2))
      (by
        intro k hk
        have : mapIndex c k ≠ mapIndex c a := hne k hk
        simp only [World.store, this, if_false]
        exact hrec k (List.mem_cons_of_mem _ hk))
    refine ⟨i1, i2, ?_⟩
    intro q hq
    rw [i3 q (fun k hk => hq k (List.mem_cons_of_mem _ hk))]
    have : q ≠ mapIndex c a := fun e => hq a (List.mem_cons_self _ _) e.symm
    simp only [World.store, this, if_false]

/-- The executor when `fn` exits its thread: every record is released, nothing
is sent, and the thread of the executor exits. -/
theorem doCallX_goexit (rx : Bool) (w : World K V E P) (g : Group K) (c : List (K × Nat))
    (keys : List K) (fn : List K → FnOutcome K V E P)
    (hne : keys ≠ [])
    (hfn : fn keys = FnOutcome.goexit)
    (hnd : keys.Nodup)
    (hinj : ∀ k1 ∈ keys, ∀ k2 ∈ keys, mapIndex c k1 = mapIndex c k2 → k1 = k2)
    (hrec : ∀ k ∈ keys, mapIndex c k ≠ 0 ∧ (w.heap (mapIndex c k)).wg ≠ 0) :
    (doCallX rx w g c keys fn).2.2 = Exit.goexit
    ∧ (doCallX rx w g c keys fn).1.chans = w.chans
    ∧ (∀ q, (∀ k ∈ keys, mapIndex c k ≠ q) → (doCallX rx w g c keys fn).1.heap q = w.heap q) := by
  obtain ⟨w2, hw2⟩ := setErr_some c (Error.errGoexit : Error E P) keys
    ({ w with invoked := w.invoked ++ [keys] } : World K V E P) (fun k hk => (hrec k hk).1)
  obtain ⟨s1, s2, s3, s4, s5, s6, s7⟩ := setErr_frame c _ keys _ w2 hw2
  have hin : doCallX.inner w c keys fn
      = some (({ w with invoked := w.invoked ++ [keys] } : World K V E P), false, true) := by
    simp [doCallX.inner, hfn]
  have hm : doCallX.marked ({ w with invoked := w.invoked ++ [keys] } : World K V E P) c keys
      false (if true then false else !false) = some w2 := by
    simp [doCallX.marked, hw2]
  obtain ⟨d1, d2, d3, d4⟩ := doCallX_at_dispatch rx w g c keys fn _ w2 false true hne hin hm
  obtain ⟨l1, l2, l3⟩ := loop_goexit rx c keys w2 g hnd hinj (by
    intro k hk
    refine ⟨(hrec k hk).1, ?_, ?_⟩
    · rw [s6 k hk]; exact (hrec k hk).2
    · rw [s6 k hk])
  refine ⟨?_, ?_, ?_⟩
  · rw [d3 l1]; rfl
  · rw [d1, l2, s2]
  · intro q hq
    rw [d1, l3 q hq, s7 q hq]

/-- The executor when `fn` panics and the first record has a channel: the
panic is raised on a fresh thread, and nothing is sent. -/
theorem doCallX_panicked_first (rx : Bool) (w : World K V E P) (g : Group K)
    (c : List (K × Nat)) (a : K) (rest : List K) (fn : List K → FnOutcome K V E P) (v : P)
    (hfn : fn (a :: rest) = FnOutcome.panicked v)
    (h0 : ∀ k ∈ a :: rest, mapIndex c k ≠ 0)
    (hwg : (w.heap (mapIndex c a)).wg ≠ 0) :
    ((w.heap (mapIndex c a)).chans ≠ []
      → (doCallX rx w g c (a :: rest) fn).2.2 = Exit.crashed v)
    ∧ ((w.heap (mapIndex c a)).chans = []
      → (doCallX rx w g c (a :: rest) fn).2.2 = Exit.panicked v)
    ∧ (doCallX rx w g c (a :: rest) fn).1.chans = w.chans := by
  obtain ⟨w2, hw2⟩ := setErr_some c (Error.panicError v : Error E P) (a :: rest)
    ({ w with invoked := w.invoked ++ [a :: rest] } : World K V E P) h0
  obtain ⟨s1, s2, s3, s4, s5, s6, s7⟩ := setErr_frame c _ (a :: rest) _ w2 hw2
  have hin : doCallX.inner w c (a :: rest) fn = some (w2, false, false) := by
    simp [doCallX.inner, hfn, hw2]
  have hm : doCallX.marked w2 c (a :: rest) false (if false then false else !false)
      = some w2 := by
    simp [doCallX.marked]
  obtain ⟨d1, d2, d3, d4⟩ := doCallX_at_dispatch rx w g c (a :: rest) fn w2 w2 false false
    (by simp) hin hm
  have hp := h0 a (List.mem_cons_self _ _)
  have ha := s6 a (List.mem_cons_self _ _)
  have hwg2 : (w2.heap (mapIndex c a)).wg ≠ 0 := by rw [ha]; exact hwg
  have herr : (w2.heap (mapIndex c a)).err = Error.panicError v := by rw [ha]
  have hchans : (w2.heap (mapIndex c a)).chans = (w.heap (mapIndex c a)).chans := by rw [ha]
  have hloop : doCallX.loop rx c w2 g (a :: rest)
      = (w2.store (mapIndex c a)
            { w2.heap (mapIndex c a) with wg := (w2.heap (mapIndex c a)).wg - 1 },
          (if mapIndex (g.m.getD []) a = mapIndex c a then g.delete a else g),
          if (w.heap (mapIndex c a)).chans.length > 0 then Exit.crashed v
          else Exit.panicked v) := by
    simp only [doCallX.loop, hp, hwg2, if_false, World.store, if_true, herr, hchans]
    split_ifs <;> rfl
  refine ⟨?_, ?_, ?_⟩
  · intro hc
    have hpos : (w.heap (mapIndex c a)).chans.length > 0 := List.length_pos.mpr hc
    rw [d4 (by rw [hloop, if_pos hpos]; simp), hloop, if_pos hpos]
  · intro hc
    have hpos : ¬ (w.heap (mapIndex c a)).chans.length > 0 := by rw [hc]; simp
    rw [d4 (by rw [hloop, if_neg hpos]; simp), hloop, if_neg hpos]
  · rw [d1, hloop]
    exact s2

/-- The executor when `fn` returns, every record has one channel on which
nothing has been sent, and no two records have the same channel: it completes
without a receiver. -/
theorem doCallX_returns_single (rx : Bool) (w : World K V E P) (g : Group K)
    (c : List (K × Nat)) (keys : List K) (fn : List K → FnOutcome K V E P)
    (values : Option (List (K × V))) (err : Option E)
    (hne : keys ≠ [])
    (hfn : fn keys = FnOutcome.returned values err)
    (hnd : keys.Nodup)
    (hinj : ∀ k1 ∈ keys, ∀ k2 ∈ keys, mapIndex c k1 = mapIndex c k2 → k1 = k2)
    (hrec : ∀ k ∈ keys, mapIndex c k ≠ 0 ∧ (w.heap (mapIndex c k)).wg ≠ 0)
    (hch : ∀ k ∈ keys, ∃ ch, (w.heap (mapIndex c k)).chans = [ch] ∧ ch ≠ 0 ∧ w.chans ch = [])
    (hchinj : ∀ k1 ∈ keys, ∀ k2 ∈ keys,
      (w.heap (mapIndex c k1)).chans = (w.heap (mapIndex c k2)).chans → k1 = k2) :
    (doCallX rx w g c keys fn).2.2 = Exit.returned () := by
  obtain ⟨w2, hw2, hrun⟩ := doCallX_returned_loop rx w g c keys fn values err hne hfn
    (fun k hk => (hrec k hk).1)
  obtain ⟨p1, p2, p3, p4, p5, p6⟩ := populate_frame c _ _ keys _ w2 hw2
  have perr := populate_err c _ _ keys _ w2 hw2
  rw [hrun]
  apply loop_returns_single rx c keys w2 g hnd hinj
  · intro k hk
    refine ⟨(hrec k hk).1, ?_, err, perr k hk⟩
    rw [(p5 _).1]; exact (hrec k hk).2
  · intro k hk
    obtain ⟨ch, h1, h2, h3⟩ := hch k hk
    refine ⟨ch, ?_, h2, ?_⟩
    · rw [(p5 _).2.2]; exact h1
    · rw [p2]; exact h3
  · intro k1 h1 k2 h2 e
    rw [(p5 _).2.2, (p5 _).2.2] at e
    exact hchinj k1 h1 k2 h2 e

theorem flatMap_eq_nil_of {A B : Type} (l : List A) (f : A → List B)
    (h : ∀ x ∈ l, f x = []) : l.flatMap f = [] := by
  induction l with
  | nil => rfl
  | cons a rest ih =>
    rw [List.flatMap_cons, h a (List.mem_cons_self _ _),
      ih (fun x hx => h x (List.mem_cons_of_mem _ hx))]
    rfl

/-- The executor of a `DoChanX(ks, fn)` on a group without in-flight records,
run in a state `w1` that has the records and the channels of that `DoChanX`
as it left them, when `fn` does not panic. -/
theorem executor_fresh (rx : Bool) (w0 w1 : World K V E P) (g0 g1 : Group K) (ks : List K)
    (fn : List K → FnOutcome K V E P)
    (hg0 : g0.len = 0) (hne : ks ≠ [])
    (hheap : ∀ q, w0.allocated < q → q ≤ (DoChanX w0 g0 ks).w.allocated
      → w1.heap q = (DoChanX w0 g0 ks).w.heap q)
    (hchans : ∀ ch, w0.made < ch → ch ≤ w0.made + ks.length → w1.chans ch = [])
    (hnp : ∀ v, fn (firstOccurrences ks) ≠ FnOutcome.panicked v)
    (hdel : rx = true ∨ ks.Nodup ∨ fn (firstOccurrences ks) = FnOutcome.goexit) :
    ((doCallX rx w1 g1 (DoChanX w0 g0 ks).calls (DoChanX w0 g0 ks).toCall fn).2.2
        = Exit.returned ()
      ∨ (doCallX rx w1 g1 (DoChanX w0 g0 ks).calls (DoChanX w0 g0 ks).toCall fn).2.2
        = Exit.goexit)
    ∧ (∀ q, (q ≤ w0.allocated ∨ (DoChanX w0 g0 ks).w.allocated < q)
        → (doCallX rx w1 g1 (DoChanX w0 g0 ks).calls (DoChanX w0 g0 ks).toCall fn).1.heap q
          = w1.heap q)
    ∧ (∀ ch, (ch ≤ w0.made ∨ w0.made + ks.length < ch)
        → (doCallX rx w1 g1 (DoChanX w0 g0 ks).calls (DoChanX w0 g0 ks).toCall fn).1.chans ch
          = w1.chans ch)
    ∧ (∀ k ∈ ks, ∃ ch, mapGet (DoChanX w0 g0 ks).results k = some ch
        ∧ w0.made < ch ∧ ch ≤ w0.made + ks.length
        ∧ (∀ values err, fn (firstOccurrences ks) = FnOutcome.returned values err →
            ∃ l, (doCallX rx w1 g1 (DoChanX w0 g0 ks).calls
                (DoChanX w0 g0 ks).toCall fn).1.chans ch
              = (({ (call.zero : call V E P) with dups := ks.count k - 1 }).fill
                  (values.getD []) (Error.ofReturn err) k).result :: l)
        ∧ (fn (firstOccurrences ks) = FnOutcome.goexit →
            (doCallX rx w1 g1 (DoChanX w0 g0 ks).calls
                (DoChanX w0 g0 ks).toCall fn).1.chans ch = [])) := by
  have hm : g0.m.getD [] = [] := List.length_eq_zero.mp hg0
  have hget : ∀ k, g0.get k = none := by
    intro k; simp [Group.get, hm, mapGet]
  obtain ⟨r1, r2, r3, r4, r5, r6, r7, r8, r9, r10, r11⟩ := DoChanX_fresh w0 g0 ks
    (fun k _ => hget k) (fun k p h => by rw [hget k] at h; cases h)
  generalize DoChanX w0 g0 ks = r at r1 r2 r3 r4 r5 r6 r7 r8 r9 r10 r11 hheap ⊢
  rw [r1]
  have htc : firstOccurrences ks ≠ [] := by
    obtain ⟨a, ha⟩ := List.exists_mem_of_ne_nil ks hne
    intro h
    have := (mem_firstOccurrences ks a).mpr ha
    rw [h] at this
    cases this
  have hidx : ∀ k ∈ ks, ∃ p ch, w0.allocated < p ∧ p ≤ r.w.allocated
      ∧ w0.made < ch ∧ ch ≤ w0.made + ks.length
      ∧ mapIndex r.calls k = p ∧ mapGet r.results k = some ch
      ∧ w1.heap p = { (call.zero : call V E P) with
          wg := 1, dups := ks.count k - 1, chans := List.replicate (ks.count k) ch } := by
    intro k hk
    obtain ⟨p, ch, h1, h2, h3, h4, h5, h6, h7, h8⟩ := r6 k hk
    exact ⟨p, ch, h1, h2, h6, h7, by simp [mapIndex, h4], h5, by rw [hheap p h1 h2, h8]⟩
  have hcnt : ∀ k ∈ ks, ks.count k ≠ 0 := by
    intro k hk
    have := List.count_pos_iff.mpr hk
    omega
  have hrec : ∀ k ∈ firstOccurrences ks,
      mapIndex r.calls k ≠ 0 ∧ (w1.heap (mapIndex r.calls k)).wg ≠ 0 := by
    intro k hk
    obtain ⟨p, ch, h1, _, _, _, h3, _, h4⟩ := hidx k ((mem_firstOccurrences ks k).mp hk)
    rw [h3, h4]
    exact ⟨by omega, by simp⟩
  have hinj : ∀ k1 ∈ firstOccurrences ks, ∀ k2 ∈ firstOccurrences ks,
      mapIndex r.calls k1 = mapIndex r.calls k2 → k1 = k2 :=
    fun k1 h1 k2 h2 => r7 k1 ((mem_firstOccurrences ks k1).mp h1) k2
      ((mem_firstOccurrences ks k2).mp h2)
  have hout : ∀ q, (q ≤ w0.allocated ∨ r.w.allocated < q)
      → ∀ k ∈ firstOccurrences ks, mapIndex r.calls k ≠ q := by
    intro q hq k hk e
    obtain ⟨p, ch, h1, h2, _, _, h3, _, _⟩ := hidx k ((mem_firstOccurrences ks k).mp hk)
    rw [h3] at e
    omega
  cases hfn : fn (firstOccurrences ks) with
  | panicked v => exact absurd hfn (hnp v)
  | goexit =>
    obtain ⟨e1, e2, e3⟩ := doCallX_goexit rx w1 g1 r.calls (firstOccurrences ks) fn htc hfn
      (nodup_firstOccurrences ks) hinj hrec
    refine ⟨Or.inr e1, fun q hq => e3 q (hout q hq), fun ch _ => by rw [e2], ?_⟩
    intro k hk
    obtain ⟨p, ch, _, _, h5, h6, _, h7, _⟩ := hidx k hk
    refine ⟨ch, h7, h5, h6, ?_, ?_⟩
    · intro values err h; cases h
    · intro _
      rw [e2]
      exact hchans ch h5 h6
  | returned values err =>
    obtain ⟨d1, d2, d3, d4, d5, d6⟩ := doCallX_returned rx w1 g1 r.calls
      (firstOccurrences ks) fn values err htc hfn (nodup_firstOccurrences ks) hinj hrec
    have hret : (doCallX rx w1 g1 r.calls (firstOccurrences ks) fn).2.2 = Exit.returned () := by
      rcases hdel with hrx | hnd | hgo
      · apply d2
        intro k hk
        obtain ⟨p, ch, _, _, h5, _, h3, _, h4⟩ := hidx k ((mem_firstOccurrences ks k).mp hk)
        left
        refine ⟨hrx, ?_⟩
        rw [h3, h4]
        intro c hc
        have := List.eq_of_mem_replicate hc
        rw [this]; omega
      · have hone : ∀ k ∈ ks, ks.count k = 1 := fun k hk => List.count_eq_one_of_mem hnd hk
        apply doCallX_returns_single rx w1 g1 r.calls (firstOccurrences ks) fn values err htc
          hfn (nodup_firstOccurrences ks) hinj hrec
        · intro k hk
          have hk' := (mem_firstOccurrences ks k).mp hk
          obtain ⟨p, ch, _, _, h5, h6, h3, _, h4⟩ := hidx k hk'
          refine ⟨ch, ?_, by omega, hchans ch h5 h6⟩
          rw [h3, h4, hone k hk']
          rfl
        · intro k1 hk1 k2 hk2 e
          have hk1' := (mem_firstOccurrences ks k1).mp hk1
          have hk2' := (mem_firstOccurrences ks k2).mp hk2
          obtain ⟨p1, ch1, _, _, _, _, a3, a7, a4⟩ := hidx k1 hk1'
          obtain ⟨p2, ch2, _, _, _, _, b3, b7, b4⟩ := hidx k2 hk2'
          rw [a3, b3, a4, b4, hone k1 hk1', hone k2 hk2'] at e
          simp only [List.replicate_one, List.cons.injEq, and_true] at e
          apply r8 k1 hk1' k2 hk2'
          rw [a7, b7, e]
      · rw [hfn] at hgo
        cases hgo
    obtain ⟨j1, j2, j3, j4⟩ := d6 hret
    refine ⟨Or.inl hret, fun q hq => j3 q (hout q hq), ?_, ?_⟩
    · intro ch hch
      rw [j4 ch, flatMap_eq_nil_of, List.append_nil]
      intro k hk
      obtain ⟨p, ch', _, _, h5, h6, h3, _, h4⟩ := hidx k ((mem_firstOccurrences ks k).mp hk)
      rw [h3, h4]
      have : List.count ch (List.replicate (ks.count k) ch') = 0 := by
        rw [List.count_replicate]
        have : ¬ ch' = ch := by omega
        simp [this]
      simp only [this, List.replicate_zero]
    · intro k hk
      obtain ⟨p, ch, _, _, h5, h6, h3, h7, h4⟩ := hidx k hk
      refine ⟨ch, h7, h5, h6, ?_, ?_⟩
      · intro values' err' h
        cases h
        rw [j4 ch, hchans ch h5 h6, List.nil_append]
        obtain ⟨f1, f2⟩ := flatMap_replicate_only (firstOccurrences ks)
          (fun x => (w1.heap (mapIndex r.calls x)).chans.count ch)
          (fun x => ((w1.heap (mapIndex r.calls x)).fill (values.getD [])
            (Error.ofReturn err) x).result) k ((mem_firstOccurrences ks k).mpr hk)
          (by
            simp only [h3, h4, List.count_replicate_self]
            exact hcnt k hk)
          (by
            intro x hx hcx
            have hx' := (mem_firstOccurrences ks x).mp hx
            obtain ⟨p', ch', _, _, _, _, b3, b7, b4⟩ := hidx x hx'
            simp only [b3, b4, List.count_replicate] at hcx
            have hce : ch' = ch := by
              by_contra hne'
              simp [hne'] at hcx
            apply r8 x hx' k hk
            rw [b7, h7, hce])
        generalize (firstOccurrences ks).flatMap (fun x =>
          List.replicate ((w1.heap (mapIndex r.calls x)).chans.count ch)
            ((w1.heap (mapIndex r.calls x)).fill (values.getD [])
              (Error.ofReturn err) x).result) = l at f1 f2 ⊢
        cases l with
        | nil => exact absurd rfl f1
        | cons a rest =>
          refine ⟨rest, ?_⟩
          rw [f2 a (List.mem_cons_self _ _)]
          simp only [h3]
          rw [result_fill_congr (w1.heap p)
            ({ (call.zero : call V E P) with dups := ks.count k - 1 })
            (values.getD []) (Error.ofReturn err) k (by rw [h4]) (by rw [h4]) (by rw [h4])]
      · intro h
        cases h

end ExecChan

section ShardedDoX

variable {K V E P : Type} [DecidableEq K] [Inhabited V]

theorem deliverPending_eq (r : Result V E P) (chans : List Nat) (w : World K V E P) :
    (deliverPending r w chans).1 = (deliver false r w chans).1
    ∧ ((deliverPending r w chans).2 = [] ↔ (deliver false r w chans).2 = true) := by
  induction chans generalizing w with
  | nil => simp [deliverPending, deliver]
  | cons ch rest ih =>
    simp only [deliverPending, deliver]
    cases hs : w.send false ch r with
    | none => simp
    | some w1 => exact ih w1

/-- The loop that keeps its place is `doCallX.loop false`: the same state, the
same mapping, and the same way of ending. -/
theorem loopFrom_eq (c : List (K × Nat)) (keys : List K) (w : World K V E P) (g : Group K) :
    (doCallX.loopFrom c w g keys).1 = (doCallX.loop false c w g keys).1
    ∧ (doCallX.loopFrom c w g keys).2.1 = (doCallX.loop false c w g keys).2.1
    ∧ (doCallX.loopFrom c w g keys).2.2.exit = (doCallX.loop false c w g keys).2.2 := by
  induction keys generalizing w g with
  | nil => simp [doCallX.loopFrom, doCallX.loop, Progress.exit]
  | cons a rest ih =>
    rw [doCallX.loopFrom, doCallX.loop]
    by_cases h1 : mapIndex c a = 0
    · simp [h1, Progress.exit]
    by_cases h2 : (w.heap (mapIndex c a)).wg = 0
    · simp [h1, h2, Progress.exit]
    simp only [h1, h2, if_false]
    generalize (w.store (mapIndex c a)
        { w.heap (mapIndex c a) with wg := (w.heap (mapIndex c a)).wg - 1 }) = w1
    generalize (if mapIndex (g.m.getD []) a = mapIndex c a then g.delete a else g) = g1
    cases herr : (w1.heap (mapIndex c a)).err with
    | panicError e =>
      simp only
      split_ifs <;> simp [Progress.exit]
    | errGoexit =>
      simp only
      exact ih w1 g1
    | nil =>
      simp only
      obtain ⟨d1, d2⟩ := deliverPending_eq (w1.heap (mapIndex c a)).result
        (w1.heap (mapIndex c a)).chans w1
      cases hd : deliver false (w1.heap (mapIndex c a)).result w1
          (w1.heap (mapIndex c a)).chans with
      | mk w2 ok =>
        cases hp : deliverPending (w1.heap (mapIndex c a)).result w1
            (w1.heap (mapIndex c a)).chans with
        | mk w3 left =>
          rw [hd, hp] at d1 d2
          simp only at d1 d2
          subst d1
          cases left with
          | nil =>
            have : ok = true := d2.mp rfl
            subst this
            simp only
            exact ih w3 g1
          | cons x xs =>
            have : ok = false := by
              cases ok with
              | false => rfl
              | true => exact absurd (d2.mpr rfl) (by simp)
            subst this
            simp [Progress.exit]
    | user x =>
      simp only
      obtain ⟨d1, d2⟩ := deliverPending_eq (w1.heap (mapIndex c a)).result
        (w1.heap (mapIndex c a)).chans w1
      cases hd : deliver false (w1.heap (mapIndex c a)).result w1
          (w1.heap (mapIndex c a)).chans with
      | mk w2 ok =>
        cases hp : deliverPending (w1.heap (mapIndex c a)).result w1
            (w1.heap (mapIndex c a)).chans with
        | mk w3 left =>
          rw [hd, hp] at d1 d2
          simp only at d1 d2
          subst d1
          cases left with
          | nil =>
            have : ok = true := d2.mp rfl
            subst this
            simp only
            exact ih w3 g1
          | cons x xs =>
            have : ok = false := by
              cases ok with
              | false => rfl
              | true => exact absurd (d2.mpr rfl) (by simp)
            subst this
            simp [Progress.exit]

theorem Progress.exit_returned (x : Progress K V E P) (h : x.exit = Exit.returned ()) :
    x = Progress.finished := by
  cases x <;> simp [Progress.exit] at h ⊢

theorem Progress.exit_crashed (x : Progress K V E P) (v : P) (h : x.exit = Exit.crashed v) :
    x = Progress.crashed v := by
  cases x <;> simp [Progress.exit] at h ⊢
  exact h

theorem Progress.exit_ne_goexit (x : Progress K V E P) : x.exit ≠ Exit.goexit := by
  cases x <;> simp [Progress.exit]

/-- The executor that keeps its place is `doCallX false` where this one does
not wait: it ends where `doCallX` returns or exits its thread, and it raises
the panic on a fresh thread where `doCallX` does. -/
theorem start_of_doCallX (w : World K V E P) (g : Group K) (c : List (K × Nat))
    (keys : List K) (fn : List K → FnOutcome K V E P) :
    (((doCallX false w g c keys fn).2.2 = Exit.returned ()
        ∨ (doCallX false w g c keys fn).2.2 = Exit.goexit)
      → doCallX.start w g c keys fn
        = ((doCallX false w g c keys fn).1, (doCallX false w g c keys fn).2.1,
            Progress.finished))
    ∧ (∀ v, (doCallX false w g c keys fn).2.2 = Exit.crashed v
      → (doCallX.start w g c keys fn).2.2 = Progress.crashed v) := by
  by_cases hne : keys = []
  · subst hne
    simp [doCallX, doCallX.start]
  have hlen : ¬ keys.length = 0 := by
    intro h; exact hne (List.length_eq_zero.mp h)
  cases hin : doCallX.inner w c keys fn with
  | none =>
    have hx : doCallX false w g c keys fn = (w, g, Exit.fault) := by
      simp [doCallX, hlen, hin]
    rw [hx]
    constructor
    · intro h; rcases h with h | h <;> cases h
    · intro v h; cases h
  | some x =>
    obtain ⟨w1, nr, ex⟩ := x
    cases hm : doCallX.marked w1 c keys nr (if ex then false else !nr) with
    | none =>
      have hdef : doCallX.deferred false w1 g c keys nr (if ex then false else !nr)
          = (w1, g, Exit.fault) := by
        unfold doCallX.deferred
        unfold doCallX.marked at hm
        by_cases hc : (!nr && !(if ex then false else !nr)) = true
        · rw [if_pos hc] at hm ⊢
          rw [hm]
        · rw [if_neg hc] at hm
          cases hm
      have hx : doCallX false w g c keys fn = (w1, g, Exit.fault) := by
        simp only [doCallX, hlen, if_false, hin, hdef]
      rw [hx]
      constructor
      · intro h; rcases h with h | h <;> cases h
      · intro v h; cases h
    | some w2 =>
      obtain ⟨d1, d2, d3, d4⟩ := doCallX_at_dispatch false w g c keys fn w1 w2 nr ex hne hin hm
      obtain ⟨l1, l2, l3⟩ := loopFrom_eq c keys w2 g
      have hst : doCallX.start w g c keys fn = doCallX.loopFrom c w2 g keys := by
        simp only [doCallX.start, hlen, if_false, doCallX.atDispatch, hin, hm]
      rw [hst]
      by_cases hret : (doCallX.loop false c w2 g keys).2.2 = Exit.returned ()
      · have hfin := Progress.exit_returned _ (l3.trans hret)
        constructor
        · intro _
          rw [d1, d2, ← l1, ← l2, ← hfin]
        · intro v hv
          rw [d3 hret] at hv
          cases ex <;> simp at hv
      · have hx := d4 hret
        constructor
        · intro h
          exfalso
          rcases h with h | h
          · exact hret (hx ▸ h)
          · exact Progress.exit_ne_goexit _ (l3.trans (hx ▸ h))
        · intro v hv
          exact Progress.exit_crashed _ v (l3.trans (hx ▸ hv))

theorem run_cons_continue (fn : List K → FnOutcome K V E P) (w : World K V E P)
    (sh : List (Group K)) (t : Spawned K) (ts : List (Spawned K))
    (ws : List (Waiting K V E P)) (g : Group K)
    (hg : sh[t.shard]? = some g)
    (hx : (doCallX false w g t.calls t.toCall fn).2.2 = Exit.returned ()
      ∨ (doCallX false w g t.calls t.toCall fn).2.2 = Exit.goexit) :
    ShardedGroup.DoX.run fn w sh (t :: ts) ws
      = ShardedGroup.DoX.run fn (doCallX false w g t.calls t.toCall fn).1
          (sh.set t.shard (doCallX false w g t.calls t.toCall fn).2.1) ts ws := by
  simp only [ShardedGroup.DoX.run, hg, (start_of_doCallX w g t.calls t.toCall fn).1 hx]

theorem run_cons_stop (fn : List K → FnOutcome K V E P) (w : World K V E P)
    (sh : List (Group K)) (t : Spawned K) (ts : List (Spawned K))
    (ws : List (Waiting K V E P)) (g : Group K) (v : P)
    (hg : sh[t.shard]? = some g)
    (hx : (doCallX false w g t.calls t.toCall fn).2.2 = Exit.crashed v) :
    (ShardedGroup.DoX.run fn w sh (t :: ts) ws).2.2.2 = Exit.crashed v := by
  have h := (start_of_doCallX w g t.calls t.toCall fn).2 v hx
  simp only [ShardedGroup.DoX.run, hg]
  generalize doCallX.start w g t.calls t.toCall fn = out at h ⊢
  obtain ⟨a, b, e⟩ := out
  simp only at h
  subst h
  rfl

/-- The registration by `DoChanX` on a group without in-flight records, as far
as the state before it and the channels it returns are concerned. -/
theorem DoChanX_fresh_frame (w : World K V E P) (g : Group K) (keys : List K)
    (hg : g.len = 0) :
    w.allocated ≤ (DoChanX w g keys).w.allocated
    ∧ (DoChanX w g keys).w.made = w.made + keys.length
    ∧ (∀ q, q ≤ w.allocated → (DoChanX w g keys).w.heap q = w.heap q)
    ∧ (∀ ch, (DoChanX w g keys).w.chans ch
        = if w.made < ch ∧ ch ≤ w.made + keys.length then [] else w.chans ch)
    ∧ (mapKeys (DoChanX w g keys).results).Nodup
    ∧ (∀ k, k ∉ keys → mapGet (DoChanX w g keys).results k = none)
    ∧ (∀ k ∈ keys, ∃ ch, mapGet (DoChanX w g keys).results k = some ch
        ∧ w.made < ch ∧ ch ≤ w.made + keys.length)
    ∧ (∀ k1 ∈ keys, ∀ k2 ∈ keys,
        mapGet (DoChanX w g keys).results k1 = mapGet (DoChanX w g keys).results k2
          → k1 = k2) := by
  have hm : g.m.getD [] = [] := List.length_eq_zero.mp hg
  have hget : ∀ k, g.get k = none := by
    intro k; simp [Group.get, hm, mapGet]
  obtain ⟨r1, r2, r3, r4, r5, r6, r7, r8, r9, r10, r11⟩ := DoChanX_fresh w g keys
    (fun k _ => hget k) (fun k p h => by rw [hget k] at h; cases h)
  obtain ⟨s1, s2, s3, s4, s5, s6, s7, s8⟩ := DoChanX_shape w g keys
  refine ⟨?_, r3, r10, r9, s5, s6, ?_, r8⟩
  · rw [DoChanX_eq]
    simp only
    have h1 := reg_allocated_le (fun k => [mapIndex (keys.foldl DoChanX.makeStep (w, [])).2 k])
      keys ({ w := (keys.foldl DoChanX.makeStep (w, [])).1, m := g.m.getD [],
              calls := [], toCall := [] } : Registered K V E P)
    have h2 := (make_frame keys ((w, []) : World K V E P × List (K × Nat))).2.1
    simp only at h1 h2
    omega
  · intro k hk
    obtain ⟨p, ch, a1, a2, a3, a4, a5, a6, a7, a8⟩ := r6 k hk
    exact ⟨ch, a5, a6, a7⟩

theorem values_nodup_of_inj {A : Type} [DecidableEq A] (m : List (K × A))
    (hk : (mapKeys m).Nodup)
    (hinj : ∀ k1 k2 c, mapGet m k1 = some c → mapGet m k2 = some c → k1 = k2) :
    (m.map Prod.snd).Nodup := by
  induction m with
  | nil => simp
  | cons e rest ih =>
    obtain ⟨a, c⟩ := e
    have hc : (a :: mapKeys rest).Nodup := by simpa [mapKeys] using hk
    have hrest : ∀ k v, (k, v) ∈ rest → mapGet ((a, c) :: rest) k = some v ∧ k ≠ a := by
      intro k v hkv
      have hne : k ≠ a := by
        rintro rfl
        apply (List.nodup_cons.mp hc).1
        simp only [mapKeys, List.mem_map]
        exact ⟨(k, v), hkv, rfl⟩
      refine ⟨?_, hne⟩
      have hne2 : ¬ a = k := fun h => hne (Eq.symm h)
      simp only [mapGet, if_neg hne2]
      exact mapGet_of_mem rest k v (List.nodup_cons.mp hc).2 hkv
    rw [List.map_cons, List.nodup_cons]
    constructor
    · intro hmem
      simp only [List.mem_map] at hmem
      obtain ⟨⟨k, v⟩, hkv, hv⟩ := hmem
      simp only at hv
      subst hv
      obtain ⟨h1, h2⟩ := hrest k v hkv
      exact h2 (hinj k a v h1 (by simp [mapGet]))
    · apply ih (List.nodup_cons.mp hc).2
      intro k1 k2 v h1 h2
      have hk1 : k1 ≠ a := by
        rintro rfl
        have := (mapGet_eq_none_iff rest k1).mpr (List.nodup_cons.mp hc).1
        rw [this] at h1; cases h1
      have hk2 : k2 ≠ a := by
        rintro rfl
        have := (mapGet_eq_none_iff rest k2).mpr (List.nodup_cons.mp hc).1
        rw [this] at h2; cases h2
      apply hinj k1 k2 v
      · have hne1 : ¬ a = k1 := fun h => hk1 (Eq.symm h)
        simp only [mapGet, if_neg hne1]; exact h1
      · have hne2 : ¬ a = k2 := fun h => hk2 (Eq.symm h)
        simp only [mapGet, if_neg hne2]; exact h2

/-- The registrations of `ShardedGroup.DoChanX` on shards without in-flight
records, the channels they hand out, and the run of the executors they have
started in a state that has the records and the channels made since as the
registrations left them, when `fn` does not panic and no executor has to
deliver twice on a channel. -/
theorem sharded_run_facts (fn : List K → FnOutcome K V E P)
    (L : List (Nat × List K)) (st : ShardedChan K V E P)
    (hnd : (mapKeys L).Nodup)
    (hfree : ∀ e ∈ L, ∃ g, st.shards[e.1]? = some g ∧ g.len = 0)
    (hne : ∀ e ∈ L, e.2 ≠ [])
    (hdisj : ∀ e1 ∈ L, ∀ e2 ∈ L, ∀ k, k ∈ e1.2 → k ∈ e2.2 → e1.1 = e2.1)
    (hres : (mapKeys st.results).Nodup)
    (hnp : ∀ e ∈ L, ∀ v, fn (firstOccurrences e.2) ≠ FnOutcome.panicked v)
    (hdel : ∀ e ∈ L, (e.2.Nodup ∨ fn (firstOccurrences e.2) = FnOutcome.goexit)) :
    ∃ r new, ShardedGroup.DoChanX.loop st L = some r
      ∧ r.spawned = st.spawned ++ new
      ∧ r.shards.length = st.shards.length
      ∧ st.w.allocated ≤ r.w.allocated ∧ st.w.made ≤ r.w.made
      ∧ (∀ q, q ≤ st.w.allocated → r.w.heap q = st.w.heap q)
      ∧ (∀ ch, ch ≤ st.w.made → r.w.chans ch = st.w.chans ch)
      ∧ (∀ k, (∀ e ∈ L, k ∉ e.2) → mapGet r.results k = mapGet st.results k)
      ∧ (mapKeys r.results).Nodup
      ∧ (∀ e ∈ L, ∀ k ∈ e.2, ∃ ch, mapGet r.results k = some ch
          ∧ st.w.made < ch ∧ ch ≤ r.w.made)
      ∧ (∀ e1 ∈ L, ∀ e2 ∈ L, ∀ k1 ∈ e1.2, ∀ k2 ∈ e2.2,
          mapGet r.results k1 = mapGet r.results k2 → k1 = k2)
      ∧ ∀ (w1 : World K V E P) (sh1 : List (Group K)) (ws : List (Waiting K V E P)),
          (∀ q, st.w.allocated < q → w1.heap q = r.w.heap q) →
          (∀ ch, st.w.made < ch → w1.chans ch = r.w.chans ch) →
          sh1.length = st.shards.length →
          ∃ w2 sh2, ShardedGroup.DoX.run fn w1 sh1 new ws = (w2, sh2, ws, Exit.returned ())
            ∧ sh2.length = sh1.length
            ∧ (∀ q, q ≤ st.w.allocated → w2.heap q = w1.heap q)
            ∧ (∀ ch, ch ≤ st.w.made → w2.chans ch = w1.chans ch)
            ∧ (∀ e ∈ L, ∀ k ∈ e.2, ∃ ch, mapGet r.results k = some ch ∧ st.w.made < ch
                ∧ (∀ values err,
                    fn (firstOccurrences e.2) = FnOutcome.returned values err →
                    ∃ l, w2.chans ch
                      = (({ (call.zero : call V E P) with dups := e.2.count k - 1 }).fill
                          (values.getD []) (Error.ofReturn err) k).result :: l)
                ∧ (fn (firstOccurrences e.2) = FnOutcome.goexit → w2.chans ch = [])) := by
  induction L generalizing st with
  | nil =>
    refine ⟨st, [], rfl, by simp, rfl, le_refl _, le_refl _, fun _ _ => rfl, fun _ _ => rfl,
      fun _ _ => rfl, hres, ?_, ?_, ?_⟩
    · intro e he; cases he
    · intro e he; cases he
    intro w1 sh1 ws _ _ _
    refine ⟨w1, sh1, rfl, rfl, fun _ _ => rfl, fun _ _ => rfl, ?_⟩
    intro e he; cases he
  | cons a rest ih =>
    obtain ⟨i, ks⟩ := a
    have hc : (i :: mapKeys rest).Nodup := by simpa [mapKeys] using hnd
    obtain ⟨g, hg, hglen⟩ := hfree (i, ks) (List.mem_cons_self _ _)
    simp only at hg
    have hi : i < st.shards.length := by
      by_contra hcon
      rw [List.getElem?_eq_none (by omega)] at hg
      cases hg
    obtain ⟨st1, hloop, e4, e1, e2, e3⟩ := sharded_loop_cons st i ks rest g hg
    rw [hloop]
    obtain ⟨c1, c2, c3, c4, c5, c6, c7, c8⟩ := DoChanX_fresh_frame st.w g ks hglen
    have hlen1 : st1.shards.length = st.shards.length := by rw [e1, List.length_set]
    have hnei : ∀ e ∈ rest, e.1 ≠ i := by
      intro e he h
      apply (List.nodup_cons.mp hc).1
      rw [← h]
      simp only [mapKeys, List.mem_map]
      exact ⟨e, he, rfl⟩
    have hnotin : ∀ k ∈ ks, ∀ e ∈ rest, k ∉ e.2 := by
      intro k hk e he hke
      have := hdisj (i, ks) (List.mem_cons_self _ _) e (List.mem_cons_of_mem _ he) k hk hke
      exact hnei e he this.symm
    obtain ⟨r, new1, h1, h2, h3, h4, h5, h6, h7, h8, h9, hch, hinj, h10⟩ := ih st1
      (List.nodup_cons.mp hc).2
      (by
        intro e he
        obtain ⟨g', a1, a2⟩ := hfree e (List.mem_cons_of_mem _ he)
        refine ⟨g', ?_, a2⟩
        rw [e1, List.getElem?_set_ne (fun h => hnei e he h.symm)]
        exact a1)
      (fun e he => hne e (List.mem_cons_of_mem _ he))
      (fun x hx y hy => hdisj x (List.mem_cons_of_mem _ hx) y (List.mem_cons_of_mem _ hy))
      (by rw [e2]; exact merge_nodup _ _ hres)
      (fun e he => hnp e (List.mem_cons_of_mem _ he))
      (fun e he => hdel e (List.mem_cons_of_mem _ he))
    rw [e4] at h4 h5 h6 h7 hch h10
    rw [c2] at h5 h7 hch h10
    have hres1 : ∀ k ∈ ks, mapGet r.results k = mapGet (DoChanX st.w g ks).results k := by
      intro k hk
      rw [h8 k (hnotin k hk), e2, merge_get _ _ c5]
      obtain ⟨ch, hch, _⟩ := (DoChanX_shape st.w g ks).2.2.2.2.2.2.1 k hk
      simp [hch]
    have hhead : ∀ k ∈ ks, ∃ ch, mapGet r.results k = some ch
        ∧ st.w.made < ch ∧ ch ≤ st.w.made + ks.length := by
      intro k hk
      obtain ⟨ch, y1, y2, y3⟩ := c7 k hk
      exact ⟨ch, by rw [hres1 k hk, y1], y2, y3⟩
    refine ⟨r, Spawned.mk i (DoChanX st.w g ks).results (DoChanX st.w g ks).calls
      (DoChanX st.w g ks).toCall :: new1, h1, ?_, by rw [h3, hlen1], by omega, by omega,
      ?_, ?_, ?_, h9, ?_, ?_, ?_⟩
    · rw [h2, e3]; simp
    · intro q hq
      rw [h6 q (by omega), c3 q hq]
    · intro ch hch
      rw [h7 ch (by omega), c4 ch, if_neg (by omega)]
    · intro k hk
      rw [h8 k (fun e he => hk e (List.mem_cons_of_mem _ he)), e2, merge_get _ _ c5]
      have : k ∉ ks := hk (i, ks) (List.mem_cons_self _ _)
      simp [c6 k this]
    · intro e he k hk
      rcases List.mem_cons.mp he with rfl | he
      · obtain ⟨ch, y1, y2, y3⟩ := hhead k hk
        exact ⟨ch, y1, y2, by omega⟩
      · obtain ⟨ch, y1, y2, y3⟩ := hch e he k hk
        exact ⟨ch, y1, by omega, y3⟩
    · intro x hx y hy k1 hk1 k2 hk2 heq
      rcases List.mem_cons.mp hx with rfl | hx
      · rcases List.mem_cons.mp hy with rfl | hy
        · simp only at hk1 hk2
          rw [hres1 k1 hk1, hres1 k2 hk2] at heq
          exact c8 k1 hk1 k2 hk2 heq
        · obtain ⟨ch1, y1, y2, y3⟩ := hhead k1 hk1
          obtain ⟨ch2, z1, z2, z3⟩ := hch y hy k2 hk2
          rw [y1, z1] at heq
          have : ch1 = ch2 := Option.some.inj heq
          omega
      · rcases List.mem_cons.mp hy with rfl | hy
        · obtain ⟨ch1, y1, y2, y3⟩ := hch x hx k1 hk1
          obtain ⟨ch2, z1, z2, z3⟩ := hhead k2 hk2
          rw [y1, z1] at heq
          have : ch1 = ch2 := Option.some.inj heq
          omega
        · exact hinj x hx y hy k1 hk1 k2 hk2 heq
    · intro w1 sh1 ws a1 a2 a3
      have hg1 : sh1[i]? = some sh1[i] := List.getElem?_eq_getElem (by omega)
      generalize sh1[i] = g1 at hg1
      obtain ⟨x1, x2, x3, x4⟩ := executor_fresh false st.w w1 g g1 ks fn hglen
        (hne (i, ks) (List.mem_cons_self _ _))
        (by
          intro q q1 q2
          rw [a1 q q1, h6 q q2])
        (by
          intro ch q1 q2
          rw [a2 ch q1, h7 ch q2, c4 ch, if_pos ⟨q1, q2⟩])
        (hnp (i, ks) (List.mem_cons_self _ _))
        (Or.inr (hdel (i, ks) (List.mem_cons_self _ _)))
      have hrun := run_cons_continue fn w1 sh1
        (Spawned.mk i (DoChanX st.w g ks).results (DoChanX st.w g ks).calls
          (DoChanX st.w g ks).toCall) new1 ws g1 hg1 x1
      simp only at hrun
      rw [hrun]
      generalize doCallX false w1 g1 (DoChanX st.w g ks).calls (DoChanX st.w g ks).toCall fn
        = x at x1 x2 x3 x4 ⊢
      obtain ⟨w2, sh2, b1, b2, b3, b4, b5⟩ := h10 x.1 (sh1.set i x.2.1) ws
        (by
          intro q hq
          rw [x2 q (Or.inr hq), a1 q (by omega)])
        (by
          intro ch hch
          rw [x3 ch (Or.inr hch), a2 ch (by omega)])
        (by rw [List.length_set, a3, hlen1])
      refine ⟨w2, sh2, b1, by rw [b2, List.length_set], ?_, ?_, ?_⟩
      · intro q hq
        rw [b3 q (by omega), x2 q (Or.inl hq)]
      · intro ch hch
        rw [b4 ch (by omega), x3 ch (Or.inl hch)]
      · intro e he k hk
        rcases List.mem_cons.mp he with rfl | he
        · obtain ⟨ch, y1, y2, y3, y4, y5⟩ := x4 k hk
          refine ⟨ch, by rw [hres1 k hk, y1], y2, ?_, ?_⟩
          · intro values err hfn
            rw [b4 ch y3]
            exact y4 values err hfn
          · intro hfn
            rw [b4 ch y3]
            exact y5 hfn
        · obtain ⟨ch, y1, y2, y3, y4⟩ := b5 e he k hk
          exact ⟨ch, y1, by omega, y3, y4⟩

/-- The receive loop of `ShardedGroup.DoX` when no executor waits and every
channel of the list, each listed once, holds a Result: it returns the first
Result of each. -/
theorem receive_returned (shards : List (Group K)) (val : K → Result V E P)
    (ch : List (K × Nat)) (w : World K V E P) (acc : List (K × Result V E P))
    (h : ∀ e ∈ ch, e.2 ≠ 0 ∧ ∃ l, w.chans e.2 = val e.1 :: l)
    (hnd : (ch.map Prod.snd).Nodup) :
    ∃ w2, ShardedGroup.DoX.receive w shards [] ch acc
      = (w2, shards, Exit.returned ((ch.map (fun e => (e.1, val e.1))).foldl
          (fun results e => mapSet results e.1 e.2) acc)) := by
  induction ch generalizing w acc with
  | nil => exact ⟨w, rfl⟩
  | cons a rest ih =>
    obtain ⟨k, c⟩ := a
    obtain ⟨h1, l, h2⟩ := h (k, c) (List.mem_cons_self _ _)
    simp only at h1 h2
    have hc : (c :: rest.map Prod.snd).Nodup := by simpa using hnd
    simp only [ShardedGroup.DoX.receive, h1, if_false, h2, ShardedGroup.DoX.wake,
      List.map_cons, List.foldl_cons]
    apply ih
    · intro e he
      obtain ⟨y1, l2, y2⟩ := h e (List.mem_cons_of_mem _ he)
      refine ⟨y1, l2, ?_⟩
      have hne : e.2 ≠ c := by
        intro heq
        apply (List.nodup_cons.mp hc).1
        rw [← heq]
        exact List.mem_map_of_mem Prod.snd he
      simp only [if_neg hne]
      exact y2
    · exact (List.nodup_cons.mp hc).2

/-- The receive loop of `ShardedGroup.DoX` when the channels of the list hold
nothing: the caller waits on the first one for ever. -/
theorem receive_blocked (w : World K V E P) (shards : List (Group K))
    (ws : List (Waiting K V E P)) (ch : List (K × Nat))
    (acc : List (K × Result V E P)) (hne : ch ≠ [])
    (h : ∀ e ∈ ch, w.chans e.2 = []) :
    ShardedGroup.DoX.receive w shards ws ch acc = (w, shards, Exit.blocked) := by
  cases ch with
  | nil => exact absurd rfl hne
  | cons a rest =>
    obtain ⟨k, c⟩ := a
    have h2 := h (k, c) (List.mem_cons_self _ _)
    simp only at h2
    simp only [ShardedGroup.DoX.receive, h2]
    split_ifs <;> rfl

theorem mapGet_map_val {A B : Type} (m : List (K × A)) (val : K → B) (k : K) :
    mapGet (m.map (fun e => (e.1, val e.1))) k = (mapGet m k).map (fun _ => val k) := by
  induction m with
  | nil => rfl
  | cons a rest ih =>
    obtain ⟨x, c⟩ := a
    by_cases hx : x = k
    · subst hx; simp [mapGet]
    · simp [mapGet, hx, ih]

theorem mapKeys_map_val {A B : Type} (m : List (K × A)) (val : K → B) :
    mapKeys (m.map (fun e => (e.1, val e.1))) = mapKeys m := by
  simp [mapKeys, List.map_map, Function.comp_def]

theorem spec_loop_cons (rx : Bool) (fn : List K → FnOutcome K V E P) (w : World K V E P)
    (shards : List (Group K)) (i : Nat) (ks : List K) (rest : List (Nat × List K))
    (acc res : List (K × Result V E P)) (g : Group K) (hg : shards[i]? = some g)
    (hx : (DoX rx w g ks fn).2.2 = Exit.returned res) :
    specShardedDoX.loop rx fn w shards ((i, ks) :: rest) acc
      = specShardedDoX.loop rx fn (DoX rx w g ks fn).1 (shards.set i (DoX rx w g ks fn).2.1)
          rest (res.foldl (fun results e => mapSet results e.1 e.2) acc) := by
  simp only [specShardedDoX.loop, hg]
  generalize DoX rx w g ks fn = out at hx ⊢
  obtain ⟨a, b, e⟩ := out
  simp only at hx
  subst hx
  rfl

theorem spec_loop_stop (rx : Bool) (fn : List K → FnOutcome K V E P) (w : World K V E P)
    (shards : List (Group K)) (i : Nat) (ks : List K) (rest : List (Nat × List K))
    (acc : List (K × Result V E P)) (g : Group K) (hg : shards[i]? = some g)
    (hx : ∀ res, (DoX rx w g ks fn).2.2 ≠ Exit.returned res) :
    ∃ w1 sh1, specShardedDoX.loop rx fn w shards ((i, ks) :: rest) acc
      = some (w1, sh1, (DoX rx w g ks fn).2.2) := by
  simp only [specShardedDoX.loop, hg]
  generalize DoX rx w g ks fn = out at hx ⊢
  obtain ⟨a, b, e⟩ := out
  cases e with
  | returned r => exact absurd rfl (hx r)
  | panicked v => exact ⟨_, _, rfl⟩
  | goexit => exact ⟨_, _, rfl⟩
  | crashed v => exact ⟨_, _, rfl⟩
  | blocked => exact ⟨_, _, rfl⟩
  | fault => exact ⟨_, _, rfl⟩

/-- The sharded `DoX` of the specification on shards without in-flight
records, when `fn` returns. -/
theorem spec_loop_returns (rx : Bool) (fn : List K → FnOutcome K V E P)
    (L : List (Nat × List K)) (w : World K V E P) (shards : List (Group K))
    (acc : List (K × Result V E P))
    (hnd : (mapKeys L).Nodup)
    (hfree : ∀ e ∈ L, ∃ g, shards[e.1]? = some g ∧ g.len = 0)
    (hdisj : ∀ e1 ∈ L, ∀ e2 ∈ L, ∀ k, k ∈ e1.2 → k ∈ e2.2 → e1.1 = e2.1)
    (hacc : (mapKeys acc).Nodup)
    (hfn : ∀ e ∈ L, ∃ values err, fn (firstOccurrences e.2) = FnOutcome.returned values err) :
    ∃ w1 sh1 res, specShardedDoX.loop rx fn w shards L acc = some (w1, sh1, Exit.returned res)
      ∧ (mapKeys res).Nodup
      ∧ (∀ k, (∀ e ∈ L, k ∉ e.2) → mapGet res k = mapGet acc k)
      ∧ (∀ e ∈ L, ∀ k ∈ e.2, ∀ values err,
          fn (firstOccurrences e.2) = FnOutcome.returned values err →
          mapGet res k
            = some (({ (call.zero : call V E P) with dups := e.2.count k - 1 }).fill
                (values.getD []) (Error.ofReturn err) k).result) := by
  induction L generalizing w shards acc with
  | nil =>
    refine ⟨w, shards, acc, rfl, hacc, fun _ _ => rfl, ?_⟩
    intro e he; cases he
  | cons a rest ih =>
    obtain ⟨i, ks⟩ := a
    have hc : (i :: mapKeys rest).Nodup := by simpa [mapKeys] using hnd
    obtain ⟨g, hg, hglen⟩ := hfree (i, ks) (List.mem_cons_self _ _)
    simp only at hg
    obtain ⟨values, err, hfn1⟩ := hfn (i, ks) (List.mem_cons_self _ _)
    simp only at hfn1
    obtain ⟨res1, d1, d2, d3, d4, d5, d6, d7⟩ := DoX_returns rx w g ks fn values err hglen hfn1
    have hnei : ∀ e ∈ rest, e.1 ≠ i := by
      intro e he h
      apply (List.nodup_cons.mp hc).1
      rw [← h]
      simp only [mapKeys, List.mem_map]
      exact ⟨e, he, rfl⟩
    have hnotin : ∀ k ∈ ks, ∀ e ∈ rest, k ∉ e.2 := by
      intro k hk e he hke
      have := hdisj (i, ks) (List.mem_cons_self _ _) e (List.mem_cons_of_mem _ he) k hk hke
      exact hnei e he this.symm
    rw [spec_loop_cons rx fn w shards i ks rest acc res1 g hg d1]
    obtain ⟨w1, sh1, res, h1, h2, h3, h4⟩ := ih (DoX rx w g ks fn).1
      (shards.set i (DoX rx w g ks fn).2.1)
      (res1.foldl (fun results e => mapSet results e.1 e.2) acc)
      (List.nodup_cons.mp hc).2
      (by
        intro e he
        obtain ⟨g', a1, a2⟩ := hfree e (List.mem_cons_of_mem _ he)
        refine ⟨g', ?_, a2⟩
        rw [List.getElem?_set_ne (fun h => hnei e he h.symm)]
        exact a1)
      (fun x hx y hy => hdisj x (List.mem_cons_of_mem _ hx) y (List.mem_cons_of_mem _ hy))
      (merge_nodup _ _ hacc)
      (fun e he => hfn e (List.mem_cons_of_mem _ he))
    refine ⟨w1, sh1, res, h1, h2, ?_, ?_⟩
    · intro k hk
      rw [h3 k (fun e he => hk e (List.mem_cons_of_mem _ he)), merge_get _ _ d5]
      have : k ∉ ks := hk (i, ks) (List.mem_cons_self _ _)
      simp [d6 k this]
    · intro e he k hk values' err' hfn'
      rcases List.mem_cons.mp he with rfl | he
      · simp only at hfn' hk
        rw [hfn1] at hfn'
        cases hfn'
        rw [h3 k (hnotin k hk), merge_get _ _ d5, d7 k hk, filter_eq_length]
        simp
      · exact h4 e he k hk values' err' hfn'

/-- The first executor `ShardedGroup.DoChanX` starts, and its records after
the registrations on the other shards. -/
theorem sharded_first_task (i : Nat) (ks : List K) (rest : List (Nat × List K))
    (st : ShardedChan K V E P) (g : Group K)
    (hg : st.shards[i]? = some g)
    (hnd : (mapKeys ((i, ks) :: rest)).Nodup)
    (hfree : ∀ e ∈ rest, ∃ g, st.shards[e.1]? = some g ∧ g.len = 0)
    (hne : ∀ e ∈ rest, e.2 ≠ [])
    (hdisj : ∀ e1 ∈ rest, ∀ e2 ∈ rest, ∀ k, k ∈ e1.2 → k ∈ e2.2 → e1.1 = e2.1)
    (hres : (mapKeys st.results).Nodup) :
    ∃ r new1, ShardedGroup.DoChanX.loop st ((i, ks) :: rest) = some r
      ∧ r.spawned = st.spawned ++ Spawned.mk i (DoChanX st.w g ks).results
          (DoChanX st.w g ks).calls (DoChanX st.w g ks).toCall :: new1
      ∧ r.shards.length = st.shards.length
      ∧ (∀ q, q ≤ (DoChanX st.w g ks).w.allocated
          → r.w.heap q = (DoChanX st.w g ks).w.heap q) := by
  have hc : (i :: mapKeys rest).Nodup := by simpa [mapKeys] using hnd
  obtain ⟨st1, hloop, e4, e1, e2, e3⟩ := sharded_loop_cons st i ks rest g hg
  rw [hloop]
  have hnei : ∀ e ∈ rest, e.1 ≠ i := by
    intro e he h
    apply (List.nodup_cons.mp hc).1
    rw [← h]
    simp only [mapKeys, List.mem_map]
    exact ⟨e, he, rfl⟩
  obtain ⟨r, new1, h1, h2, h3, h4, h5, h6, h7, h8, h9, h10⟩ :=
    sharded_run_facts (fun _ => (FnOutcome.goexit : FnOutcome K V E P)) rest st1
      (List.nodup_cons.mp hc).2
      (by
        intro e he
        obtain ⟨g', a1, a2⟩ := hfree e he
        refine ⟨g', ?_, a2⟩
        rw [e1, List.getElem?_set_ne (fun h => hnei e he h.symm)]
        exact a1)
      hne hdisj
      (by rw [e2]; exact merge_nodup _ _ hres)
      (by intro e he v h; cases h)
      (fun _ _ => Or.inr rfl)
  refine ⟨r, new1, h1, ?_, by rw [h3, e1, List.length_set], ?_⟩
  · rw [h2, e3]; simp
  · intro q hq
    rw [h6 q (by rw [e4]; exact hq), e4]

theorem sharded_DoX_of_run (bits : Nat) (w : World K V E P)
    (sg : ShardedGroup K) (keys : List K) (fn : List K → FnOutcome K V E P)
    (r : ShardedChan K V E P) (hr : ShardedGroup.DoChanX bits w sg keys = some r) :
    (∀ v, (ShardedGroup.DoX.run fn r.w r.shards r.spawned []).2.2.2 = Exit.crashed v
      → ∃ w1 s1, ShardedGroup.DoX bits w sg keys fn = some (w1, s1, Exit.crashed v))
    ∧ (∀ w2 sh2 ws, ShardedGroup.DoX.run fn r.w r.shards r.spawned []
          = (w2, sh2, ws, Exit.returned ())
      → ShardedGroup.DoX bits w sg keys fn
          = some (ShardedGroup.DoX.receive w2 sh2 ws r.results [])) := by
  constructor
  · intro v hx
    simp only [ShardedGroup.DoX, hr]
    generalize ShardedGroup.DoX.run fn r.w r.shards r.spawned [] = out at hx ⊢
    obtain ⟨a, b, c, e⟩ := out
    simp only at hx
    subst hx
    exact ⟨_, _, rfl⟩
  · intro w2 sh2 ws hx
    simp only [ShardedGroup.DoX, hr, hx]

/-- `Group.DoX` on a group without in-flight records when `fn` panics or exits
its thread: the panic is raised on the thread of the caller, and the thread of
the caller exits. -/
theorem DoX_abnormal (rx : Bool) (w : World K V E P) (g : Group K) (ks : List K)
    (fn : List K → FnOutcome K V E P) (hg : g.len = 0) (hne : ks ≠ []) :
    (∀ v, fn (firstOccurrences ks) = FnOutcome.panicked v
      → (DoX rx w g ks fn).2.2 = Exit.panicked v)
    ∧ (fn (firstOccurrences ks) = FnOutcome.goexit → (DoX rx w g ks fn).2.2 = Exit.goexit) := by
  obtain ⟨r1, r2, r3, r4, r5, r6⟩ := DoX_register_fresh w g ks hg
  have htc : firstOccurrences ks ≠ [] := by
    obtain ⟨a, ha⟩ := List.exists_mem_of_ne_nil ks hne
    intro h
    have := (mem_firstOccurrences ks a).mpr ha
    rw [h] at this
    cases this
  have hidx : ∀ k ∈ firstOccurrences ks,
      mapIndex (DoX.register w g ks).calls k ≠ 0
      ∧ ((DoX.register w g ks).w.heap (mapIndex (DoX.register w g ks).calls k)).wg ≠ 0
      ∧ ((DoX.register w g ks).w.heap (mapIndex (DoX.register w g ks).calls k)).chans = [] := by
    intro k hk
    obtain ⟨p, h1, h2, h3, h4⟩ := r5 k ((mem_firstOccurrences ks k).mp hk)
    have : mapIndex (DoX.register w g ks).calls k = p := by simp [mapIndex, h3]
    rw [this, h4]
    exact ⟨h1, by simp, rfl⟩
  have hinj : ∀ k1 ∈ firstOccurrences ks, ∀ k2 ∈ firstOccurrences ks,
      mapIndex (DoX.register w g ks).calls k1 = mapIndex (DoX.register w g ks).calls k2
        → k1 = k2 :=
    fun k1 h1 k2 h2 => r6 k1 ((mem_firstOccurrences ks k1).mp h1) k2
      ((mem_firstOccurrences ks k2).mp h2)
  constructor
  · intro v hfn
    cases htl : firstOccurrences ks with
    | nil => exact absurd htl htc
    | cons a tl =>
      rw [htl] at hfn hidx
      have hx := (doCallX_panicked_first rx (DoX.register w g ks).w
        { m := some (DoX.register w g ks).m } (DoX.register w g ks).calls a tl fn v hfn
        (fun k hk => (hidx k hk).1) (hidx a (List.mem_cons_self _ _)).2.1).2.1
        (hidx a (List.mem_cons_self _ _)).2.2
      unfold DoX
      simp only [r1, htl]
      generalize doCallX rx (DoX.register w g ks).w { m := some (DoX.register w g ks).m }
        (DoX.register w g ks).calls (a :: tl) fn = out at hx ⊢
      obtain ⟨x, y, e⟩ := out
      simp only at hx
      subst hx
      rfl
  · intro hfn
    have hx := (doCallX_goexit rx (DoX.register w g ks).w
      { m := some (DoX.register w g ks).m } (DoX.register w g ks).calls
      (firstOccurrences ks) fn htc hfn (nodup_firstOccurrences ks) hinj
      (fun k hk => ⟨(hidx k hk).1, (hidx k hk).2.1⟩)).1
    unfold DoX
    simp only [r1]
    generalize doCallX rx (DoX.register w g ks).w { m := some (DoX.register w g ks).m }
      (DoX.register w g ks).calls (firstOccurrences ks) fn = out at hx ⊢
    obtain ⟨x, y, e⟩ := out
    simp only at hx
    subst hx
    rfl

/-- The executor of a `DoChanX` without repeated keys, on a group without
in-flight records, completes without a receiver when `fn` returns. -/
theorem DoChanX_executor_completes_without_receiver (w : World K V E P) (g : Group K)
    (keys : List K) (fn : List K → FnOutcome K V E P) (values : Option (List (K × V)))
    (err : Option E) (hg : g.len = 0) (hnd : keys.Nodup)
    (hfn : fn (firstOccurrences keys) = FnOutcome.returned values err) :
    (doCallX false (DoChanX w g keys).w { m := some (DoChanX w g keys).m }
        (DoChanX w g keys).calls (DoChanX w g keys).toCall fn).2.2 = Exit.returned () := by
  by_cases hne : keys = []
  · subst hne
    have : (DoChanX w g ([] : List K)).toCall = [] := rfl
    rw [this, doCallX_nil]
  · obtain ⟨c1, c2, c3, c4, c5, c6⟩ := DoChanX_fresh_frame w g keys hg
    obtain ⟨x1, _, _, _⟩ := executor_fresh false w (DoChanX w g keys).w g
      { m := some (DoChanX w g keys).m } keys fn hg hne (fun _ _ _ => rfl)
      (by
        intro ch h1 h2
        rw [c4 ch, if_pos ⟨h1, h2⟩])
      (by intro v h; rw [hfn] at h; cases h)
      (Or.inr (Or.inl hnd))
    rcases x1 with h | h
    · exact h
    · exfalso
      obtain ⟨d1, _⟩ := doCallX_returned false (DoChanX w g keys).w
        { m := some (DoChanX w g keys).m } (DoChanX w g keys).calls
        (firstOccurrences keys) fn values err (by
          obtain ⟨a, ha⟩ := List.exists_mem_of_ne_nil keys hne
          intro h'
          have := (mem_firstOccurrences keys a).mpr ha
          rw [h'] at this
          cases this) hfn (nodup_firstOccurrences keys)
        (by
          have hm : g.m.getD [] = [] := List.length_eq_zero.mp hg
          have hget : ∀ k, g.get k = none := by
            intro k; simp [Group.get, hm, mapGet]
          obtain ⟨r1, r2, r3, r4, r5, r6, r7, r8, r9, r10, r11⟩ := DoChanX_fresh w g keys
            (fun k _ => hget k) (fun k p h => by rw [hget k] at h; cases h)
          exact fun k1 h1 k2 h2 => r7 k1 ((mem_firstOccurrences keys k1).mp h1) k2
            ((mem_firstOccurrences keys k2).mp h2))
        (by
          have hm : g.m.getD [] = [] := List.length_eq_zero.mp hg
          have hget : ∀ k, g.get k = none := by
            intro k; simp [Group.get, hm, mapGet]
          obtain ⟨r1, r2, r3, r4, r5, r6, r7, r8, r9, r10, r11⟩ := DoChanX_fresh w g keys
            (fun k _ => hget k) (fun k p h => by rw [hget k] at h; cases h)
          intro k hk
          obtain ⟨p, ch, a1, a2, a3, a4, a5, a6, a7, a8⟩ :=
            r6 k ((mem_firstOccurrences keys k).mp hk)
          have hidx : mapIndex (DoChanX w g keys).calls k = p := by simp [mapIndex, a4]
          rw [hidx, a8]
          exact ⟨by omega, by simp⟩)
      have hto : (DoChanX w g keys).toCall = firstOccurrences keys := by
        have hm : g.m.getD [] = [] := List.length_eq_zero.mp hg
        have hget : ∀ k, g.get k = none := by
          intro k; simp [Group.get, hm, mapGet]
        exact (DoChanX_fresh w g keys (fun k _ => hget k)
          (fun k p h => by rw [hget k] at h; cases h)).1
      rw [hto] at h
      rcases d1 with d | d <;> rw [h] at d <;> cases d

/-- The sharded `DoX` of the source against `Group.DoX` on each owning shard,
merged.  For a `uint` of 32 or 64 bits, a sharded group of `N ≥ 1` shards none
of which has a record in flight, and any hasher, state and key list: when `fn`
returns and no key is repeated in `keys`, `ShardedGroup.DoX(keys, fn)`
returns a map with the keys of `keys` that has, for every key, the Result
(value, valid, err, shared) of the map that calling `Group.DoX` on each owning
shard with the keys of that shard and merging gives.  When `fn` panics and
`keys` is not empty, the panic is raised on a fresh thread, which nothing can
recover, where the per-shard `Group.DoX` raises it on the thread of the
caller.  When `fn` exits its thread and `keys` is not empty, no Result is sent
and the caller waits for ever on a channel, where the per-shard `Group.DoX`
makes the thread of the caller exit. -/
theorem sharded_DoX_outcomes (rx : Bool) (bits : Nat) (hb : bits = 32 ∨ bits = 64)
    (w : World K V E P) (sg : ShardedGroup K) (keys : List K)
    (fn : List K → FnOutcome K V E P)
    (hN : 1 ≤ sg.count) (hfit : sg.count < 2 ^ bits) (hlen : sg.shards.length = sg.count)
    (hfree : ∀ g ∈ sg.shards, g.len = 0) :
    ((∀ ks, ∃ values err, fn ks = FnOutcome.returned values err)
      → keys.Nodup
      → ∃ w1 s1 w2 s2 res res',
          ShardedGroup.DoX bits w sg keys fn = some (w1, s1, Exit.returned res)
          ∧ specShardedDoX rx bits w sg keys fn = some (w2, s2, Exit.returned res')
          ∧ (∀ k, mapGet res k = mapGet res' k)
          ∧ (mapKeys res).Nodup ∧ (mapKeys res').Nodup
          ∧ (∀ k, k ∈ mapKeys res ↔ k ∈ keys))
    ∧ (∀ v, (∀ ks, fn ks = FnOutcome.panicked v) → keys ≠ []
        → ∃ w1 s1 w2 s2,
            ShardedGroup.DoX bits w sg keys fn = some (w1, s1, Exit.crashed v)
            ∧ specShardedDoX rx bits w sg keys fn = some (w2, s2, Exit.panicked v))
    ∧ ((∀ ks, fn ks = FnOutcome.goexit) → keys ≠ []
        → ∃ w1 s1 w2 s2,
            ShardedGroup.DoX bits w sg keys fn = some (w1, s1, Exit.blocked)
            ∧ specShardedDoX rx bits w sg keys fn = some (w2, s2, Exit.goexit)) := by
  have hlt : ∀ k, ShardedGroup.shardOf bits sg k < sg.count :=
    fun k => (shardOf_eq bits hb sg hN hfit k).2
  have hkbs := keysByShard_some bits hb sg hN hfit keys
  generalize hp : ShardedGroup.shardOf bits sg = p at hlt hkbs
  obtain ⟨q1, q2, q3, q4⟩ := keysByShard_entries keys p
  have hent := partitionBy_entry keys p
  generalize hL : partitionBy keys p = L at hkbs q1 q2 q3 q4 hent
  have hfreeL : ∀ e ∈ L, ∃ g, sg.shards[e.1]? = some g ∧ g.len = 0 := by
    intro e he
    obtain ⟨h1, h2⟩ := q2 e he
    obtain ⟨k, hk⟩ := List.exists_mem_of_ne_nil _ h1
    have hi : e.1 < sg.shards.length := by
      rw [hlen, ← ((h2 k).mp hk).2]
      exact hlt k
    exact ⟨sg.shards[e.1], List.getElem?_eq_getElem hi, hfree _ (List.getElem_mem hi)⟩
  have hneL : ∀ e ∈ L, e.2 ≠ [] := fun e he => (q2 e he).1
  have hdisj : ∀ e1 ∈ L, ∀ e2 ∈ L, ∀ k, k ∈ e1.2 → k ∈ e2.2 → e1.1 = e2.1 := by
    intro e1 h1 e2 h2 k k1 k2
    rw [← (((q2 e1 h1).2 k).mp k1).2, ← (((q2 e2 h2).2 k).mp k2).2]
  have hdc : ∀ r, ShardedGroup.DoChanX.loop
      ({ w := w, shards := sg.shards, results := [], spawned := [] } : ShardedChan K V E P) L
        = some r → ShardedGroup.DoChanX bits w sg keys = some r := by
    intro r hr
    simp only [ShardedGroup.DoChanX, hkbs]
    exact hr
  have hsp : ∀ x, specShardedDoX.loop rx fn w sg.shards L [] = x
      → specShardedDoX rx bits w sg keys fn = x := by
    intro x hx
    simp only [specShardedDoX, hkbs]
    exact hx
  refine ⟨?_, ?_, ?_⟩
  · intro hfn hdel
    obtain ⟨r, new, h1, h2, h3, h4, h5, h6, h7, h8, h9, hch, hinj, h10⟩ :=
      sharded_run_facts fn L
        ({ w := w, shards := sg.shards, results := [], spawned := [] } : ShardedChan K V E P)
        q1 hfreeL hneL hdisj (by simp [mapKeys])
        (by
          intro e he v h
          obtain ⟨values, err, h'⟩ := hfn (firstOccurrences e.2)
          rw [h'] at h
          cases h)
        (by
          intro e he
          left
          rw [(hent e he).1]
          exact hdel.filter _)
    simp only at h2 h8
    rw [List.nil_append] at h2
    obtain ⟨w2, sh2, b1, b2, b3, b4, b5⟩ := h10 r.w r.shards [] (fun _ _ => rfl)
      (fun _ _ => rfl) h3
    rw [← h2] at b1
    have hdox := (sharded_DoX_of_run bits w sg keys fn r (hdc r h1)).2 w2 sh2 [] b1
    obtain ⟨w3, sh3, res', s1, s2, s3, s4⟩ := spec_loop_returns rx fn L w sg.shards []
      q1 hfreeL hdisj (by simp [mapKeys]) (fun e _ => hfn (firstOccurrences e.2))
    have hin : ∀ k c, (k, c) ∈ r.results → ∃ e ∈ L, k ∈ e.2 := by
      intro k c hkc
      by_contra hcon
      have hnone : mapGet r.results k = none := by
        rw [h8 k (fun e he hk => hcon ⟨e, he, hk⟩)]
        rfl
      rw [mapGet_of_mem r.results k c h9 hkc] at hnone
      cases hnone
    have hin2 : ∀ k c, mapGet r.results k = some c → ∃ e ∈ L, k ∈ e.2 := by
      intro k c hkc
      by_contra hcon
      have hnone : mapGet r.results k = none := by
        rw [h8 k (fun e he hk => hcon ⟨e, he, hk⟩)]
        rfl
      rw [hkc] at hnone
      cases hnone
    have hvals : (r.results.map Prod.snd).Nodup := by
      apply values_nodup_of_inj r.results h9
      intro k1 k2 c z1 z2
      obtain ⟨e1, he1, hk1⟩ := hin2 k1 c z1
      obtain ⟨e2, he2, hk2⟩ := hin2 k2 c z2
      exact hinj e1 he1 e2 he2 k1 hk1 k2 hk2 (z1.trans z2.symm)
    obtain ⟨w5, hrecv⟩ := receive_returned sh2
      (fun k => (mapGet res' k).getD (call.zero : call V E P).result) r.results w2 []
      (by
        intro x hx
        obtain ⟨k, c⟩ := x
        obtain ⟨e, he, hk⟩ := hin k c hx
        obtain ⟨ch, y1, y2, y3, y4⟩ := b5 e he k hk
        obtain ⟨values, err, hfn'⟩ := hfn (firstOccurrences e.2)
        obtain ⟨l, hl⟩ := y3 values err hfn'
        have hc : c = ch := by
          have := mapGet_of_mem r.results k c h9 hx
          rw [y1] at this
          exact (Option.some.inj this).symm
        simp only
        rw [hc, s4 e he k hk values err hfn']
        exact ⟨by omega, l, hl⟩)
      hvals
    rw [hrecv] at hdox
    have hres : ∀ k, mapGet ((r.results.map (fun e => (e.1,
          (mapGet res' e.1).getD (call.zero : call V E P).result))).foldl
          (fun results e => mapSet results e.1 e.2) []) k = mapGet res' k := by
      intro k
      rw [merge_get _ _ (by
          rw [mapKeys_map_val r.results
            (fun k => (mapGet res' k).getD (call.zero : call V E P).result)]
          exact h9),
        mapGet_map_val r.results
          (fun k => (mapGet res' k).getD (call.zero : call V E P).result) k]
      by_cases hk : ∃ e ∈ L, k ∈ e.2
      · obtain ⟨e, he, hke⟩ := hk
        obtain ⟨ch, y1, y2, y3, y4⟩ := b5 e he k hke
        obtain ⟨values, err, hfn'⟩ := hfn (firstOccurrences e.2)
        rw [y1, s4 e he k hke values err hfn']
        simp
      · have hk' : ∀ e ∈ L, k ∉ e.2 := fun e he hke => hk ⟨e, he, hke⟩
        rw [h8 k hk', s3 k hk']
        simp [mapGet]
    refine ⟨w5, sh2, w3, sh3, _, res', hdox, hsp _ s1, hres, merge_nodup _ _ (by simp [mapKeys]),
      s2, ?_⟩
    intro k
    constructor
    · intro hk
      by_contra hne
      have hk' : ∀ e ∈ L, k ∉ e.2 := fun e he hke => hne (((q2 e he).2 k).mp hke).1
      have hnone := hres k
      rw [s3 k hk'] at hnone
      exact ((mapGet_eq_none_iff _ k).mp (by rw [hnone]; rfl)) hk
    · intro hk
      obtain ⟨e, he, _, hke⟩ := q3 k hk
      obtain ⟨values, err, hfn'⟩ := hfn (firstOccurrences e.2)
      by_contra hne
      have hnone := (mapGet_eq_none_iff _ k).mpr hne
      rw [hres k, s4 e he k hke values err hfn'] at hnone
      cases hnone
  · intro v hfn hkeys
    obtain ⟨k0, hk0⟩ := List.exists_mem_of_ne_nil keys hkeys
    obtain ⟨e0, he0, _, _⟩ := q3 k0 hk0
    cases hLc : L with
    | nil => rw [hLc] at he0; cases he0
    | cons a rest =>
      obtain ⟨i, ks⟩ := a
      rw [hLc] at q1 hfreeL hneL hdisj hdc hsp
      obtain ⟨g, hg, hglen⟩ := hfreeL (i, ks) (List.mem_cons_self _ _)
      simp only at hg
      have hks : ks ≠ [] := hneL (i, ks) (List.mem_cons_self _ _)
      obtain ⟨r, new1, h1, h2, h3, h4⟩ := sharded_first_task i ks rest
        ({ w := w, shards := sg.shards, results := [], spawned := [] } : ShardedChan K V E P)
        g hg q1
        (fun e he => hfreeL e (List.mem_cons_of_mem _ he))
        (fun e he => hneL e (List.mem_cons_of_mem _ he))
        (fun x hx y hy => hdisj x (List.mem_cons_of_mem _ hx) y (List.mem_cons_of_mem _ hy))
        (by simp [mapKeys])
      simp only at h2 h3 h4
      rw [List.nil_append] at h2
      have hm : g.m.getD [] = [] := List.length_eq_zero.mp hglen
      have hget : ∀ k, g.get k = none := by
        intro k; simp [Group.get, hm, mapGet]
      obtain ⟨r1, r2, r3, r4, r5, r6, r7, r8, r9, r10, r11⟩ := DoChanX_fresh w g ks
        (fun k _ => hget k) (fun k p h => by rw [hget k] at h; cases h)
      have hi : i < r.shards.length := by
        rw [h3]
        by_contra hcon
        rw [List.getElem?_eq_none (by omega)] at hg
        cases hg
      have hg1 : r.shards[i]? = some r.shards[i] := List.getElem?_eq_getElem hi
      generalize r.shards[i] = g1 at hg1
      have htc : firstOccurrences ks ≠ [] := by
        obtain ⟨a, ha⟩ := List.exists_mem_of_ne_nil ks hks
        intro h
        have := (mem_firstOccurrences ks a).mpr ha
        rw [h] at this
        cases this
      have hrecs : ∀ k ∈ firstOccurrences ks, mapIndex (DoChanX w g ks).calls k ≠ 0
          ∧ (r.w.heap (mapIndex (DoChanX w g ks).calls k)).wg ≠ 0
          ∧ (r.w.heap (mapIndex (DoChanX w g ks).calls k)).chans ≠ [] := by
        intro k hk
        have hk' := (mem_firstOccurrences ks k).mp hk
        obtain ⟨p, ch, a1, a2, a3, a4, a5, a6, a7, a8⟩ := r6 k hk'
        have hidx : mapIndex (DoChanX w g ks).calls k = p := by simp [mapIndex, a4]
        have hcnt : ks.count k ≠ 0 := by
          have := List.count_pos_iff.mpr hk'
          omega
        rw [hidx, h4 p a2, a8]
        refine ⟨by omega, by simp, ?_⟩
        simp only
        intro hnil
        have := congrArg List.length hnil
        simp only [List.length_replicate, List.length_nil] at this
        exact hcnt this
      have hx : (doCallX false r.w g1 (DoChanX w g ks).calls (DoChanX w g ks).toCall fn).2.2
          = Exit.crashed v := by
        rw [r1]
        cases htl : firstOccurrences ks with
        | nil => exact absurd htl htc
        | cons a tl =>
          rw [htl] at hrecs
          exact (doCallX_panicked_first false r.w g1 (DoChanX w g ks).calls a tl fn v
            (hfn _) (fun k hk => (hrecs k hk).1)
            (hrecs a (List.mem_cons_self _ _)).2.1).1 (hrecs a (List.mem_cons_self _ _)).2.2
      have hrun := run_cons_stop fn r.w r.shards
        (Spawned.mk i (DoChanX w g ks).results (DoChanX w g ks).calls (DoChanX w g ks).toCall)
        new1 [] g1 v hg1 hx
      rw [← h2] at hrun
      obtain ⟨w1, s1, hdox⟩ :=
        (sharded_DoX_of_run bits w sg keys fn r (hdc r h1)).1 v hrun
      obtain ⟨w2, s2, hspec⟩ := spec_loop_stop rx fn w sg.shards i ks rest [] g hg
        (by
          intro res h
          rw [(DoX_abnormal rx w g ks fn hglen hks).1 v (hfn _)] at h
          cases h)
      rw [(DoX_abnormal rx w g ks fn hglen hks).1 v (hfn _)] at hspec
      exact ⟨w1, s1, w2, s2, hdox, hsp _ hspec⟩
  · intro hfn hkeys
    obtain ⟨r, new, h1, h2, h3, h4, h5, h6, h7, h8, h9, hch, hinj, h10⟩ :=
      sharded_run_facts fn L
        ({ w := w, shards := sg.shards, results := [], spawned := [] } : ShardedChan K V E P)
        q1 hfreeL hneL hdisj (by simp [mapKeys])
        (by
          intro e he v h
          rw [hfn] at h
          cases h)
        (fun e _ => Or.inr (hfn _))
    simp only at h2 h8
    rw [List.nil_append] at h2
    obtain ⟨w2, sh2, b1, b2, b3, b4, b5⟩ := h10 r.w r.shards [] (fun _ _ => rfl)
      (fun _ _ => rfl) h3
    rw [← h2] at b1
    have hdox := (sharded_DoX_of_run bits w sg keys fn r (hdc r h1)).2 w2 sh2 [] b1
    obtain ⟨k0, hk0⟩ := List.exists_mem_of_ne_nil keys hkeys
    obtain ⟨e0, he0, _, hke0⟩ := q3 k0 hk0
    have hrne : r.results ≠ [] := by
      obtain ⟨ch, y1, _⟩ := b5 e0 he0 k0 hke0
      intro hnil
      rw [hnil] at y1
      cases y1
    have hrecv := receive_blocked w2 sh2 [] r.results [] hrne
      (by
        intro x hx
        obtain ⟨k, c⟩ := x
        have hin : ∃ e ∈ L, k ∈ e.2 := by
          by_contra hcon
          have hnone : mapGet r.results k = none := by
            rw [h8 k (fun e he hk => hcon ⟨e, he, hk⟩)]
            rfl
          rw [mapGet_of_mem r.results k c h9 hx] at hnone
          cases hnone
        obtain ⟨e, he, hk⟩ := hin
        obtain ⟨ch, y1, y2, y3, y4⟩ := b5 e he k hk
        have hc : c = ch := by
          have := mapGet_of_mem r.results k c h9 hx
          rw [y1] at this
          exact (Option.some.inj this).symm
        simp only
        rw [hc]
        exact y4 (hfn _))
    rw [hrecv] at hdox
    cases hLc : L with
    | nil => rw [hLc] at he0; cases he0
    | cons a rest =>
      obtain ⟨i, ks⟩ := a
      rw [hLc] at hfreeL hneL hsp
      obtain ⟨g, hg, hglen⟩ := hfreeL (i, ks) (List.mem_cons_self _ _)
      simp only at hg
      have hks : ks ≠ [] := hneL (i, ks) (List.mem_cons_self _ _)
      obtain ⟨w3, s3, hspec⟩ := spec_loop_stop rx fn w sg.shards i ks rest [] g hg
        (by
          intro res h
          rw [(DoX_abnormal rx w g ks fn hglen hks).2 (hfn _)] at h
          cases h)
      rw [(DoX_abnormal rx w g ks fn hglen hks).2 (hfn _)] at hspec
      exact ⟨w2, sh2, w3, s3, hdox, hsp _ hspec⟩

/-- The sharded group of four shards and the hasher "length of the key", on
the keys `"a"`, `"bb"`, `"ccc"`, `"dddd"`, with the work function of `TestDoX`. -/
theorem sharded_DoX_outcomes_witness :
    (1 ≤ (NewShardedGroup 4 (fun s : String => s.length)).count ∧ (NewShardedGroup 4 (fun s : String => s.length)).count < 2 ^ 64
      ∧ (NewShardedGroup 4 (fun s : String => s.length)).shards.length = (NewShardedGroup 4 (fun s : String => s.length)).count
      ∧ ∀ g ∈ (NewShardedGroup 4 (fun s : String => s.length)).shards, g.len = 0)
    ∧ (((∀ ks, ∃ values err, fnPartial ks = FnOutcome.returned values err)
      → ["a", "bb", "ccc", "dddd"].Nodup
      → ∃ w1 s1 w2 s2 res res',
          ShardedGroup.DoX 64 (World.init : World String String String String) (NewShardedGroup 4 (fun s : String => s.length)) ["a", "bb", "ccc", "dddd"] fnPartial = some (w1, s1, Exit.returned res)
          ∧ specShardedDoX false 64 (World.init : World String String String String) (NewShardedGroup 4 (fun s : String => s.length)) ["a", "bb", "ccc", "dddd"] fnPartial = some (w2, s2, Exit.returned res')
          ∧ (∀ k, mapGet res k = mapGet res' k)
          ∧ (mapKeys res).Nodup ∧ (mapKeys res').Nodup
          ∧ (∀ k, k ∈ mapKeys res ↔ k ∈ ["a", "bb", "ccc", "dddd"]))
    ∧ (∀ v, (∀ ks, fnPartial ks = FnOutcome.panicked v) → ["a", "bb", "ccc", "dddd"] ≠ []
        → ∃ w1 s1 w2 s2,
            ShardedGroup.DoX 64 (World.init : World String String String String) (NewShardedGroup 4 (fun s : String => s.length)) ["a", "bb", "ccc", "dddd"] fnPartial = some (w1, s1, Exit.crashed v)
            ∧ specShardedDoX false 64 (World.init : World String String String String) (NewShardedGroup 4 (fun s : String => s.length)) ["a", "bb", "ccc", "dddd"] fnPartial = some (w2, s2, Exit.panicked v))
    ∧ ((∀ ks, fnPartial ks = FnOutcome.goexit) → ["a", "bb", "ccc", "dddd"] ≠ []
        → ∃ w1 s1 w2 s2,
            ShardedGroup.DoX 64 (World.init : World String String String String) (NewShardedGroup 4 (fun s : String => s.length)) ["a", "bb", "ccc", "dddd"] fnPartial = some (w1, s1, Exit.blocked)
            ∧ specShardedDoX false 64 (World.init : World String String String String) (NewShardedGroup 4 (fun s : String => s.length)) ["a", "bb", "ccc", "dddd"] fnPartial = some (w2, s2, Exit.goexit))) :=
  ⟨⟨by decide, by decide, by decide, by decide⟩,
   sharded_DoX_outcomes false 64 (Or.inr rfl) World.init
     (NewShardedGroup 4 (fun s : String => s.length)) ["a", "bb", "ccc", "dddd"] fnPartial
     (by decide) (by decide) (by decide) (by decide)⟩

/-- C12: on the sharded group of four shards with the hasher "length of the
key", `ShardedGroup.DoX` does not have the outcome of `Group.DoX` called on
the owning shard.  With the panicking `fn` of `TestPanicDoX` and the key
`"key"` it ends in the panic raised on a fresh thread, which nothing can
recover, where `Group.DoX` raises it on the thread of the caller.  With the
`fn` of `TestGoexitDoX` the caller waits for ever, where `Group.DoX` makes the
thread of the caller exit.  With the keys `"a"`, `"a"`, `"a"`, `"b"`, all of
one shard, and a `fn` that returns, the caller waits for ever, where
`Group.DoX` returns a Result for `"a"` and for `"b"`. -/
theorem sharded_DoX_differs_from_per_shard_DoX :
    (ShardedGroup.DoX 64 (World.init : World String String String String)
        (NewShardedGroup 4 (fun s : String => s.length)) ["key"] fnPanic).map
          (fun r => r.2.2)
      = some (Exit.crashed "invalid memory address or nil pointer dereference")
    ∧ (specShardedDoX false 64 (World.init : World String String String String)
        (NewShardedGroup 4 (fun s : String => s.length)) ["key"] fnPanic).map
          (fun r => r.2.2)
      = some (Exit.panicked "invalid memory address or nil pointer dereference")
    ∧ (ShardedGroup.DoX 64 (World.init : World String String String String)
        (NewShardedGroup 4 (fun s : String => s.length)) ["key"] fnGoexit).map
          (fun r => r.2.2)
      = some Exit.blocked
    ∧ (specShardedDoX false 64 (World.init : World String String String String)
        (NewShardedGroup 4 (fun s : String => s.length)) ["key"] fnGoexit).map
          (fun r => r.2.2)
      = some Exit.goexit
    ∧ (ShardedGroup.DoX 64 (World.init : World String String String String)
        (NewShardedGroup 4 (fun s : String => s.length)) ["a", "a", "a", "b"] fnAnError).map
          (fun r => r.2.2)
      = some Exit.blocked
    ∧ (specShardedDoX false 64 (World.init : World String String String String)
        (NewShardedGroup 4 (fun s : String => s.length)) ["a", "a", "a", "b"] fnAnError).map
          (fun r => r.2.2)
      = some (Exit.returned
          [("a", { Value := { Value := "foo", Valid := true },
                   Err := Error.user "assert.AnError general error for testing",
                   Shared := true }),
           ("b", { Value := { Value := "bar", Valid := true },
                   Err := Error.user "assert.AnError general error for testing",
                   Shared := false })]) :=
  ⟨by decide, by decide, by decide, by decide, by decide, by decide⟩

/-- The wait of `ShardedGroup.DoX(["a", "a", "a", "b"], fn)` does not depend on
the order in which the caller receives from the two channels: `DoChanX`
returns the channel `3` for `"a"` and the channel `4` for `"b"`, and, the
executor of the shard having run as far as it gets, the receive loop waits for
ever when it starts at `"a"` and when it starts at `"b"`. -/
theorem sharded_DoX_repeated_key_waits_in_either_order :
    (ShardedGroup.DoChanX 64 (World.init : World String String String String)
        (NewShardedGroup 4 (fun s : String => s.length)) ["a", "a", "a", "b"]).map
          (fun r => r.results)
      = some [("a", 3), ("b", 4)]
    ∧ (ShardedGroup.DoChanX 64 (World.init : World String String String String)
        (NewShardedGroup 4 (fun s : String => s.length)) ["a", "a", "a", "b"]).map
          (fun r =>
            (ShardedGroup.DoX.receive
              (ShardedGroup.DoX.run fnAnError r.w r.shards r.spawned []).1
              (ShardedGroup.DoX.run fnAnError r.w r.shards r.spawned []).2.1
              (ShardedGroup.DoX.run fnAnError r.w r.shards r.spawned []).2.2.1
              [("a", 3), ("b", 4)] []).2.2)
      = some Exit.blocked
    ∧ (ShardedGroup.DoChanX 64 (World.init : World String String String String)
        (NewShardedGroup 4 (fun s : String => s.length)) ["a", "a", "a", "b"]).map
          (fun r =>
            (ShardedGroup.DoX.receive
              (ShardedGroup.DoX.run fnAnError r.w r.shards r.spawned []).1
              (ShardedGroup.DoX.run fnAnError r.w r.shards r.spawned []).2.1
              (ShardedGroup.DoX.run fnAnError r.w r.shards r.spawned []).2.2.1
              [("b", 4), ("a", 3)] []).2.2)
      = some Exit.blocked :=
  ⟨by decide, by decide, by decide⟩

/-- A repeated key alone does not make `ShardedGroup.DoX` wait: with the keys
`"a"`, `"a"` it returns the Result of `"a"` with `Shared = true`, the executor
being left on its second send, and with the keys `"b"`, `"a"`, `"a"`, `"a"`
it returns a Result for both keys. -/
theorem sharded_DoX_repeated_key_may_return :
    (ShardedGroup.DoX 64 (World.init : World String String String String)
        (NewShardedGroup 4 (fun s : String => s.length)) ["a", "a"] fnAnError).map
          (fun r => r.2.2)
      = some (Exit.returned
          [("a", { Value := { Value := "foo", Valid := true },
                   Err := Error.user "assert.AnError general error for testing",
                   Shared := true })])
    ∧ (ShardedGroup.DoX 64 (World.init : World String String String String)
        (NewShardedGroup 4 (fun s : String => s.length)) ["b", "a", "a", "a"] fnAnError).map
          (fun r => r.2.2)
      = some (Exit.returned
          [("b", { Value := { Value := "bar", Valid := true },
                   Err := Error.user "assert.AnError general error for testing",
                   Shared := false }),
           ("a", { Value := { Value := "foo", Valid := true },
                   Err := Error.user "assert.AnError general error for testing",
                   Shared := true })]) :=
  ⟨by decide, by decide⟩

end ShardedDoX

end singleflightx
